import Mathlib

/-!
Verification of the korda-tools custom tool library core
(`src-tauri/src/tools/{storage,db,zip,commands,error}.rs`).

Modelling conventions:
* Rust `String`/`&str` values are modelled as `List Char` (`Str`); Rust's
  byte-oriented `str::len` is modelled by `utf8Len` (sum of UTF-8 sizes).
* Byte buffers (`Vec<u8>`) are `List Nat` with entries below 256.
* Fallible Rust functions returning `ToolsResult<T>` become
  `Except ToolsError T`.
* The unbounded `loop`s in `unique_sanitized_filename` and
  `resolve_unique_slug` are modelled with an explicit fuel argument large
  enough that exhaustion is unreachable in the situations the theorems
  discuss; exhaustion returns a distinguished error.
* SQLite tables are association lists; a transaction is modelled by the
  function returning either the fully-updated catalog or an error (the
  Rust code wraps the same inserts in one `BEGIN`/`COMMIT`).
* The filesystem store is an association list from stored relative paths
  to byte lists; `fs::write` replaces, `fs::remove_file` deletes.
* `SystemTime::now` and `Uuid::new_v4` are side effects; they enter the
  model as explicit parameters (`now`, identifier arguments).
* The zip container and JSON serialisation are external boundaries
  (PowerShell `Compress-Archive` / serde); an archive is modelled as its
  logical content: the structured manifest, the instructions text and the
  entry tree produced by safe extraction.
-/

set_option maxRecDepth 20000

namespace KordaTools

/-- Rust strings, modelled as lists of characters. -/
abbrev Str := List Char

/-- Byte buffers (`Vec<u8>`); entries are intended to be < 256. -/
abbrev Bytes := List Nat

/-- `char::is_ascii_alphanumeric` (code-point ranges `0-9`, `A-Z`, `a-z`). -/
def isAsciiAlnum (c : Char) : Bool :=
  decide ((48 ≤ c.toNat ∧ c.toNat ≤ 57) ∨ (65 ≤ c.toNat ∧ c.toNat ≤ 90) ∨
    (97 ≤ c.toNat ∧ c.toNat ≤ 122))

/-- `u8::to_ascii_lowercase` on a character (`char::to_ascii_lowercase`). -/
def asciiLower (c : Char) : Char :=
  if 65 ≤ c.toNat ∧ c.toNat ≤ 90 then Char.ofNat (c.toNat + 32) else c

/-- `char::to_ascii_uppercase`. -/
def asciiUpper (c : Char) : Char :=
  if 97 ≤ c.toNat ∧ c.toNat ≤ 122 then Char.ofNat (c.toNat - 32) else c

/-- `str::to_ascii_lowercase`. -/
def lowerStr (s : Str) : Str := s.map asciiLower

/-- Code points with the Unicode `White_Space` property, as used by
Rust's `char::is_whitespace` (hence `str::trim`). -/
def wsCodes : List Nat :=
  [9, 10, 11, 12, 13, 32, 0x85, 0xA0, 0x1680,
   0x2000, 0x2001, 0x2002, 0x2003, 0x2004, 0x2005, 0x2006, 0x2007,
   0x2008, 0x2009, 0x200A, 0x2028, 0x2029, 0x202F, 0x205F, 0x3000]

/-- `char::is_whitespace`. -/
def rustWs (c : Char) : Bool := c.toNat ∈ wsCodes

/-- Drop the characters satisfying `p` from both ends
(`str::trim_matches`-style). -/
def trimBy (p : Char → Bool) (s : Str) : Str :=
  ((s.dropWhile p).reverse.dropWhile p).reverse

/-- `str::trim`. -/
def trimStr (s : Str) : Str := trimBy rustWs s

/-- `str::contains("..")`. -/
def hasDotDot : Str → Bool
  | [] => false
  | [_] => false
  | a :: b :: t => (a == '.' && b == '.') || hasDotDot (b :: t)

/-- Whether `pat` is an initial run of `s`. -/
def leadsWith : Str → Str → Bool
  | [], _ => true
  | _ :: _, [] => false
  | a :: as, b :: bs => a == b && leadsWith as bs

/-- `str::contains(pat)`: substring test. -/
def containsSub (pat : Str) : Str → Bool
  | [] => decide (pat = [])
  | c :: t => leadsWith pat (c :: t) || containsSub pat t

/-- `str::split('/')` (keeps empty segments, `"" ↦ [""]`). -/
def splitSlash : Str → List Str
  | [] => [[]]
  | c :: t =>
    if c = '/' then [] :: splitSlash t
    else
      match splitSlash t with
      | [] => [[c]]
      | h :: r => (c :: h) :: r

/-- Helper for `splitExt`: scans the reversed name for the first `'.'`
from the right; `acc` accumulates the (un-reversed) extension seen so far. -/
def splitExtAux : Str → Str → Option (Str × Str)
  | [], _ => none
  | c :: rest, acc =>
    if c = '.' then
      if rest = [] then none else some (rest.reverse, acc)
    else splitExtAux rest (c :: acc)

/-- Rust `Path::file_stem` / `Path::extension` for a single-component file
name: `some (stem, ext)` when the name has an extension, `none` otherwise
(no dot, or the only dot is the leading one, or the name is `".."`). -/
def splitExt (name : Str) : Option (Str × Str) :=
  if name = ['.', '.'] then none else splitExtAux name.reverse []

/-- Decimal digit to character. -/
def digitChar (d : Nat) : Char :=
  match d with
  | 0 => '0' | 1 => '1' | 2 => '2' | 3 => '3' | 4 => '4'
  | 5 => '5' | 6 => '6' | 7 => '7' | 8 => '8' | _ => '9'

/-- Fuel-driven decimal rendering (most significant digit first). -/
def decRepAux : Nat → Nat → Str
  | 0, _ => []
  | fuel + 1, n =>
    if n < 10 then [digitChar n]
    else decRepAux fuel (n / 10) ++ [digitChar (n % 10)]

/-- `usize::to_string` / `u64::to_string` (decimal). -/
def natDecimal (n : Nat) : Str := decRepAux (n + 1) n

/-- Decimal value of a digit string (left inverse of `natDecimal`). -/
def decVal (s : Str) : Nat := s.foldl (fun a c => a * 10 + (c.toNat - 48)) 0

/-- UTF-8 size of one character (Rust strings are UTF-8; `str::len` counts
bytes). -/
def utf8Size (c : Char) : Nat :=
  if c.toNat ≤ 0x7F then 1
  else if c.toNat ≤ 0x7FF then 2
  else if c.toNat ≤ 0xFFFF then 3
  else 4

/-- `str::len` (UTF-8 byte length). -/
def utf8Len (s : Str) : Nat := (s.map utf8Size).sum

/-- The error enum of `tools/error.rs`. -/
inductive ToolsError where
  | Validation (msg : Str)
  | NotFound (msg : Str)
  | Conflict (msg : Str)
  | Database (msg : Str)
  | Io (msg : Str)
  | Zip (msg : Str)
deriving DecidableEq, Repr

abbrev ToolsResult (α : Type) := Except ToolsError α

/-- `ToolsError::user_message`. -/
def ToolsError.user_message : ToolsError → Str
  | .Validation m | .NotFound m | .Conflict m | .Database m | .Io m | .Zip m => m

/-- `DEFAULT_MAX_FILE_SIZE_BYTES` (50 MiB). -/
def DEFAULT_MAX_FILE_SIZE_BYTES : Nat := 50 * 1024 * 1024

/-- `DEFAULT_MAX_VERSION_SIZE_BYTES` (200 MiB). -/
def DEFAULT_MAX_VERSION_SIZE_BYTES : Nat := 200 * 1024 * 1024

/-- `MAX_SANITIZED_FILENAME_LEN`. -/
def MAX_SANITIZED_FILENAME_LEN : Nat := 120

/-- `ALLOWED_EXTENSIONS`. -/
def ALLOWED_EXTENSIONS : List Str :=
  ["lsp".toList, "vlx".toList, "fas".toList, "scr".toList, "dwg".toList,
   "dxf".toList, "cuix".toList, "zip".toList, "pdf".toList, "txt".toList,
   "md".toList, "json".toList]

/-- Characters kept verbatim in a sanitized stem (ASCII alphanumerics and
`-`, `_`, `.`); every other character (whitespace included) maps to `'_'`. -/
def preservedChar (c : Char) : Bool :=
  isAsciiAlnum c || c = '-' || c = '_' || c = '.'

/-- The per-character remapping of the stem in `sanitize_filename`. -/
def mapStemChar (c : Char) : Char := if preservedChar c then c else '_'

/-- The trim set `['.', ' ']` of `trim_matches` in `sanitize_filename`. -/
def dotSpace (c : Char) : Bool := c = '.' || c = ' '

/-- `str::trim_matches(['.', ' '])`. -/
def trimDotSpace (s : Str) : Str := trimBy dotSpace s

/-- The reserved device names matched by `is_reserved_windows_name`. -/
def RESERVED_STEMS : List Str :=
  ["CON".toList, "PRN".toList, "AUX".toList, "NUL".toList,
   "COM1".toList, "COM2".toList, "COM3".toList, "COM4".toList,
   "COM5".toList, "COM6".toList, "COM7".toList, "COM8".toList,
   "COM9".toList, "LPT1".toList, "LPT2".toList, "LPT3".toList,
   "LPT4".toList, "LPT5".toList, "LPT6".toList, "LPT7".toList,
   "LPT8".toList, "LPT9".toList]

/-- `is_reserved_windows_name` (case-insensitive match of the stem). -/
def is_reserved_windows_name (stem : Str) : Bool :=
  decide (stem.map asciiUpper ∈ RESERVED_STEMS)

/-- The `Allowed: .lsp, .vlx, …` tail of the unsupported-extension message. -/
def allowedJoined : Str :=
  List.intercalate ", ".toList (ALLOWED_EXTENSIONS.map (fun e => '.' :: e))

/-- `sanitize_filename` (`tools/storage.rs`).

The Rust `Path::components` check is modelled by the single residual case
it can still reject: after the guards above it (`/`, `\`, `..`, `:` all
absent, name non-empty) the candidate is one path component, and that
component is `Normal` unless the whole name is `"."` (`CurDir`). -/
def sanitize_filename (original_name : Str) : ToolsResult Str :=
  let candidate := trimStr original_name
  if candidate = [] then
    .error (.Validation "File name is required.".toList)
  else if '/' ∈ candidate ∨ '\\' ∈ candidate ∨ hasDotDot candidate = true then
    .error (.Validation
      "File name cannot contain path separators or traversal segments.".toList)
  else if ':' ∈ candidate then
    .error (.Validation "File name cannot contain drive-prefix separators.".toList)
  else if candidate = ['.'] then
    .error (.Validation "File name must be a single relative file name.".toList)
  else
    match splitExt candidate with
    | none => .error (.Validation "File extension is required.".toList)
    | some (stemRaw, extRaw) =>
      let ext := extRaw.map asciiLower
      if ext ∉ ALLOWED_EXTENSIONS then
        .error (.Validation ("Unsupported file extension .".toList ++ ext ++
          ". Allowed: ".toList ++ allowedJoined))
      else
        let mapped := stemRaw.map mapStemChar
        let trimmed := trimDotSpace mapped
        let s1 := if trimmed = [] then "file".toList else trimmed
        let s2 := if is_reserved_windows_name s1 then s1 ++ "_file".toList else s1
        let maxStem := MAX_SANITIZED_FILENAME_LEN - (utf8Len ext + 1)
        let s3 := if utf8Len s2 > maxStem then s2.take (max maxStem 1) else s2
        .ok (s3 ++ '.' :: ext)

/-- `assert_safe_archive_path` (`tools/storage.rs`).

The final `Path::components` loop is omitted: once the split check has
ruled out empty, `"."` and `".."` segments and the earlier guards have
ruled out `:`, `\` and a leading `/`, every component is `Normal`. -/
def assert_safe_archive_path (path : Str) : ToolsResult Unit :=
  let t := trimStr path
  if t = [] then
    .error (.Zip "Zip entry has an empty path.".toList)
  else if t.head? = some '/' ∨ t.head? = some '\\' ∨ ':' ∈ t then
    .error (.Zip ("Unsafe zip entry path: ".toList ++ t))
  else if '\\' ∈ t then
    .error (.Zip ("Unsafe zip entry path: ".toList ++ t))
  else if Char.ofNat 0 ∈ t then
    .error (.Zip ("Unsafe zip entry path: ".toList ++ t))
  else if ∃ seg ∈ splitSlash t, seg = [] ∨ seg = ['.'] ∨ seg = ['.', '.'] then
    .error (.Zip ("Unsafe zip entry path: ".toList ++ t))
  else
    .ok ()

/-- `validate_storage_segment` (`tools/storage.rs`). -/
def validate_storage_segment (label : Str) (value : Str) : ToolsResult Str :=
  let t := trimStr value
  if t = [] then
    .error (.Validation (label ++ " is required.".toList))
  else if '/' ∈ t ∨ '\\' ∈ t ∨ hasDotDot t = true ∨ ':' ∈ t then
    .error (.Validation (label ++ " contains unsafe path characters.".toList))
  else if ¬ (∀ c ∈ t, isAsciiAlnum c = true ∨ c = '-' ∨ c = '_') then
    .error (.Validation (label ++ " contains unsupported characters.".toList))
  else
    .ok t

/-- `STORAGE_ROOT_SEGMENT`. -/
def toolsSeg : Str := "tools".toList

/-- `STORAGE_FILES_SEGMENT`. -/
def filesSeg : Str := "files".toList

/-- `build_stored_rel_path` (`tools/storage.rs`). -/
def build_stored_rel_path (tool_id version_id file_name : Str) : ToolsResult Str := do
  let st ← validate_storage_segment "tool_id".toList tool_id
  let sv ← validate_storage_segment "version_id".toList version_id
  let sf ← sanitize_filename file_name
  return toolsSeg ++ '/' :: st ++ '/' :: sv ++ '/' :: filesSeg ++ '/' :: sf

/-- `normalize_stored_rel_path` (`tools/storage.rs`). -/
def normalize_stored_rel_path (stored_rel_path : Str) : ToolsResult Str := do
  let _ ← assert_safe_archive_path stored_rel_path
  match splitSlash (trimStr stored_rel_path) with
  | [s0, s1, s2, s3, s4] =>
    if s0 = toolsSeg ∧ s3 = filesSeg then do
      let st ← validate_storage_segment "tool_id".toList s1
      let sv ← validate_storage_segment "version_id".toList s2
      let sf ← sanitize_filename s4
      if sf = s4 then
        return toolsSeg ++ '/' :: st ++ '/' :: sv ++ '/' :: filesSeg ++ '/' :: sf
      else
        .error (.Io ("Stored file name must already be sanitized: ".toList ++ s4))
    else
      .error (.Io ("Invalid stored path structure: ".toList ++
        trimStr stored_rel_path))
  | _ =>
    .error (.Io ("Invalid stored path structure: ".toList ++
      trimStr stored_rel_path))

/-- `assert_stored_path_matches_version` (`tools/storage.rs`); the prefix
test is `str::starts_with`. -/
def assert_stored_path_matches_version
    (stored_rel_path tool_id version_id : Str) : ToolsResult Unit := do
  let normalized ← normalize_stored_rel_path stored_rel_path
  let st ← validate_storage_segment "tool_id".toList tool_id
  let sv ← validate_storage_segment "version_id".toList version_id
  let pre := toolsSeg ++ '/' :: st ++ '/' :: sv ++ '/' :: filesSeg
  if pre = normalized.take pre.length then
    return ()
  else
    .error (.Io ("Stored path is outside requested version scope: ".toList ++
      normalized))

/-! ### SHA-256 (the `sha2` crate dependency, per FIPS 180-4) -/

/-- Reduce modulo `2 ^ 32`. -/
def w32 (n : Nat) : Nat := n % 4294967296

/-- 32-bit rotate right. -/
def rotr32 (k x : Nat) : Nat := w32 ((x >>> k) ||| (x <<< (32 - k)))

/-- 32-bit bitwise complement (for `x < 2 ^ 32`). -/
def not32 (x : Nat) : Nat := 4294967295 - x

def bsig0 (x : Nat) : Nat := (rotr32 2 x) ^^^ (rotr32 13 x) ^^^ (rotr32 22 x)
def bsig1 (x : Nat) : Nat := (rotr32 6 x) ^^^ (rotr32 11 x) ^^^ (rotr32 25 x)
def ssig0 (x : Nat) : Nat := (rotr32 7 x) ^^^ (rotr32 18 x) ^^^ (x >>> 3)
def ssig1 (x : Nat) : Nat := (rotr32 17 x) ^^^ (rotr32 19 x) ^^^ (x >>> 10)
def chF (x y z : Nat) : Nat := (x &&& y) ^^^ (not32 x &&& z)
def majF (x y z : Nat) : Nat := (x &&& y) ^^^ (x &&& z) ^^^ (y &&& z)

/-- The SHA-256 round constants (decimal). -/
def K64 : List Nat :=
  [1116352408, 1899447441, 3049323471, 3921009573,
   961987163, 1508970993, 2453635748, 2870763221,
   3624381080, 310598401, 607225278, 1426881987,
   1925078388, 2162078206, 2614888103, 3248222580,
   3835390401, 4022224774, 264347078, 604807628,
   770255983, 1249150122, 1555081692, 1996064986,
   2554220882, 2821834349, 2952996808, 3210313671,
   3336571891, 3584528711, 113926993, 338241895,
   666307205, 773529912, 1294757372, 1396182291,
   1695183700, 1986661051, 2177026350, 2456956037,
   2730485921, 2820302411, 3259730800, 3345764771,
   3516065817, 3600352804, 4094571909, 275423344,
   430227734, 506948616, 659060556, 883997877,
   958139571, 1322822218, 1537002063, 1747873779,
   1955562222, 2024104815, 2227730452, 2361852424,
   2428436474, 2756734187, 3204031479, 3329325298]

/-- The SHA-256 initial hash value (decimal). -/
def H256 : List Nat :=
  [1779033703, 3144134277, 1013904242, 2773480762,
   1359893119, 2600822924, 528734635, 1541459225]

/-- Big-endian 8-byte encoding. -/
def be64 (n : Nat) : Bytes :=
  [n / 2 ^ 56 % 256, n / 2 ^ 48 % 256, n / 2 ^ 40 % 256, n / 2 ^ 32 % 256,
   n / 2 ^ 24 % 256, n / 2 ^ 16 % 256, n / 2 ^ 8 % 256, n % 256]

/-- SHA-256 message padding. -/
def sha256pad (m : Bytes) : Bytes :=
  m ++ 128 :: List.replicate ((119 - m.length % 64) % 64) 0 ++ be64 (8 * m.length)

/-- Fuel-driven chunking helper. -/
def chunksAux (k : Nat) : Nat → List α → List (List α)
  | 0, _ => []
  | _, [] => []
  | fuel + 1, l => l.take k :: chunksAux k fuel (l.drop k)

/-- Split a list into chunks of `k` elements. -/
def chunks (k : Nat) (l : List α) : List (List α) := chunksAux k l.length l

/-- Big-endian word from bytes. -/
def beWord (bs : Bytes) : Nat := bs.foldl (fun a b => a * 256 + b) 0

/-- Extend the 16-word block to the 64-word message schedule. -/
def schedExt : Nat → List Nat → List Nat
  | 0, w => w
  | fuel + 1, w =>
    let t := w.length
    let next := w32 (ssig1 (w.getD (t - 2) 0) + w.getD (t - 7) 0 +
      ssig0 (w.getD (t - 15) 0) + w.getD (t - 16) 0)
    schedExt fuel (w ++ [next])

/-- One SHA-256 round on the 8-word working state. -/
def roundStep (wt kt : Nat) (st : List Nat) : List Nat :=
  match st with
  | [a, b, c, d, e, f, g, h] =>
    let t1 := w32 (h + bsig1 e + chF e f g + kt + wt)
    let t2 := w32 (bsig0 a + majF a b c)
    [w32 (t1 + t2), a, b, c, w32 (d + t1), e, f, g]
  | other => other

/-- Compress one 64-byte block into the hash state. -/
def compressBlock (h : List Nat) (block : Bytes) : List Nat :=
  let w := schedExt 48 ((chunks 4 block).map beWord)
  let final := (w.zip K64).foldl (fun st p => roundStep p.1 p.2 st) h
  (h.zip final).map (fun p => w32 (p.1 + p.2))

/-- SHA-256 digest bytes. -/
def sha256Bytes (msg : Bytes) : Bytes :=
  let hs := (chunks 64 (sha256pad msg)).foldl compressBlock H256
  (hs.map (fun x => [x / 2 ^ 24 % 256, x / 2 ^ 16 % 256, x / 2 ^ 8 % 256, x % 256])).flatten

/-- Lowercase hex digit. -/
def hexChar (d : Nat) : Char :=
  match d with
  | 0 => '0' | 1 => '1' | 2 => '2' | 3 => '3' | 4 => '4' | 5 => '5'
  | 6 => '6' | 7 => '7' | 8 => '8' | 9 => '9' | 10 => 'a' | 11 => 'b'
  | 12 => 'c' | 13 => 'd' | 14 => 'e' | _ => 'f'

/-- `sha256_hex` (`tools/storage.rs`): lowercase hex of the SHA-256 digest. -/
def sha256_hex (bytes : Bytes) : Str :=
  ((sha256Bytes bytes).map (fun b => [hexChar (b / 16), hexChar (b % 16)])).flatten

/-! ### Base64 (the `base64` crate, `general_purpose::STANDARD` engine:
canonical padding required, trailing bits must be zero) -/

def b64Alphabet : Str :=
  "ABCDEFGHIJKLMNOPQRSTUVWXYZabcdefghijklmnopqrstuvwxyz0123456789+/".toList

/-- Character for a sextet value. -/
def b64Char (v : Nat) : Char := b64Alphabet.getD v '='

/-- Index lookup helper for `b64Val`. -/
def b64ValAux (c : Char) : Str → Nat → Nat
  | [], _ => 64
  | a :: t, i => if a = c then i else b64ValAux c t (i + 1)

/-- Sextet value of a character (64 when invalid). -/
def b64Val (c : Char) : Nat := b64ValAux c b64Alphabet 0

/-- Standard base64 encoding with padding. -/
def base64_encode : Bytes → Str
  | [] => []
  | [a] => [b64Char (a / 4), b64Char (a % 4 * 16), '=', '=']
  | [a, b] => [b64Char (a / 4), b64Char (a % 4 * 16 + b / 16), b64Char (b % 16 * 4), '=']
  | a :: b :: c :: rest =>
    b64Char (a / 4) :: b64Char (a % 4 * 16 + b / 16) ::
    b64Char (b % 16 * 4 + c / 64) :: b64Char (c % 64) :: base64_encode rest

/-- Standard base64 decoding (the exact `DecodeError` display strings are
not modelled; no claim inspects them). -/
def base64_decode : Str → Except Str Bytes
  | [] => .ok []
  | c1 :: c2 :: c3 :: c4 :: rest =>
    let v1 := b64Val c1
    let v2 := b64Val c2
    if v1 ≥ 64 ∨ v2 ≥ 64 then .error "invalid symbol".toList
    else if c3 = '=' then
      if c4 = '=' ∧ rest = [] then
        if v2 % 16 = 0 then .ok [v1 * 4 + v2 / 16]
        else .error "invalid trailing bits".toList
      else .error "invalid padding".toList
    else if c4 = '=' then
      let v3 := b64Val c3
      if v3 ≥ 64 then .error "invalid symbol".toList
      else if rest = [] then
        if v3 % 4 = 0 then .ok [v1 * 4 + v2 / 16, v2 % 16 * 16 + v3 / 4]
        else .error "invalid trailing bits".toList
      else .error "invalid padding".toList
    else
      let v3 := b64Val c3
      let v4 := b64Val c4
      if v3 ≥ 64 ∨ v4 ≥ 64 then .error "invalid symbol".toList
      else
        match base64_decode rest with
        | .error e => .error e
        | .ok tail =>
          .ok ((v1 * 4 + v2 / 16) :: (v2 % 16 * 16 + v3 / 4) :: (v3 % 4 * 64 + v4) :: tail)
  | _ => .error "invalid input length".toList

/-! ### Content staging (`tools/storage.rs`) -/

/-- `FileLimits`. -/
structure FileLimits where
  max_file_size_bytes : Nat
  max_total_size_bytes : Nat
deriving DecidableEq, Repr

/-- `FileLimits::default()`. -/
def FileLimits.default : FileLimits :=
  { max_file_size_bytes := DEFAULT_MAX_FILE_SIZE_BYTES,
    max_total_size_bytes := DEFAULT_MAX_VERSION_SIZE_BYTES }

/-- `InboundToolFile`. -/
structure InboundToolFile where
  original_name : Str
  mime : Option Str
  data_base64 : Str
deriving DecidableEq, Repr

/-- `StagedToolFile`. -/
structure StagedToolFile where
  original_name : Str
  mime : Option Str
  bytes : Bytes
  size_bytes : Nat
  sha256 : Str
  stored_rel_path : Str
deriving DecidableEq, Repr

/-- The suffix-probing `loop` of `unique_sanitized_filename`; `existing`
is the set of lowercased used names, threaded explicitly in place of the
Rust `&mut HashSet`. The stem slice `&stem[..k]` is byte-indexed in Rust;
sanitized stems are ASCII, so `List.take` is exact. -/
def suffixLoop (stem ext : Str) : Nat → Nat → List Str → ToolsResult (Str × List Str)
  | 0, _, _ => .error (.Validation "unreachable: suffix fuel exhausted".toList)
  | fuel + 1, suffix, existing =>
    let sfx := natDecimal suffix
    let candidate := stem ++ '_' :: sfx ++ '.' :: ext
    let trimmed_candidate :=
      if utf8Len candidate > MAX_SANITIZED_FILENAME_LEN then
        let maxStem := MAX_SANITIZED_FILENAME_LEN - (utf8Len ext + 2 + utf8Len sfx)
        stem.take (min (max maxStem 1) stem.length) ++ '_' :: sfx ++ '.' :: ext
      else candidate
    if lowerStr trimmed_candidate ∈ existing then
      suffixLoop stem ext fuel (suffix + 1) existing
    else .ok (trimmed_candidate, lowerStr trimmed_candidate :: existing)

/-- `unique_sanitized_filename` (`tools/storage.rs`). In Rust the stem and
extension of the sanitized name are re-extracted via `Path`; for a
sanitized name both always exist, with the extension error surfacing
first, so the single `none` branch carries that message. -/
def unique_sanitized_filename (original_name : Str) (existing : List Str) :
    ToolsResult (Str × List Str) := do
  let sanitized ← sanitize_filename original_name
  if lowerStr sanitized ∈ existing then
    match splitExt sanitized with
    | none => .error (.Validation "File extension is required.".toList)
    | some (stem, ext) => suffixLoop stem ext (existing.length + 1) 2 existing
  else
    return (sanitized, lowerStr sanitized :: existing)

/-- The per-file body of the `for` loop in `stage_inbound_files`,
threading the used-name set and the running total. -/
def stageAux (ntid nvid : Str) (limits : FileLimits) :
    List InboundToolFile → List Str → Nat → ToolsResult (List StagedToolFile)
  | [], _, _ => .ok []
  | file :: rest, used, total => do
    let (sanitized, used') ← unique_sanitized_filename file.original_name used
    let bytes ←
      match base64_decode (trimStr file.data_base64) with
      | .error e => .error (.Validation ("Invalid base64 file payload for ".toList ++
          trimStr file.original_name ++ ": ".toList ++ e))
      | .ok b => pure b
    let size_bytes := bytes.length
    if size_bytes = 0 then
      .error (.Validation (sanitized ++ " is empty.".toList))
    else if size_bytes > limits.max_file_size_bytes then
      .error (.Validation (sanitized ++ " exceeds max size of ".toList ++
        natDecimal limits.max_file_size_bytes ++ " bytes.".toList))
    else
      let total' := total + size_bytes
      if total' > limits.max_total_size_bytes then
        .error (.Validation ("Combined file size exceeds ".toList ++
          natDecimal limits.max_total_size_bytes ++ " bytes.".toList))
      else do
        let stored_rel_path ← build_stored_rel_path ntid nvid sanitized
        let restStaged ← stageAux ntid nvid limits rest used' total'
        return { original_name := sanitized, mime := file.mime, bytes,
                 size_bytes, sha256 := sha256_hex bytes, stored_rel_path } :: restStaged

/-- `stage_inbound_files` (`tools/storage.rs`). -/
def stage_inbound_files (tool_id version_id : Str) (files : List InboundToolFile)
    (limits : FileLimits) : ToolsResult (List StagedToolFile) := do
  let ntid ← validate_storage_segment "tool_id".toList tool_id
  let nvid ← validate_storage_segment "version_id".toList version_id
  if files = [] then
    .error (.Validation "At least one file is required.".toList)
  else
    stageAux ntid nvid limits files [] 0

/-! ### Filesystem store (`tools/storage.rs`) -/

/-- The on-disk store under the `tools/` root: stored relative path ↦
blob bytes. The app-data prefix added by `resolve_stored_path` is common
to every path and is elided. -/
abbrev Disk := List (Str × Bytes)

/-- `fs::write` (create or replace). -/
def diskWrite (d : Disk) (p : Str) (b : Bytes) : Disk :=
  (p, b) :: d.filter (fun e => !decide (e.1 = p))

/-- Blob lookup. -/
def diskLookup (d : Disk) (p : Str) : Option Bytes :=
  (d.find? (fun e => decide (e.1 = p))).map (fun e => e.2)

/-- `fs::remove_file`. -/
def diskErase (d : Disk) (p : Str) : Disk :=
  d.filter (fun e => !decide (e.1 = p))

/-- `write_staged_files`: resolves (normalizes) each stored path, writes
the bytes, and collects the written paths in order. On failure the files
already written stay on disk, as with the Rust early return. -/
def write_staged_files (d : Disk) : List StagedToolFile → Disk × ToolsResult (List Str)
  | [] => (d, .ok [])
  | f :: rest =>
    match normalize_stored_rel_path f.stored_rel_path with
    | .error e => (d, .error e)
    | .ok ap =>
      match write_staged_files (diskWrite d ap f.bytes) rest with
      | (dfin, .error e) => (dfin, .error e)
      | (dfin, .ok written) => (dfin, .ok (ap :: written))

/-- `remove_written_files` (best-effort rollback). -/
def remove_written_files (d : Disk) (paths : List Str) : Disk :=
  paths.foldl diskErase d

/-- `read_stored_file_bytes`. -/
def read_stored_file_bytes (d : Disk) (rel : Str) : ToolsResult Bytes := do
  let p ← normalize_stored_rel_path rel
  match diskLookup d p with
  | some b => .ok b
  | none => .error (.Io "File operation failed: file not found".toList)

/-! ### Catalog (`tools/db.rs`). Timestamps are epoch milliseconds (`i64`,
modelled as `Int`); `size_bytes` is stored as `i64`. -/

/-- A row of `custom_library_tools`. -/
structure ToolRow where
  id : Str
  name : Str
  slug : Str
  description : Str
  category : Str
  created_at : Int
  updated_at : Int
deriving DecidableEq, Repr

/-- A row of `custom_library_tool_versions`. -/
structure VersionRow where
  id : Str
  tool_id : Str
  version : Str
  changelog_md : Option Str
  instructions_md : Str
  created_at : Int
deriving DecidableEq, Repr

/-- A row of `custom_library_tool_files` (also serves as
`ToolFileDetail`, whose fields coincide). -/
structure FileRow where
  id : Str
  tool_version_id : Str
  original_name : Str
  stored_rel_path : Str
  sha256 : Str
  size_bytes : Int
  mime : Option Str
  created_at : Int
deriving DecidableEq, Repr

/-- The four tables of the tool catalog, in insertion order. -/
structure Catalog where
  tools : List ToolRow
  tool_tags : List (Str × Str)
  versions : List VersionRow
  files : List FileRow
deriving DecidableEq, Repr

def emptyCatalog : Catalog := ⟨[], [], [], []⟩

/-- `ToolMetadataInput`. -/
structure ToolMetadataInput where
  name : Str
  slug : Option Str
  description : Str
  category : Str
  tags : List Str
deriving DecidableEq, Repr

/-- `VersionInsertInput`. -/
structure VersionInsertInput where
  version : Str
  changelog_md : Option Str
  instructions_md : Str
deriving DecidableEq, Repr

/-- `FileRecordInsert`. -/
structure FileRecordInsert where
  original_name : Str
  stored_rel_path : Str
  sha256 : Str
  size_bytes : Int
  mime : Option Str
deriving DecidableEq, Repr

/-- `validate_required` (`tools/db.rs`; identical helper in `tools/zip.rs`). -/
def validate_required (field : Str) (value : Str) (max_len : Nat) : ToolsResult Str :=
  let t := trimStr value
  if t = [] then
    .error (.Validation (field ++ " is required.".toList))
  else if utf8Len t > max_len then
    .error (.Validation (field ++ " exceeds maximum length (".toList ++
      natDecimal max_len ++ ").".toList))
  else
    .ok t

/-- `normalize_optional_text` (`tools/db.rs`; identical helper in
`tools/zip.rs`). -/
def normalize_optional_text (value : Option Str) (max_len : Nat) :
    ToolsResult (Option Str) :=
  match value with
  | none => .ok none
  | some raw =>
    let t := trimStr raw
    if t = [] then .ok none
    else if utf8Len t > max_len then
      .error (.Validation ("Text exceeds maximum length (".toList ++
        natDecimal max_len ++ ").".toList))
    else .ok (some t)

/-- Byte-lexicographic string order (`Ord for String` in Rust). UTF-8
byte order coincides with code-point order. -/
def lexLe : Str → Str → Bool
  | [], _ => true
  | _ :: _, [] => false
  | a :: as, b :: bs =>
    if a.toNat < b.toNat then true
    else if b.toNat < a.toNat then false
    else lexLe as bs

/-- Insert into a `le`-sorted list, before the first element it is `le`
(so a stable sort results). -/
def insertSorted (le : α → α → Bool) (x : α) : List α → List α
  | [] => [x]
  | y :: ys => if le x y then x :: y :: ys else y :: insertSorted le x ys

/-- Stable insertion sort: models both Rust's stable `sort_by` and
SQLite's `ORDER BY … COLLATE NOCASE ASC` (the claims only meet it on
lists whose sort keys are pairwise distinct, where every sort agrees). -/
def stableSort (le : α → α → Bool) : List α → List α
  | [] => []
  | x :: xs => insertSorted le x (stableSort le xs)

/-- Case-insensitive string comparison key order. -/
def lowerLe (a b : Str) : Bool := lexLe (lowerStr a) (lowerStr b)

/-- The filtering/deduplicating pass of `normalize_tags` (`seen` is the
set of lowercased tags kept so far). -/
def normTagsAux : List Str → List Str → ToolsResult (List Str)
  | [], _ => .ok []
  | raw :: rest, seen =>
    let t := trimStr raw
    if t = [] then normTagsAux rest seen
    else if utf8Len t > 48 then
      .error (.Validation "Tag exceeds 48 characters.".toList)
    else
      let lowered := lowerStr t
      if lowered ∈ seen then normTagsAux rest seen
      else do
        let tk ← normTagsAux rest (lowered :: seen)
        return t :: tk

/-- `normalize_tags` (`tools/db.rs`). -/
def normalize_tags (tags : List Str) : ToolsResult (List Str) := do
  let n ← normTagsAux tags []
  return stableSort lowerLe n

/-- The character loop of `slugify` with its `previous_dash` flag. -/
def slugifyAux : Str → Bool → Str
  | [], _ => []
  | c :: t, prevDash =>
    if isAsciiAlnum c then c :: slugifyAux t false
    else if prevDash then slugifyAux t true
    else '-' :: slugifyAux t true

/-- `str::trim_matches('-')`. -/
def trimDashes (s : Str) : Str := trimBy (fun c => decide (c = '-')) s

/-- `slugify` (`tools/db.rs`). -/
def slugify (value : Str) : Str :=
  let slug := trimDashes (slugifyAux (lowerStr value) false)
  if slug = [] then "tool".toList else slug

/-- The candidate-probing `loop` of `resolve_unique_slug`. -/
def resolveSlugAux (cat : Catalog) (exclude : Option Str) (base : Str) :
    Nat → Str → Nat → ToolsResult Str
  | 0, _, _ => .error (.Database "unreachable: slug fuel exhausted".toList)
  | fuel + 1, candidate, counter =>
    let taken := cat.tools.any (fun t =>
      decide (t.slug = candidate) &&
        (match exclude with
         | some ex => !decide (t.id = ex)
         | none => true))
    if taken then
      resolveSlugAux cat exclude base fuel (base ++ '-' :: natDecimal counter)
        (counter + 1)
    else
      .ok candidate

/-- `resolve_unique_slug` (`tools/db.rs`). -/
def resolve_unique_slug (cat : Catalog) (requested_slug : Str)
    (exclude_tool_id : Option Str) : ToolsResult Str :=
  let base := slugify requested_slug
  resolveSlugAux cat exclude_tool_id base (cat.tools.length + 1) base 2

/-- `insert_files` (`tools/db.rs`); the fresh per-file UUIDs are drawn
from the injected generator `fresh`. -/
def insert_files (version_id : Str) (files : List FileRecordInsert)
    (created_at : Int) (fresh : Nat → Str) : List FileRow :=
  ((List.range files.length).zip files).map (fun p =>
    { id := fresh p.1, tool_version_id := version_id,
      original_name := p.2.original_name,
      stored_rel_path := p.2.stored_rel_path, sha256 := p.2.sha256,
      size_bytes := p.2.size_bytes, mime := p.2.mime, created_at })

/-- `find_tool_id_by_slug` (`tools/db.rs`). -/
def find_tool_id_by_slug (cat : Catalog) (slug : Str) : Option Str :=
  (cat.tools.find? (fun t => decide (t.slug = slug))).map (fun t => t.id)

/-- `find_version_id` (`tools/db.rs`). -/
def find_version_id (cat : Catalog) (tool_id version : Str) : Option Str :=
  (cat.versions.find? (fun v =>
    decide (v.tool_id = tool_id ∧ v.version = version))).map (fun v => v.id)

/-- `create_tool_with_version` (`tools/db.rs`). The `BEGIN … COMMIT`
transaction is the single catalog update returned on success. -/
def create_tool_with_version (cat : Catalog) (tool_id version_id : Str)
    (metadata : ToolMetadataInput) (version : VersionInsertInput)
    (files : List FileRecordInsert) (now : Int) (fresh : Nat → Str) :
    ToolsResult (Catalog × Str × Str) := do
  let name ← validate_required "name".toList metadata.name 120
  let description ← validate_required "description".toList metadata.description 8000
  let category ← validate_required "category".toList metadata.category 120
  let normalized_tags ← normalize_tags metadata.tags
  let requested_slug :=
    match metadata.slug with
    | some v => if trimStr v = [] then slugify name else trimStr v
    | none => slugify name
  let slug ← resolve_unique_slug cat requested_slug none
  let version_label ← validate_required "version".toList version.version 80
  let instructions ← validate_required "instructions".toList
    version.instructions_md (512 * 1024)
  let changelog ← normalize_optional_text version.changelog_md (512 * 1024)
  let toolRow : ToolRow :=
    { id := tool_id, name, slug, description, category,
      created_at := now, updated_at := now }
  let versionRow : VersionRow :=
    { id := version_id, tool_id, version := version_label,
      changelog_md := changelog, instructions_md := instructions,
      created_at := now }
  return ({ tools := cat.tools ++ [toolRow],
            tool_tags := cat.tool_tags ++ normalized_tags.map (fun t => (tool_id, t)),
            versions := cat.versions ++ [versionRow],
            files := cat.files ++ insert_files version_id files now fresh },
          tool_id, version_id)

/-- `add_version_with_files` (`tools/db.rs`). -/
def add_version_with_files (cat : Catalog) (tool_id version_id : Str)
    (version : VersionInsertInput) (files : List FileRecordInsert)
    (now : Int) (fresh : Nat → Str) : ToolsResult (Catalog × Str) := do
  if ¬ cat.tools.any (fun t => decide (t.id = tool_id)) = true then
    .error (.NotFound "Tool not found.".toList)
  else do
    let version_label ← validate_required "version".toList version.version 80
    let instructions ← validate_required "instructions".toList
      version.instructions_md (512 * 1024)
    let changelog ← normalize_optional_text version.changelog_md (512 * 1024)
    if (find_version_id cat tool_id version_label).isSome then
      .error (.Conflict "Version already exists for this tool.".toList)
    else
      let versionRow : VersionRow :=
        { id := version_id, tool_id, version := version_label,
          changelog_md := changelog, instructions_md := instructions,
          created_at := now }
      return ({ tools := cat.tools.map (fun t =>
                  if t.id = tool_id then { t with updated_at := now } else t),
                tool_tags := cat.tool_tags,
                versions := cat.versions ++ [versionRow],
                files := cat.files ++ insert_files version_id files now fresh },
              version_id)

/-- `fetch_tags` (`ORDER BY tag COLLATE NOCASE ASC`). -/
def fetch_tags (cat : Catalog) (tool_id : Str) : List Str :=
  stableSort lowerLe ((cat.tool_tags.filter (fun p => decide (p.1 = tool_id))).map
    (fun p => p.2))

/-- `fetch_files_for_version` (`ORDER BY original_name COLLATE NOCASE ASC`). -/
def fetch_files_for_version (cat : Catalog) (version_id : Str) : List FileRow :=
  stableSort (fun f g => lowerLe f.original_name g.original_name)
    (cat.files.filter (fun f => decide (f.tool_version_id = version_id)))

/-- `ToolMetadataExport`. -/
structure ToolMetadataExport where
  name : Str
  slug : Str
  description : Str
  category : Str
  tags : List Str
deriving DecidableEq, Repr

/-- `VersionExport`; carries `id` and `tool_id` as consumed by `zip.rs`
(`context.version.id`, `context.version.tool_id`). -/
structure VersionExport where
  id : Str
  tool_id : Str
  version : Str
  changelog_md : Option Str
  instructions_md : Str
deriving DecidableEq, Repr

/-- `ExportVersionContext`. -/
structure ExportVersionContext where
  tool : ToolMetadataExport
  version : VersionExport
  files : List FileRow
deriving DecidableEq, Repr

/-- `get_export_context` (`tools/db.rs`). -/
def get_export_context (cat : Catalog) (version_id : Str) :
    ToolsResult ExportVersionContext :=
  match cat.versions.find? (fun v => decide (v.id = version_id)) with
  | none => .error (.NotFound "Tool version not found.".toList)
  | some v =>
    match cat.tools.find? (fun t => decide (t.id = v.tool_id)) with
    | none => .error (.NotFound "Tool version not found.".toList)
    | some t =>
      .ok { tool := { name := t.name, slug := t.slug,
                      description := t.description, category := t.category,
                      tags := fetch_tags cat v.tool_id },
            version := { id := v.id, tool_id := v.tool_id, version := v.version,
                         changelog_md := v.changelog_md,
                         instructions_md := v.instructions_md },
            files := fetch_files_for_version cat version_id }

/-! ### Archive codec (`tools/zip.rs`). The zip container and JSON
round-trip are the external boundary (PowerShell `Compress-Archive` /
serde); an `Archive` is the logical content of the extracted tree. -/

/-- `ManifestFile`. -/
structure ManifestFile where
  original_name : Str
  sha256 : Str
  size_bytes : Nat
  relative_path : Str
deriving DecidableEq, Repr

/-- `ManifestTool`. -/
structure ManifestTool where
  name : Str
  slug : Str
  description : Str
  category : Str
  tags : List Str
deriving DecidableEq, Repr

/-- `ManifestVersion`. -/
structure ManifestVersion where
  version : Str
  changelog_md : Option Str
deriving DecidableEq, Repr

/-- `ToolExportManifest`. -/
structure ToolExportManifest where
  tool : ManifestTool
  version : ManifestVersion
  files : List ManifestFile
deriving DecidableEq, Repr

/-- The logical content of an exported/extracted archive:
`manifest.json` (parsed), `instructions.md`, and the remaining extracted
file tree (`files/...` entries, plus any extra smuggled entries). -/
structure Archive where
  manifest : ToolExportManifest
  instructions_md : Str
  entries : List (Str × Bytes)
deriving DecidableEq, Repr

/-- `ImportFileBytes`. -/
structure ImportFileBytes where
  original_name : Str
  mime : Option Str
  bytes : Bytes
deriving DecidableEq, Repr

/-- `ParsedImportArchive`. -/
structure ParsedImportArchive where
  metadata : ToolMetadataInput
  version : VersionInsertInput
  files : List ImportFileBytes
deriving DecidableEq, Repr

/-- The manifest-building loop of `build_manifest` with its duplicate
set. -/
def buildManifestFiles : List FileRow → List Str → ToolsResult (List ManifestFile)
  | [], _ => .ok []
  | f :: rest, seen => do
    let original_name ← sanitize_filename f.original_name
    if lowerStr original_name ∈ seen then
      .error (.Validation ("Duplicate file name in version: ".toList ++
        original_name))
    else do
      let tk ← buildManifestFiles rest (lowerStr original_name :: seen)
      return { original_name, sha256 := f.sha256,
               size_bytes := (max f.size_bytes 0).toNat,
               relative_path := filesSeg ++ '/' :: original_name } :: tk

/-- `build_manifest` (`tools/zip.rs`). -/
def build_manifest (context : ExportVersionContext) :
    ToolsResult ToolExportManifest := do
  let files ← buildManifestFiles context.files []
  return { tool := { name := context.tool.name, slug := context.tool.slug,
                     description := context.tool.description,
                     category := context.tool.category,
                     tags := context.tool.tags },
           version := { version := context.version.version,
                        changelog_md := context.version.changelog_md },
           files }

/-- The per-file verification/copy loop of `export_tool_version_zip`,
producing the `files/<sanitized>` entries of the archive. -/
def exportFilesLoop (d : Disk) (tid vid : Str) :
    List FileRow → ToolsResult (List (Str × Bytes))
  | [] => .ok []
  | f :: rest => do
    let sanitized ← sanitize_filename f.original_name
    let _ ← assert_stored_path_matches_version f.stored_rel_path tid vid
    let expected_rel ← build_stored_rel_path tid vid sanitized
    if ¬ f.stored_rel_path = expected_rel then
      .error (.Zip ("Stored path mismatch for ".toList ++ sanitized ++ ".".toList))
    else do
      let bytes ← read_stored_file_bytes d f.stored_rel_path
      if ¬ bytes.length = (max f.size_bytes 0).toNat then
        .error (.Zip ("Stored file size mismatch for ".toList ++ sanitized ++
          ".".toList))
      else if ¬ lowerStr (sha256_hex bytes) = lowerStr (trimStr f.sha256) then
        .error (.Zip ("Stored file hash mismatch for ".toList ++ sanitized ++
          ".".toList))
      else do
        let tk ← exportFilesLoop d tid vid rest
        return (filesSeg ++ '/' :: sanitized, bytes) :: tk

/-- `export_tool_version_zip` (`tools/zip.rs`), up to the external
compression step: builds the manifest, writes `instructions.md`, and
verifies/copies every stored blob into the `files/` tree. -/
def export_tool_version_zip (d : Disk) (context : ExportVersionContext) :
    ToolsResult Archive := do
  let manifest ← build_manifest context
  let entries ← exportFilesLoop d context.version.tool_id context.version.id
    context.files
  return { manifest, instructions_md := context.version.instructions_md, entries }

/-- The manifest-driven verification loop of `import_tool_zip`; returns
the decoded files together with the accumulated expected `files/...`
paths. -/
def importFilesLoop (entries : List (Str × Bytes)) :
    List ManifestFile → List Str → Nat →
    ToolsResult (List ImportFileBytes × List Str)
  | [], _, _ => .ok ([], [])
  | f :: rest, seen, total => do
    let _ ← assert_safe_archive_path f.relative_path
    if ¬ f.relative_path.take 6 = "files/".toList then
      .error (.Zip ("Manifest file path must start with files/: ".toList ++
        f.relative_path))
    else do
      let sanitized ← sanitize_filename f.original_name
      if lowerStr sanitized ∈ seen then
        .error (.Validation ("Duplicate file in manifest: ".toList ++ sanitized))
      else
        let expected_rel := filesSeg ++ '/' :: sanitized
        if ¬ f.relative_path = expected_rel then
          .error (.Validation ("Manifest relative_path mismatch for ".toList ++
            sanitized ++ ". Expected ".toList ++ expected_rel ++ ".".toList))
        else
          match (entries.find? (fun e => decide (e.1 = expected_rel))).map
              (fun e => e.2) with
          | none => .error (.Zip ("Missing archive file: ".toList ++ expected_rel))
          | some bytes =>
            if ¬ bytes.length = f.size_bytes then
              .error (.Validation ("File size mismatch for ".toList ++ sanitized ++
                ".".toList))
            else if bytes.length = 0 ∨ bytes.length > DEFAULT_MAX_FILE_SIZE_BYTES then
              .error (.Validation (sanitized ++ " exceeds allowed size limits.".toList))
            else if total + bytes.length > DEFAULT_MAX_VERSION_SIZE_BYTES then
              .error (.Validation ("Import file total exceeds ".toList ++
                natDecimal DEFAULT_MAX_VERSION_SIZE_BYTES ++ " bytes.".toList))
            else if ¬ lowerStr (sha256_hex bytes) = lowerStr (trimStr f.sha256) then
              .error (.Validation ("SHA256 mismatch for ".toList ++ sanitized ++
                ".".toList))
            else do
              let (tf, tp) ← importFilesLoop entries rest
                (lowerStr sanitized :: seen) (total + bytes.length)
              return ({ original_name := sanitized, mime := none, bytes } :: tf,
                      expected_rel :: tp)

/-- `import_tool_zip` (`tools/zip.rs`), from the successfully extracted
and parsed archive content onward (extraction and JSON parsing are the
external boundary). `manifest.json` and `instructions.md` are structured
fields of `Archive`, so the completeness walk checks the remaining
entries against the expected `files/...` set. -/
def import_tool_zip (ar : Archive) : ToolsResult ParsedImportArchive := do
  if trimStr ar.instructions_md = [] then
    .error (.Validation "instructions.md cannot be empty.".toList)
  else do
    let name ← validate_required "tool.name".toList ar.manifest.tool.name 120
    let slugv ← validate_required "tool.slug".toList ar.manifest.tool.slug 120
    let description ← validate_required "tool.description".toList
      ar.manifest.tool.description 8000
    let category ← validate_required "tool.category".toList
      ar.manifest.tool.category 120
    let version_label ← validate_required "version.version".toList
      ar.manifest.version.version 80
    let changelog ← normalize_optional_text ar.manifest.version.changelog_md
      (512 * 1024)
    let (parsed_files, expected) ← importFilesLoop ar.entries ar.manifest.files [] 0
    match ar.entries.find? (fun e => !decide (e.1 ∈ expected)) with
    | some e => .error (.Zip ("Unexpected file in archive: ".toList ++ e.1))
    | none =>
      return { metadata := { name, slug := some slugv, description, category,
                             tags := ar.manifest.tool.tags },
               version := { version := version_label, changelog_md := changelog,
                            instructions_md := ar.instructions_md },
               files := parsed_files }

/-! ### Orchestrator (`tools/commands.rs`) -/

/-- `to_db_file_rows` (`tools/commands.rs`). -/
def to_db_file_rows (staged : List StagedToolFile) : List FileRecordInsert :=
  staged.map (fun f =>
    { original_name := f.original_name, stored_rel_path := f.stored_rel_path,
      sha256 := f.sha256, size_bytes := Int.ofNat f.size_bytes, mime := f.mime })

/-- `to_inbound_files` (`tools/commands.rs`). -/
def to_inbound_files (files : List ImportFileBytes) : List InboundToolFile :=
  files.map (fun f =>
    { original_name := f.original_name, mime := f.mime,
      data_base64 := base64_encode f.bytes })

/-- The mutable world the orchestrator acts on: the catalog database and
the blob store. -/
structure AppState where
  catalog : Catalog
  disk : Disk
deriving DecidableEq, Repr

/-- `ToolCreateRequest`. -/
structure ToolCreateRequest where
  metadata : ToolMetadataInput
  version : Option Str
  changelog_md : Option Str
  instructions_md : Str
  files : List InboundToolFile
deriving DecidableEq, Repr

/-- `ToolAddVersionRequest`. -/
structure ToolAddVersionRequest where
  tool_id : Str
  version : Str
  changelog_md : Option Str
  instructions_md : Str
  files : List InboundToolFile
deriving DecidableEq, Repr

/-- `DEFAULT_INITIAL_VERSION`. -/
def DEFAULT_INITIAL_VERSION : Str := "1.0.0".toList

/-- `tool_create` (`tools/commands.rs`): stage, write blobs, commit the
catalog rows, and on catalog failure remove every written blob. The
fresh tool/version UUIDs and the clock are parameters. -/
def tool_create (st : AppState) (request : ToolCreateRequest)
    (tool_id version_id : Str) (now : Int) (fresh : Nat → Str) :
    AppState × ToolsResult (Str × Str) :=
  match stage_inbound_files tool_id version_id request.files FileLimits.default with
  | .error e => (st, .error e)
  | .ok staged =>
    match write_staged_files st.disk staged with
    | (d, .error e) => ({ catalog := st.catalog, disk := d }, .error e)
    | (d, .ok written) =>
      match create_tool_with_version st.catalog tool_id version_id
          request.metadata
          { version := request.version.getD DEFAULT_INITIAL_VERSION,
            changelog_md := request.changelog_md,
            instructions_md := request.instructions_md }
          (to_db_file_rows staged) now fresh with
      | .error e =>
        ({ catalog := st.catalog, disk := remove_written_files d written }, .error e)
      | .ok (cat, _, _) =>
        ({ catalog := cat, disk := d }, .ok (tool_id, version_id))

/-- `tool_add_version` (`tools/commands.rs`). -/
def tool_add_version (st : AppState) (request : ToolAddVersionRequest)
    (version_id : Str) (now : Int) (fresh : Nat → Str) :
    AppState × ToolsResult (Str × Str) :=
  let tool_id := trimStr request.tool_id
  if tool_id = [] then
    (st, .error (.Validation "tool_id is required.".toList))
  else
    match stage_inbound_files tool_id version_id request.files FileLimits.default with
    | .error e => (st, .error e)
    | .ok staged =>
      match write_staged_files st.disk staged with
      | (d, .error e) => ({ catalog := st.catalog, disk := d }, .error e)
      | (d, .ok written) =>
        match add_version_with_files st.catalog tool_id version_id
            { version := request.version, changelog_md := request.changelog_md,
              instructions_md := request.instructions_md }
            (to_db_file_rows staged) now fresh with
        | .error e =>
          ({ catalog := st.catalog, disk := remove_written_files d written },
           .error e)
        | .ok (cat, _) =>
          ({ catalog := cat, disk := d }, .ok (tool_id, version_id))

/-- `import_parsed_archive` (`tools/commands.rs`): reuse the tool when
the manifest slug already exists (conflicting on a duplicate version),
otherwise create a new tool; either branch uses the same
stage/write/commit/rollback discipline. -/
def import_parsed_archive (st : AppState) (parsed : ParsedImportArchive)
    (new_tool_id new_version_id : Str) (now : Int) (fresh : Nat → Str) :
    AppState × ToolsResult (Str × Str × Bool) :=
  match parsed.metadata.slug with
  | none => (st, .error (.Validation "Manifest tool.slug is required.".toList))
  | some slug =>
    match find_tool_id_by_slug st.catalog slug with
    | some tool_id =>
      if (find_version_id st.catalog tool_id parsed.version.version).isSome then
        (st, .error (.Conflict
          "A tool with this slug and version already exists. Import aborted.".toList))
      else
        match stage_inbound_files tool_id new_version_id
            (to_inbound_files parsed.files) FileLimits.default with
        | .error e => (st, .error e)
        | .ok staged =>
          match write_staged_files st.disk staged with
          | (d, .error e) => ({ catalog := st.catalog, disk := d }, .error e)
          | (d, .ok written) =>
            match add_version_with_files st.catalog tool_id new_version_id
                parsed.version (to_db_file_rows staged) now fresh with
            | .error e =>
              ({ catalog := st.catalog, disk := remove_written_files d written },
               .error e)
            | .ok (cat, _) =>
              ({ catalog := cat, disk := d }, .ok (tool_id, new_version_id, false))
    | none =>
      match stage_inbound_files new_tool_id new_version_id
          (to_inbound_files parsed.files) FileLimits.default with
      | .error e => (st, .error e)
      | .ok staged =>
        match write_staged_files st.disk staged with
        | (d, .error e) => ({ catalog := st.catalog, disk := d }, .error e)
        | (d, .ok written) =>
          match create_tool_with_version st.catalog new_tool_id new_version_id
              parsed.metadata parsed.version (to_db_file_rows staged) now fresh with
          | .error e =>
            ({ catalog := st.catalog, disk := remove_written_files d written },
             .error e)
          | .ok (cat, _, _) =>
            ({ catalog := cat, disk := d }, .ok (new_tool_id, new_version_id, true))

/-! ### Expected values for the collision-determinism property -/

/-- The name the collision rule is expected to assign at suffix `j`: the
file's own sanitized stem (original casing kept), `_j`, and its own
sanitized extension. Defaults to `[]` when sanitization would not reach
the suffix step. -/
def suffixedName (j : Nat) (f : InboundToolFile) : Str :=
  match sanitize_filename f.original_name with
  | .error _ => []
  | .ok s =>
    match splitExt s with
    | none => []
    | some (stem, ext) => stem ++ '_' :: natDecimal j ++ '.' :: ext

/-- Expected suffixed names for consecutive suffixes starting at `j`. -/
def suffixedNames (j : Nat) : List InboundToolFile → List Str
  | [] => []
  | f :: rest => suffixedName j f :: suffixedNames (j + 1) rest

/-- The lowercased used-name set after `p` colliding files with common
case-folded stem `lS` and extension `lE` (most recent first). -/
def usedUpTo (lS lE : Str) : Nat → List Str
  | 0 => []
  | 1 => [lS ++ '.' :: lE]
  | p + 2 => (lS ++ '_' :: natDecimal (p + 2) ++ '.' :: lE) ::
      usedUpTo lS lE (p + 1)

/-! ### A concrete exported version for exercising the round trip -/

/-- A one-file store holding the payload byte `97` (`"a"`) under the
stored path of the version below. -/
def rtDisk : Disk := [("tools/t9/v9/files/a.scr".toList, [97])]

/-- The export context of that version: tool `Tool`/`tool`, version
`1.0.0` with the single stored file `a.scr`. -/
def rtCtx : ExportVersionContext :=
  ExportVersionContext.mk
    (ToolMetadataExport.mk "Tool".toList "tool".toList "d".toList "c".toList [])
    (VersionExport.mk "v9".toList "t9".toList "1.0.0".toList none "inst".toList)
    [FileRow.mk "f1".toList "v9".toList "a.scr".toList
      "tools/t9/v9/files/a.scr".toList (sha256_hex [97]) 1 none 0]

/-! ## Lemmas: list and string groundwork -/

theorem dropWhile_all_false {p : Char → Bool} {l : Str}
    (h : ∀ c ∈ l, p c = false) : l.dropWhile p = l := by
  cases l with
  | nil => rfl
  | cons a t => simp [List.dropWhile_cons, h a (by simp)]

theorem head_dropWhile {p : Char → Bool} {l : Str} :
    ∀ {a : Char} {t : Str}, l.dropWhile p = a :: t → p a = false := by
  induction l with
  | nil => intro a t h; simp [List.dropWhile] at h
  | cons x xs ih =>
    intro a t h
    rw [List.dropWhile_cons] at h
    by_cases hp : p x = true
    · exact ih (by simpa [hp] using h)
    · obtain ⟨rfl, -⟩ : x = a ∧ xs = t := by
        simpa [hp] using h
      simpa using hp

/-- `dropWhile` drops an initial block: `l = w ++ l.dropWhile p` with
every dropped character satisfying `p`. -/
theorem dropWhile_decomp (p : Char → Bool) (l : Str) :
    ∃ w, l = w ++ l.dropWhile p ∧ ∀ c ∈ w, p c = true := by
  induction l with
  | nil => exact ⟨[], by simp⟩
  | cons a t ih =>
    by_cases hp : p a = true
    · obtain ⟨w, hw, hall⟩ := ih
      refine ⟨a :: w, ?_, ?_⟩
      · simpa [List.dropWhile_cons, hp] using congrArg (a :: ·) hw
      · intro c hc
        rcases List.mem_cons.mp hc with rfl | hc
        · exact hp
        · exact hall c hc
    · exact ⟨[], by simp [List.dropWhile_cons, hp]⟩

/-- The two-sided trim is a contiguous slice: `l = w ++ trimBy p l ++ v`
with `p` true on both removed blocks. -/
theorem trimBy_decomp (p : Char → Bool) (l : Str) :
    ∃ w v, l = w ++ trimBy p l ++ v ∧ (∀ c ∈ w, p c = true) ∧ ∀ c ∈ v, p c = true := by
  obtain ⟨w, hw, hwall⟩ := dropWhile_decomp p l
  obtain ⟨v, hv, hvall⟩ := dropWhile_decomp p (l.dropWhile p).reverse
  refine ⟨w, v.reverse, ?_, hwall, fun c hc => hvall c (List.mem_reverse.mp hc)⟩
  have h2 : l.dropWhile p = trimBy p l ++ v.reverse := by
    have := congrArg List.reverse hv
    simpa [trimBy] using this
  conv_lhs => rw [hw, h2]
  rw [List.append_assoc]

theorem trimBy_eq_self {p : Char → Bool} {s : Str}
    (hh : ∀ a ∈ s.head?, p a = false) (hl : ∀ a ∈ s.getLast?, p a = false) :
    trimBy p s = s := by
  have h1 : s.dropWhile p = s := by
    cases s with
    | nil => rfl
    | cons a t => simp [List.dropWhile_cons, hh a (by simp)]
  have h2 : s.reverse.dropWhile p = s.reverse := by
    cases hrev : s.reverse with
    | nil => rfl
    | cons a t =>
      have : s.getLast? = some a := by
        rw [← List.head?_reverse, hrev]; rfl
      simp [List.dropWhile_cons, hl a (by simp [this])]
  simp [trimBy, h1, h2]

theorem mem_of_getLast? {l : Str} {a : Char} (h : l.getLast? = some a) : a ∈ l := by
  have : a ∈ l.reverse.head? := by rw [List.head?_reverse]; simp [h]
  exact List.mem_reverse.mp (List.mem_of_mem_head? this)

theorem trimBy_eq_self_of_all {p : Char → Bool} {s : Str}
    (h : ∀ c ∈ s, p c = false) : trimBy p s = s := by
  refine trimBy_eq_self (fun a ha => ?_) (fun a ha => ?_)
  · exact h a (List.mem_of_mem_head? ha)
  · exact h a (mem_of_getLast? ha)

theorem mem_of_mem_trimBy {p : Char → Bool} {s : Str} {c : Char}
    (h : c ∈ trimBy p s) : c ∈ s := by
  obtain ⟨w, v, hd, -, -⟩ := trimBy_decomp p s
  rw [hd]
  simp [h]

/-- The left trim is the two-sided trim followed by a trimmed-off block. -/
theorem dropWhile_eq_trimBy_append (p : Char → Bool) (s : Str) :
    ∃ v : Str, s.dropWhile p = trimBy p s ++ v.reverse ∧ ∀ c ∈ v, p c = true := by
  obtain ⟨v, hv, hall⟩ := dropWhile_decomp p (s.dropWhile p).reverse
  refine ⟨v, ?_, hall⟩
  have := congrArg List.reverse hv
  simpa [trimBy] using this

theorem trimBy_head?_false {p : Char → Bool} {s : Str} {a : Char}
    (ha : (trimBy p s).head? = some a) : p a = false := by
  obtain ⟨v, hv, -⟩ := dropWhile_eq_trimBy_append p s
  cases h : trimBy p s with
  | nil => rw [h] at ha; simp at ha
  | cons b t =>
    rw [h] at ha
    obtain rfl : b = a := by simpa using ha
    rw [h] at hv
    exact head_dropWhile (by simpa using hv)

theorem trimBy_getLast?_false {p : Char → Bool} {s : Str} {a : Char}
    (ha : (trimBy p s).getLast? = some a) : p a = false := by
  have hh : ((s.dropWhile p).reverse.dropWhile p).head? = some a := by
    have : (trimBy p s).getLast? = ((s.dropWhile p).reverse.dropWhile p).head? := by
      rw [trimBy, List.getLast?_reverse]
    rwa [this] at ha
  cases h : (s.dropWhile p).reverse.dropWhile p with
  | nil => rw [h] at hh; simp at hh
  | cons b t =>
    rw [h] at hh
    obtain rfl : b = a := by simpa using hh
    exact head_dropWhile h

theorem not_mem_of_all {P : Char → Bool} {s : Str}
    (hall : ∀ c ∈ s, P c = true) {x : Char} (hx : P x = false) : x ∉ s := by
  intro hmem
  rw [hall x hmem] at hx
  cases hx

/-! Character-class facts -/

theorem preservedChar_spec {c : Char} (h : preservedChar c = true) :
    (48 ≤ c.toNat ∧ c.toNat ≤ 57) ∨ (65 ≤ c.toNat ∧ c.toNat ≤ 90) ∨
    (97 ≤ c.toNat ∧ c.toNat ≤ 122) ∨ c = '-' ∨ c = '_' ∨ c = '.' := by
  simp only [preservedChar, isAsciiAlnum, Bool.or_eq_true, decide_eq_true_eq] at h
  tauto

theorem preserved_not_ws {c : Char} (h : preservedChar c = true) : rustWs c = false := by
  rcases preservedChar_spec h with hr | hr | hr | rfl | rfl | rfl
  case _ | _ | _ =>
    rw [rustWs, decide_eq_false_iff_not, wsCodes]
    simp only [List.mem_cons, List.not_mem_nil, or_false]
    omega
  all_goals decide

theorem preserved_ascii {c : Char} (h : preservedChar c = true) : c.toNat ≤ 127 := by
  rcases preservedChar_spec h with hr | hr | hr | rfl | rfl | rfl
  · omega
  · omega
  · omega
  all_goals decide

theorem preserved_mapStem (c : Char) : preservedChar (mapStemChar c) = true := by
  rw [mapStemChar]
  by_cases h : preservedChar c = true
  · rw [if_pos h]; exact h
  · rw [if_neg h]; decide

theorem mapStem_eq_dot_iff {c : Char} : mapStemChar c = '.' ↔ c = '.' := by
  rw [mapStemChar]
  by_cases h : preservedChar c = true
  · rw [if_pos h]
  · rw [if_neg h]
    constructor
    · intro h2; cases h2
    · rintro rfl; exact absurd (by decide : preservedChar '.' = true) h

/-! `hasDotDot` facts -/

theorem hasDotDot_append (xs ys : Str) :
    hasDotDot (xs ++ ys) = true ↔
      hasDotDot xs = true ∨ hasDotDot ys = true ∨
      (xs.getLast? = some '.' ∧ ys.head? = some '.') := by
  induction xs with
  | nil => simp [hasDotDot]
  | cons a t ih =>
    cases t with
    | nil =>
      cases ys with
      | nil => simp [hasDotDot]
      | cons b u =>
        simp [hasDotDot, Bool.or_eq_true, Bool.and_eq_true, beq_iff_eq]
        tauto
    | cons b u =>
      have hrw : (a :: b :: u) ++ ys = a :: ((b :: u) ++ ys) := rfl
      rw [hrw]
      have hrw2 : (b :: u) ++ ys = b :: (u ++ ys) := rfl
      constructor
      · intro h
        rw [show a :: ((b :: u) ++ ys) = a :: b :: (u ++ ys) from by rw [hrw2],
          hasDotDot] at h
        rcases Bool.or_eq_true _ _ |>.mp h with h1 | h2
        · exact Or.inl (by
            rw [hasDotDot]
            exact Bool.or_eq_true _ _ |>.mpr (Or.inl h1))
        · rw [← hrw2] at h2
          rcases ih.mp h2 with h3 | h3 | h3
          · exact Or.inl (by
              rw [hasDotDot]
              exact Bool.or_eq_true _ _ |>.mpr (Or.inr h3))
          · exact Or.inr (Or.inl h3)
          · exact Or.inr (Or.inr ⟨by rw [List.getLast?_cons_cons]; exact h3.1, h3.2⟩)
      · intro h
        rw [show a :: ((b :: u) ++ ys) = a :: b :: (u ++ ys) from by rw [hrw2],
          hasDotDot]
        refine Bool.or_eq_true _ _ |>.mpr ?_
        rcases h with h1 | h1 | h1
        · rw [hasDotDot] at h1
          rcases Bool.or_eq_true _ _ |>.mp h1 with h2 | h2
          · exact Or.inl h2
          · exact Or.inr (by rw [← hrw2]; exact ih.mpr (Or.inl h2))
        · exact Or.inr (by rw [← hrw2]; exact ih.mpr (Or.inr (Or.inl h1)))
        · refine Or.inr ?_
          rw [← hrw2]
          refine ih.mpr (Or.inr (Or.inr ⟨?_, h1.2⟩))
          rw [List.getLast?_cons_cons] at h1
          exact h1.1

theorem hasDotDot_append_false {xs ys : Str} (hx : hasDotDot xs = false)
    (hy : hasDotDot ys = false)
    (hb : ¬(xs.getLast? = some '.' ∧ ys.head? = some '.')) :
    hasDotDot (xs ++ ys) = false := by
  by_contra h
  rcases (hasDotDot_append xs ys).mp (Bool.of_not_eq_false h) with h1 | h1 | h1
  · rw [hx] at h1; cases h1
  · rw [hy] at h1; cases h1
  · exact hb h1

theorem hasDotDot_left {xs ys : Str} (h : hasDotDot (xs ++ ys) = false) :
    hasDotDot xs = false := by
  by_contra h2
  rw [(hasDotDot_append xs ys).mpr (Or.inl (Bool.of_not_eq_false h2))] at h
  cases h

theorem hasDotDot_right {xs ys : Str} (h : hasDotDot (xs ++ ys) = false) :
    hasDotDot ys = false := by
  by_contra h2
  rw [(hasDotDot_append xs ys).mpr (Or.inr (Or.inl (Bool.of_not_eq_false h2)))] at h
  cases h

theorem hasDotDot_take {s : Str} {n : Nat} (h : hasDotDot s = false) :
    hasDotDot (s.take n) = false :=
  @hasDotDot_left (s.take n) (s.drop n) (by rw [List.take_append_drop]; exact h)

theorem hasDotDot_trimBy {p : Char → Bool} {s : Str} (h : hasDotDot s = false) :
    hasDotDot (trimBy p s) = false := by
  obtain ⟨w, v, hd, -, -⟩ := trimBy_decomp p s
  rw [hd] at h
  exact hasDotDot_right (hasDotDot_left h)

theorem hasDotDot_map_mapStem (s : Str) :
    hasDotDot (s.map mapStemChar) = hasDotDot s := by
  induction s with
  | nil => rfl
  | cons a t ih =>
    cases t with
    | nil => simp [hasDotDot]
    | cons b u =>
      simp only [List.map_cons, hasDotDot] at ih ⊢
      rw [ih]
      congr 1
      have hgen : ∀ x : Char, (mapStemChar x == '.') = (x == '.') := by
        intro x
        by_cases h : x = '.'
        · subst h; rw [mapStem_eq_dot_iff.mpr rfl]
        · have h2 : ¬ mapStemChar x = '.' := fun h3 => h (mapStem_eq_dot_iff.mp h3)
          simp [beq_iff_eq, h, h2]
      rw [hgen a, hgen b]

/-! `splitSlash` facts -/

theorem splitSlash_no_slash {s : Str} (h : '/' ∉ s) : splitSlash s = [s] := by
  induction s with
  | nil => rfl
  | cons c t ih =>
    have hc : ¬ c = '/' := fun h2 => h (h2 ▸ List.mem_cons_self c t)
    have ht := ih (fun h2 => h (List.mem_cons_of_mem c h2))
    rw [splitSlash, if_neg hc, ht]

theorem splitSlash_append {a rest : Str} (h : '/' ∉ a) :
    splitSlash (a ++ '/' :: rest) = a :: splitSlash rest := by
  induction a with
  | nil => simp [splitSlash]
  | cons c t ih =>
    have hc : ¬ c = '/' := fun h2 => h (h2 ▸ List.mem_cons_self c t)
    have ht := ih (fun h2 => h (List.mem_cons_of_mem c h2))
    rw [List.cons_append, splitSlash, if_neg hc, ht]

/-! `splitExt` facts -/

theorem splitExtAux_spec {r1 : Str} (h : ∀ c ∈ r1, ¬ c = '.') :
    ∀ (r2 acc : Str),
      splitExtAux (r1 ++ '.' :: r2) acc =
        if r2 = [] then none else some (r2.reverse, r1.reverse ++ acc) := by
  induction r1 with
  | nil => intro r2 acc; simp [splitExtAux]
  | cons c t ih =>
    intro r2 acc
    have hc : ¬ c = '.' := h c (List.mem_cons_self c t)
    have ht := ih (fun x hx => h x (List.mem_cons_of_mem c hx))
    rw [List.cons_append, splitExtAux, if_neg hc, ht r2 (c :: acc)]
    by_cases h2 : r2 = []
    · rw [if_pos h2, if_pos h2]
    · rw [if_neg h2, if_neg h2, List.reverse_cons, List.append_assoc,
        List.singleton_append]

theorem splitExt_append {stem ext : Str} (hstem : stem ≠ []) (hext : ext ≠ [])
    (hnd : ∀ c ∈ ext, ¬ c = '.') :
    splitExt (stem ++ '.' :: ext) = some (stem, ext) := by
  have hne : ¬ stem ++ '.' :: ext = ['.', '.'] := by
    intro h
    have := congrArg List.length h
    simp [List.length_append] at this
    have h1 : 1 ≤ stem.length := List.length_pos.mpr hstem
    have h2 : 1 ≤ ext.length := List.length_pos.mpr hext
    omega
  rw [splitExt, if_neg hne]
  have hrev : (stem ++ '.' :: ext).reverse = ext.reverse ++ '.' :: stem.reverse := by
    simp [List.reverse_append]
  rw [hrev, splitExtAux_spec (fun c hc => hnd c (List.mem_reverse.mp hc))]
  simp [hstem]

theorem splitExtAux_inv {r : Str} :
    ∀ {acc stem0 ext0 : Str}, splitExtAux r acc = some (stem0, ext0) →
      ∃ r1, r = r1 ++ '.' :: stem0.reverse ∧ ext0 = r1.reverse ++ acc ∧
        ∀ c ∈ r1, ¬ c = '.' := by
  induction r with
  | nil => intro acc s0 e0 h; simp [splitExtAux] at h
  | cons c rest ih =>
    intro acc s0 e0 h
    by_cases hc : c = '.'
    · subst hc
      rw [splitExtAux, if_pos rfl] at h
      by_cases hr : rest = []
      · rw [if_pos hr] at h; cases h
      · rw [if_neg hr] at h
        obtain ⟨h1, h2⟩ : rest.reverse = s0 ∧ acc = e0 := by
          constructor <;> [exact congrArg Prod.fst (Option.some_inj.mp h);
            exact congrArg Prod.snd (Option.some_inj.mp h)]
        refine ⟨[], ?_, by simp [← h2], by simp⟩
        simp [← h1]
    · rw [splitExtAux, if_neg hc] at h
      obtain ⟨r1, hr, he, hdots⟩ := ih h
      refine ⟨c :: r1, by simp [hr], ?_, ?_⟩
      · rw [he]
        simp [List.append_assoc]
      · intro x hx
        rcases List.mem_cons.mp hx with rfl | hx
        · exact hc
        · exact hdots x hx

theorem splitExt_inv {name stem ext : Str}
    (h : splitExt name = some (stem, ext)) :
    name = stem ++ '.' :: ext ∧ ∀ c ∈ ext, ¬ c = '.' := by
  rw [splitExt] at h
  by_cases hne : name = ['.', '.']
  · rw [if_pos hne] at h; cases h
  · rw [if_neg hne] at h
    obtain ⟨r1, hr, he, hdots⟩ := splitExtAux_inv h
    have hname : name = stem ++ '.' :: r1.reverse := by
      have := congrArg List.reverse hr
      simpa [List.reverse_append] using this
    have hext : ext = r1.reverse := by simpa using he
    subst hext
    exact ⟨hname, fun c hc => hdots c (List.mem_reverse.mp hc)⟩

/-! `natDecimal` facts -/

theorem decRepAux_congr : ∀ (f1 f2 n : Nat), n < f1 → n < f2 →
    decRepAux f1 n = decRepAux f2 n := by
  intro f1
  induction f1 with
  | zero => intro f2 n h; omega
  | succ f1 ih =>
    intro f2 n h1 h2
    cases f2 with
    | zero => omega
    | succ f2 =>
      by_cases h10 : n < 10
      · simp [decRepAux, h10]
      · have hdiv : n / 10 < n := Nat.div_lt_self (by omega) (by omega)
        simp only [decRepAux, h10, if_false]
        congr 1
        exact ih f2 (n / 10) (by omega) (by omega)

theorem natDecimal_lt10 {n : Nat} (h : n < 10) : natDecimal n = [digitChar n] := by
  simp [natDecimal, decRepAux, h]

theorem natDecimal_ge10 {n : Nat} (h : 10 ≤ n) :
    natDecimal n = natDecimal (n / 10) ++ [digitChar (n % 10)] := by
  have hdiv : n / 10 < n := Nat.div_lt_self (by omega) (by omega)
  rw [natDecimal, decRepAux]
  simp only [show ¬ n < 10 by omega, if_false]
  rw [natDecimal, decRepAux_congr n (n / 10 + 1) (n / 10) (by omega) (by omega)]

theorem digitChar_toNat {d : Nat} (h : d < 10) : (digitChar d).toNat = 48 + d := by
  interval_cases d <;> decide

theorem natDecimal_digits (n : Nat) :
    ∀ c ∈ natDecimal n, 48 ≤ c.toNat ∧ c.toNat ≤ 57 := by
  induction n using Nat.strong_induction_on with
  | _ n ih =>
    by_cases h10 : n < 10
    · rw [natDecimal_lt10 h10]
      intro c hc
      rw [List.mem_singleton] at hc
      subst hc
      rw [digitChar_toNat h10]
      omega
    · rw [natDecimal_ge10 (by omega)]
      intro c hc
      rcases List.mem_append.mp hc with hc | hc
      · exact ih (n / 10) (Nat.div_lt_self (by omega) (by omega)) c hc
      · rw [List.mem_singleton] at hc
        subst hc
        rw [digitChar_toNat (Nat.mod_lt n (by omega))]
        have := Nat.mod_lt n (show 0 < 10 by omega)
        omega

theorem decVal_append_singleton (xs : Str) (c : Char) :
    decVal (xs ++ [c]) = decVal xs * 10 + (c.toNat - 48) := by
  simp [decVal, List.foldl_append]

theorem decVal_natDecimal (n : Nat) : decVal (natDecimal n) = n := by
  induction n using Nat.strong_induction_on with
  | _ n ih =>
    by_cases h10 : n < 10
    · rw [natDecimal_lt10 h10]
      simp [decVal, digitChar_toNat h10]
    · rw [natDecimal_ge10 (by omega), decVal_append_singleton,
        ih (n / 10) (Nat.div_lt_self (by omega) (by omega)),
        digitChar_toNat (Nat.mod_lt n (by omega))]
      omega

theorem natDecimal_inj {m n : Nat} (h : natDecimal m = natDecimal n) : m = n := by
  rw [← decVal_natDecimal m, h, decVal_natDecimal]

theorem natDecimal_ne_nil (n : Nat) : natDecimal n ≠ [] := by
  by_cases h10 : n < 10
  · rw [natDecimal_lt10 h10]; simp
  · rw [natDecimal_ge10 (by omega)]; simp

theorem natDecimal_len_mono {m n : Nat} (h : m ≤ n) :
    (natDecimal m).length ≤ (natDecimal n).length := by
  induction n using Nat.strong_induction_on generalizing m with
  | _ n ih =>
    by_cases hn : n < 10
    · rw [natDecimal_lt10 hn, natDecimal_lt10 (by omega)]
      simp
    · by_cases hm : m < 10
      · rw [natDecimal_lt10 hm, natDecimal_ge10 (show (10:Nat) ≤ n by omega)]
        simp only [List.length_append, List.length_singleton]
        have := List.length_pos.mpr (natDecimal_ne_nil (n / 10))
        omega
      · rw [natDecimal_ge10 (show (10:Nat) ≤ m by omega),
          natDecimal_ge10 (show (10:Nat) ≤ n by omega)]
        simp only [List.length_append, List.length_singleton]
        have := ih (n / 10) (Nat.div_lt_self (by omega) (by omega))
          (Nat.div_le_div_right h)
        omega

/-! `utf8Len` and `lowerStr` facts -/

theorem utf8Len_append (a b : Str) : utf8Len (a ++ b) = utf8Len a + utf8Len b := by
  simp [utf8Len]

theorem utf8Len_eq_length {s : Str} (h : ∀ c ∈ s, c.toNat ≤ 127) :
    utf8Len s = s.length := by
  induction s with
  | nil => rfl
  | cons a t ih =>
    have ha : utf8Size a = 1 := by
      rw [utf8Size, if_pos]
      exact h a (List.mem_cons_self a t)
    simp only [utf8Len, List.map_cons, List.sum_cons, ha, List.length_cons]
    have := ih (fun c hc => h c (List.mem_cons_of_mem a hc))
    rw [utf8Len] at this
    omega

theorem lowerStr_append (a b : Str) : lowerStr (a ++ b) = lowerStr a ++ lowerStr b := by
  simp [lowerStr]

theorem asciiLower_eq_self {c : Char} (h : ¬ (65 ≤ c.toNat ∧ c.toNat ≤ 90)) :
    asciiLower c = c := by
  rw [asciiLower, if_neg h]

theorem lowerStr_eq_self {s : Str} (h : ∀ c ∈ s, ¬ (65 ≤ c.toNat ∧ c.toNat ≤ 90)) :
    lowerStr s = s := by
  rw [lowerStr, List.map_congr_left (fun c hc => asciiLower_eq_self (h c hc))]
  simp

theorem lowerStr_length (s : Str) : (lowerStr s).length = s.length := by
  simp [lowerStr]

/-! Decide-level facts about the constant lists -/

theorem allowed_ext_facts : ∀ e ∈ ALLOWED_EXTENSIONS,
    lowerStr e = e ∧ e ≠ [] ∧ 2 ≤ e.length ∧ e.length ≤ 4 ∧ utf8Len e = e.length ∧
    hasDotDot e = false ∧
    ∀ c ∈ e, preservedChar c = true ∧ ¬ c = '.' ∧ rustWs c = false := by
  decide

theorem reserved_facts : ∀ r ∈ RESERVED_STEMS, r.length ≤ 4 ∧ '_' ∉ r := by
  decide

theorem reserved_length {s : Str} (h : is_reserved_windows_name s = true) :
    s.length ≤ 4 := by
  rw [is_reserved_windows_name, decide_eq_true_eq] at h
  have := (reserved_facts _ h).1
  simpa using this

theorem underscore_not_reserved {s : Str} (h : '_' ∈ s) :
    is_reserved_windows_name s = false := by
  rw [is_reserved_windows_name, decide_eq_false_iff_not]
  intro hmem
  have h2 : '_' ∈ s.map asciiUpper := by
    have : asciiUpper '_' = '_' := by decide
    exact this ▸ List.mem_map_of_mem asciiUpper h
  exact (reserved_facts _ hmem).2 h2

/-! ## The sanitizer: output shape and fixed points -/

theorem hasDotDot_dotCons {ys : Str} (hh : ys.head? ≠ some '.')
    (hy : hasDotDot ys = false) : hasDotDot ('.' :: ys) = false := by
  cases ys with
  | nil => rfl
  | cons b u =>
    have hb : ¬ b = '.' := by
      intro h; exact hh (by rw [h]; rfl)
    rw [hasDotDot]
    simp [hb, hy]

theorem sanitize_fixed {stem ext : Str}
    (hext : ext ∈ ALLOWED_EXTENSIONS) (hne : stem ≠ [])
    (hpres : ∀ c ∈ stem, preservedChar c = true)
    (hhead : stem.head? ≠ some '.')
    (hlast : stem.getLast? ≠ some '.')
    (hdd : hasDotDot stem = false)
    (hres : is_reserved_windows_name stem = false)
    (hlen : stem.length ≤ MAX_SANITIZED_FILENAME_LEN - (ext.length + 1)) :
    sanitize_filename (stem ++ '.' :: ext) = .ok (stem ++ '.' :: ext) := by
  obtain ⟨hlow, hextne, hlen2, hlen4, hutf, hddE, hcf⟩ := allowed_ext_facts ext hext
  have hAllPres : ∀ c ∈ stem ++ '.' :: ext, preservedChar c = true := by
    intro c hc
    rcases List.mem_append.mp hc with hc | hc
    · exact hpres c hc
    · rcases List.mem_cons.mp hc with rfl | hc
      · decide
      · exact (hcf c hc).1
  have hcand : trimStr (stem ++ '.' :: ext) = stem ++ '.' :: ext :=
    trimBy_eq_self_of_all (fun c hc => preserved_not_ws (hAllPres c hc))
  have hne2 : ¬ stem ++ '.' :: ext = [] := by simp
  have hnoSlash : '/' ∉ stem ++ '.' :: ext :=
    not_mem_of_all hAllPres (by decide)
  have hnoBack : '\\' ∉ stem ++ '.' :: ext :=
    not_mem_of_all hAllPres (by decide)
  have hnoColon : ':' ∉ stem ++ '.' :: ext :=
    not_mem_of_all hAllPres (by decide)
  have hextHead : (('.' :: ext) : Str).head? ≠ some '.' → False := fun h => h rfl
  have hdd2 : hasDotDot (stem ++ '.' :: ext) = false := by
    refine hasDotDot_append_false hdd ?_ ?_
    · refine hasDotDot_dotCons ?_ hddE
      cases ext with
      | nil => simp
      | cons e u =>
        intro h
        have he : e = '.' := by simpa using h
        exact (hcf e (by simp)).2.1 he
    · rintro ⟨h1, -⟩
      exact hlast h1
  have hnotDot : ¬ stem ++ '.' :: ext = ['.'] := by
    intro h
    have := congrArg List.length h
    have h1 : 1 ≤ stem.length := List.length_pos.mpr hne
    simp [List.length_append] at this
    omega
  have hdots : ∀ c ∈ ext, ¬ c = '.' := fun c hc => (hcf c hc).2.1
  have hsplit : splitExt (stem ++ '.' :: ext) = some (stem, ext) :=
    splitExt_append hne hextne hdots
  have hlow' : ext.map asciiLower = ext := hlow
  have hmem' : ¬ ext ∉ ALLOWED_EXTENSIONS := fun h => h hext
  have hmap : stem.map mapStemChar = stem := by
    have := List.map_congr_left
      (l := stem) (f := mapStemChar) (g := fun c => c)
      (fun c hc => by rw [mapStemChar, if_pos (hpres c hc)])
    simpa using this
  have htds : trimDotSpace stem = stem := by
    rw [trimDotSpace]
    refine trimBy_eq_self (fun a ha => ?_) (fun a ha => ?_)
    · have hdot : ¬ a = '.' := fun h => hhead (by
        rw [← h] at hhead ⊢
        exact ha)
      have hsp : ¬ a = ' ' := by
        intro h
        have := hpres a (List.mem_of_mem_head? ha)
        rw [h] at this
        exact absurd this (by decide)
      simp [dotSpace, hdot, hsp]
    · have hdot : ¬ a = '.' := fun h => hlast (by rw [← h]; exact ha)
      have hsp : ¬ a = ' ' := by
        intro h
        have := hpres a (mem_of_getLast? ha)
        rw [h] at this
        exact absurd this (by decide)
      simp [dotSpace, hdot, hsp]
  have hutfStem : utf8Len stem = stem.length :=
    utf8Len_eq_length (fun c hc => preserved_ascii (hpres c hc))
  simp only [sanitize_filename, hcand, hsplit]
  rw [if_neg hne2, if_neg (by
      push_neg
      exact ⟨hnoSlash, hnoBack, by rw [hdd2]; exact Bool.false_ne_true⟩),
    if_neg hnoColon, if_neg hnotDot]
  simp only [hlow', hmap, htds]
  rw [if_neg hmem', if_neg hne,
    if_neg (show ¬ is_reserved_windows_name stem = true by
      rw [hres]; exact Bool.false_ne_true),
    hutf, hutfStem,
    if_neg (show ¬ stem.length > MAX_SANITIZED_FILENAME_LEN - (ext.length + 1) by
      omega)]

theorem head?_append_left {l l' : Str} (h : l ≠ []) : (l ++ l').head? = l.head? := by
  cases l with
  | nil => exact absurd rfl h
  | cons a t => rfl

theorem head?_take {n : Nat} {l : Str} (h : 1 ≤ n) : (l.take n).head? = l.head? := by
  cases l with
  | nil => simp
  | cons a t =>
    cases n with
    | zero => omega
    | succ m => rfl

theorem trimmedStem_pres {x : Str} :
    ∀ c ∈ trimDotSpace (x.map mapStemChar), preservedChar c = true := by
  intro c hc
  have := mem_of_mem_trimBy (p := dotSpace) (s := x.map mapStemChar) hc
  obtain ⟨a, -, rfl⟩ := List.mem_map.mp this
  exact preserved_mapStem a

theorem trimmedStem_head {x : Str} :
    (trimDotSpace (x.map mapStemChar)).head? ≠ some '.' := by
  intro h
  have := trimBy_head?_false (p := dotSpace) (s := x.map mapStemChar) h
  rw [show dotSpace '.' = true from by decide] at this
  cases this

theorem trimmedStem_dd {x : Str} (hdd : hasDotDot x = false) :
    hasDotDot (trimDotSpace (x.map mapStemChar)) = false := by
  refine hasDotDot_trimBy ?_
  rw [hasDotDot_map_mapStem]
  exact hdd

/-- Shape of every successful `sanitize_filename` output: a non-empty
stem of preserved characters (not starting with a dot, free of `..`, not
a reserved device name, within the length budget) and an allow-listed
extension. -/
theorem sanitize_ok_shape {s r : Str} (h : sanitize_filename s = .ok r) :
    ∃ stem ext, r = stem ++ '.' :: ext ∧ ext ∈ ALLOWED_EXTENSIONS ∧ stem ≠ [] ∧
      (∀ c ∈ stem, preservedChar c = true) ∧ stem.head? ≠ some '.' ∧
      hasDotDot stem = false ∧ is_reserved_windows_name stem = false ∧
      stem.length ≤ MAX_SANITIZED_FILENAME_LEN - (ext.length + 1) := by
  simp only [sanitize_filename] at h
  by_cases h1 : trimStr s = []
  · rw [if_pos h1] at h; exact absurd h (by simp)
  rw [if_neg h1] at h
  by_cases h2 : '/' ∈ trimStr s ∨ '\\' ∈ trimStr s ∨ hasDotDot (trimStr s) = true
  · rw [if_pos h2] at h; exact absurd h (by simp)
  rw [if_neg h2] at h
  by_cases h3 : ':' ∈ trimStr s
  · rw [if_pos h3] at h; exact absurd h (by simp)
  rw [if_neg h3] at h
  by_cases h4 : trimStr s = ['.']
  · rw [if_pos h4] at h; exact absurd h (by simp)
  rw [if_neg h4] at h
  split at h
  · exact absurd h (by simp)
  case _ stemRaw extRaw heq =>
    by_cases hmem : List.map asciiLower extRaw ∉ ALLOWED_EXTENSIONS
    · rw [if_pos hmem] at h; exact absurd h (by simp)
    rw [if_neg hmem] at h
    have hddCand : hasDotDot (trimStr s) = false := by
      push_neg at h2
      exact Bool.not_eq_true _ |>.mp h2.2.2
    have hcandEq := splitExt_inv heq
    have hddRaw : hasDotDot stemRaw = false := by
      rw [hcandEq.1] at hddCand
      exact hasDotDot_left hddCand
    have hmemA : extRaw.map asciiLower ∈ ALLOWED_EXTENSIONS := not_not.mp hmem
    obtain ⟨hlowE, hextne, hlen2, hlen4, hutfE, hddE, hcfE⟩ :=
      allowed_ext_facts _ hmemA
    set ext := extRaw.map asciiLower with hextdef
    set s1 := if trimDotSpace (stemRaw.map mapStemChar) = [] then
      "file".toList else trimDotSpace (stemRaw.map mapStemChar) with hs1def
    have hS1pres : ∀ c ∈ s1, preservedChar c = true := by
      rw [hs1def]
      split
      · decide
      · exact trimmedStem_pres
    have hS1ne : s1 ≠ [] := by
      rw [hs1def]
      split
      · decide
      case _ hemp => exact hemp
    have hS1head : s1.head? ≠ some '.' := by
      rw [hs1def]
      split
      · decide
      · exact trimmedStem_head
    have hS1dd : hasDotDot s1 = false := by
      rw [hs1def]
      split
      · decide
      · exact trimmedStem_dd hddRaw
    set s2 := if is_reserved_windows_name s1 = true then s1 ++ "_file".toList
      else s1 with hs2def
    have hS2pres : ∀ c ∈ s2, preservedChar c = true := by
      rw [hs2def]
      split
      · intro c hc
        rcases List.mem_append.mp hc with hc | hc
        · exact hS1pres c hc
        · exact (show ∀ x ∈ ("_file".toList : Str), preservedChar x = true by
            decide) c hc
      · exact hS1pres
    have hS2ne : s2 ≠ [] := by
      rw [hs2def]
      split
      · simp
      · exact hS1ne
    have hS2head : s2.head? ≠ some '.' := by
      rw [hs2def]
      split
      · rw [head?_append_left hS1ne]
        exact hS1head
      · exact hS1head
    have hS2dd : hasDotDot s2 = false := by
      rw [hs2def]
      split
      · refine hasDotDot_append_false hS1dd (by decide) ?_
        rintro ⟨-, hb⟩
        cases hb
      · exact hS1dd
    have hS2res : is_reserved_windows_name s2 = false := by
      rw [hs2def]
      split
      · exact underscore_not_reserved (by
          refine List.mem_append.mpr (Or.inr ?_)
          decide)
      case _ hr => exact Bool.not_eq_true _ |>.mp hr
    have hS2ascii : utf8Len s2 = s2.length :=
      utf8Len_eq_length (fun c hc => preserved_ascii (hS2pres c hc))
    rw [hutfE] at h
    split at h
    case _ htr =>
      rw [Except.ok.injEq] at h
      subst h
      rw [hS2ascii] at htr
      refine ⟨s2.take (max (MAX_SANITIZED_FILENAME_LEN - (ext.length + 1)) 1),
        ext, rfl, hmemA, ?_, ?_, ?_, ?_, ?_, ?_⟩
      · have hlen : (s2.take (max (MAX_SANITIZED_FILENAME_LEN -
            (ext.length + 1)) 1)).length =
            min (max (MAX_SANITIZED_FILENAME_LEN - (ext.length + 1)) 1)
              s2.length := by
          simp [List.length_take]
        intro hnil
        rw [hnil] at hlen
        simp only [List.length_nil] at hlen
        have hp1 : 1 ≤ s2.length := List.length_pos.mpr hS2ne
        omega
      · exact fun c hc => hS2pres c (List.take_subset _ _ hc)
      · rw [head?_take (by omega)]
        exact hS2head
      · exact hasDotDot_take hS2dd
      · by_cases hr : is_reserved_windows_name
            (s2.take (max (MAX_SANITIZED_FILENAME_LEN - (ext.length + 1)) 1)) = true
        · exfalso
          have h4r := reserved_length hr
          rw [List.length_take] at h4r
          rw [MAX_SANITIZED_FILENAME_LEN] at h4r htr
          omega
        · exact Bool.not_eq_true _ |>.mp hr
      · rw [List.length_take]
        rw [MAX_SANITIZED_FILENAME_LEN] at htr ⊢
        omega
    case _ htr =>
      rw [Except.ok.injEq] at h
      subst h
      rw [hS2ascii] at htr
      exact ⟨s2, ext, rfl, hmemA, hS2ne, hS2pres, hS2head, hS2dd, hS2res,
        by omega⟩

theorem shape_all_preserved {stem ext : Str} (hext : ext ∈ ALLOWED_EXTENSIONS)
    (hpres : ∀ c ∈ stem, preservedChar c = true) :
    ∀ c ∈ stem ++ '.' :: ext, preservedChar c = true := by
  intro c hc
  rcases List.mem_append.mp hc with hc | hc
  · exact hpres c hc
  · rcases List.mem_cons.mp hc with rfl | hc
    · decide
    · exact ((allowed_ext_facts ext hext).2.2.2.2.2.2 c hc).1

theorem shape_trim {stem ext : Str} (hext : ext ∈ ALLOWED_EXTENSIONS)
    (hpres : ∀ c ∈ stem, preservedChar c = true) :
    trimStr (stem ++ '.' :: ext) = stem ++ '.' :: ext :=
  trimBy_eq_self_of_all
    (fun c hc => preserved_not_ws (shape_all_preserved hext hpres c hc))

/-- If a sanitized name sanitizes again successfully, the result is the
same name. -/
theorem sanitize_output_fixed {s r r2 : Str}
    (h1 : sanitize_filename s = .ok r) (h2 : sanitize_filename r = .ok r2) :
    r2 = r := by
  obtain ⟨stem, ext, rfl, hext, hne, hpres, hhead, hdd, hres, hlen⟩ :=
    sanitize_ok_shape h1
  have hlast : stem.getLast? ≠ some '.' := by
    intro hl
    have hddr : hasDotDot (stem ++ '.' :: ext) = true :=
      (hasDotDot_append _ _).mpr (Or.inr (Or.inr ⟨hl, rfl⟩))
    rw [sanitize_filename] at h2
    rw [shape_trim hext hpres] at h2
    rw [if_neg (by simp), if_pos (Or.inr (Or.inr hddr))] at h2
    exact absurd h2 (by simp)
  rw [sanitize_fixed hext hne hpres hhead hlast hdd hres hlen] at h2
  exact (Except.ok.injEq _ _ |>.mp h2).symm

/-! ## Claims C5, C6, C3 -/

theorem head?_mem_of_eq {l : Str} {a : Char} (h : l.head? = some a) : a ∈ l :=
  List.mem_of_mem_head? (by rw [h]; rfl)

theorem assert_safe_ok_iff (p : Str) : assert_safe_archive_path p = .ok () ↔
    ¬(trimStr p = [] ∨ ':' ∈ trimStr p ∨ '\\' ∈ trimStr p ∨
      Char.ofNat 0 ∈ trimStr p ∨ (trimStr p).head? = some '/' ∨
      ∃ seg ∈ splitSlash (trimStr p), seg = [] ∨ seg = ['.'] ∨ seg = ['.', '.']) := by
  rw [assert_safe_archive_path]
  split_ifs with h1 h2 h3 h4 h5
  · simp [h1]
  · constructor
    · intro h; exact absurd h (by simp)
    · intro h
      exfalso
      apply h
      rcases h2 with h2 | h2 | h2
      · exact Or.inr (Or.inr (Or.inr (Or.inr (Or.inl h2))))
      · exact Or.inr (Or.inr (Or.inl (head?_mem_of_eq h2)))
      · exact Or.inr (Or.inl h2)
  · constructor
    · intro h; exact absurd h (by simp)
    · intro h; exact absurd (Or.inr (Or.inr (Or.inl h3))) h
  · constructor
    · intro h; exact absurd h (by simp)
    · intro h; exact absurd (Or.inr (Or.inr (Or.inr (Or.inl h4)))) h
  · constructor
    · intro h; exact absurd h (by simp)
    · intro h
      exact absurd (Or.inr (Or.inr (Or.inr (Or.inr (Or.inr h5))))) h
  · constructor
    · intro _
      push_neg at h2
      rintro (hc | hc | hc | hc | hc | hc)
      · exact h1 hc
      · exact h2.2.2 hc
      · exact h3 hc
      · exact h4 hc
      · exact h2.1 hc
      · exact h5 hc
    · intro _; rfl

/-- C5. `assert_safe_archive_path` accepts exactly the forward-slash
paths of normal components: it errors iff the trimmed input is empty,
contains `:`, `\`, or NUL, starts with `/`, or has an empty, `.` or `..`
segment; the S2 examples behave as specified. -/
theorem assert_safe_archive_path_spec_C5 :
    (∀ p : Str, assert_safe_archive_path p = .ok () ↔
      ¬(trimStr p = [] ∨ ':' ∈ trimStr p ∨ '\\' ∈ trimStr p ∨
        Char.ofNat 0 ∈ trimStr p ∨ (trimStr p).head? = some '/' ∨
        ∃ seg ∈ splitSlash (trimStr p), seg = [] ∨ seg = ['.'] ∨ seg = ['.', '.'])) ∧
    (∃ e, assert_safe_archive_path "../file.txt".toList = .error e) ∧
    (∃ e, assert_safe_archive_path "..\\file.txt".toList = .error e) ∧
    (∃ e, assert_safe_archive_path "C:/evil.txt".toList = .error e) ∧
    (∃ e, assert_safe_archive_path "/root/file.txt".toList = .error e) ∧
    (∃ e, assert_safe_archive_path "\\\\server\\share\\f.txt".toList = .error e) ∧
    assert_safe_archive_path "files/good/file.txt".toList = .ok () :=
  ⟨assert_safe_ok_iff, ⟨_, rfl⟩, ⟨_, rfl⟩, ⟨_, rfl⟩, ⟨_, rfl⟩, ⟨_, rfl⟩, rfl⟩

/-- C6. `sanitize_filename` behaves as specified on the S1 examples
(trimming, extension lowercasing, stem remapping, reserved-stem suffixing,
allow-list rejection), and every successful output ends in an allow-listed,
already-lowercase extension. -/
theorem sanitize_filename_spec_C6 :
    sanitize_filename " My CAD Script.SCR ".toList = .ok "My_CAD_Script.scr".toList ∧
    sanitize_filename "con.txt".toList = .ok "con_file.txt".toList ∧
    (∃ m, sanitize_filename "payload.exe".toList = .error (.Validation m)) ∧
    ∀ s r, sanitize_filename s = .ok r →
      ∃ stem ext, r = stem ++ '.' :: ext ∧ ext ∈ ALLOWED_EXTENSIONS ∧
        lowerStr ext = ext ∧ stem ≠ [] := by
  refine ⟨rfl, rfl, ⟨_, rfl⟩, ?_⟩
  intro s r h
  obtain ⟨stem, ext, rfl, hext, hne, -, -, -, -, -⟩ := sanitize_ok_shape h
  exact ⟨stem, ext, rfl, hext, (allowed_ext_facts ext hext).1, hne⟩

theorem sanitize_filename_spec_C6_witness :
    ∃ stem ext, ("My_CAD_Script.scr".toList : Str) = stem ++ '.' :: ext ∧
      ext ∈ ALLOWED_EXTENSIONS ∧ lowerStr ext = ext ∧ stem ≠ [] :=
  sanitize_filename_spec_C6.2.2.2 " My CAD Script.SCR ".toList
    "My_CAD_Script.scr".toList sanitize_filename_spec_C6.1

/-- C3 (counterexample). The claim fails as stated: on the 121-byte name
`"a"*115 ++ ".b.scr"` the first `sanitize_filename` succeeds — truncation
to 120 bytes cuts the stem right after its dot — but its output
`"a"*115 ++ "..scr"` contains `..`, so the second application fails
instead of returning the same string. -/
theorem sanitize_filename_C3_counterexample :
    sanitize_filename (List.replicate 115 'a' ++ ".b.scr".toList) =
      .ok (List.replicate 115 'a' ++ "..scr".toList) ∧
    sanitize_filename (List.replicate 115 'a' ++ "..scr".toList) =
      .error (.Validation
        "File name cannot contain path separators or traversal segments.".toList) :=
  ⟨rfl, rfl⟩

/-- C3 (amended). Whenever both the first and the second application of
`sanitize_filename` succeed, the second returns the first's output
unchanged: `sanitize_filename(sanitize_filename(s)) == sanitize_filename(s)`
in every case where the second application does not fail (it can fail only
when the 120-byte truncation cut the stem right after a `'.'`). -/
theorem sanitize_filename_idempotent_C3 :
    ∀ s r r2 : Str, sanitize_filename s = .ok r → sanitize_filename r = .ok r2 →
      r2 = r :=
  fun _ _ _ h1 h2 => sanitize_output_fixed h1 h2

theorem sanitize_filename_idempotent_C3_witness :
    ("My_CAD_Script.scr".toList : Str) = "My_CAD_Script.scr".toList :=
  sanitize_filename_idempotent_C3 " My CAD Script.SCR ".toList
    "My_CAD_Script.scr".toList "My_CAD_Script.scr".toList rfl rfl

/-! ## Staging: inversion principles and claims C7, C10, C4 -/

theorem bind_ok {α β : Type} {x : ToolsResult α} {f : α → ToolsResult β} {v : β} :
    x >>= f = .ok v ↔ ∃ a, x = .ok a ∧ f a = .ok v := by
  cases x <;> simp [Bind.bind, Except.bind]

theorem bind_ok' {α β : Type} {x : ToolsResult α} {f : α → ToolsResult β} {v : β}
    (h : x >>= f = .ok v) : ∃ a, x = .ok a ∧ f a = .ok v :=
  bind_ok.mp h

/-- Inversion of one step of the staging loop. -/
theorem stageAux_cons_inv {ntid nvid : Str} {limits : FileLimits}
    {file : InboundToolFile} {rest : List InboundToolFile} {used : List Str}
    {total : Nat} {staged : List StagedToolFile}
    (h : stageAux ntid nvid limits (file :: rest) used total = .ok staged) :
    ∃ sanitized used' bytes path tail,
      unique_sanitized_filename file.original_name used = .ok (sanitized, used') ∧
      base64_decode (trimStr file.data_base64) = .ok bytes ∧
      bytes.length ≠ 0 ∧ bytes.length ≤ limits.max_file_size_bytes ∧
      total + bytes.length ≤ limits.max_total_size_bytes ∧
      build_stored_rel_path ntid nvid sanitized = .ok path ∧
      stageAux ntid nvid limits rest used' (total + bytes.length) = .ok tail ∧
      staged = { original_name := sanitized, mime := file.mime,
                 bytes := bytes, size_bytes := bytes.length,
                 sha256 := sha256_hex bytes, stored_rel_path := path } :: tail := by
  rw [stageAux] at h
  obtain ⟨⟨sanitized, used'⟩, hu, h⟩ := bind_ok' h
  dsimp only at h
  cases hb : base64_decode (trimStr file.data_base64) with
  | error e =>
    rw [hb] at h
    exact absurd h (by simp [Bind.bind, Except.bind])
  | ok bytes =>
    rw [hb] at h
    simp only [Bind.bind, Except.bind, pure, Except.pure] at h
    by_cases h0 : bytes.length = 0
    · rw [if_pos h0] at h
      exact absurd h (by simp)
    rw [if_neg h0] at h
    by_cases hmax : bytes.length > limits.max_file_size_bytes
    · rw [if_pos hmax] at h
      exact absurd h (by simp)
    rw [if_neg hmax] at h
    by_cases htot : total + bytes.length > limits.max_total_size_bytes
    · rw [if_pos htot] at h
      exact absurd h (by simp)
    rw [if_neg htot] at h
    obtain ⟨path, hp, h⟩ := bind_ok' h
    obtain ⟨tail, ht, h⟩ := bind_ok' h
    refine ⟨sanitized, used', bytes, path, tail, hu, rfl, h0, by omega, by omega,
      hp, ht, ?_⟩
    have h2 : (Except.ok (({ original_name := sanitized, mime := file.mime,
                             bytes := bytes, size_bytes := bytes.length,
                             sha256 := sha256_hex bytes,
                             stored_rel_path := path } : StagedToolFile) :: tail) :
        ToolsResult (List StagedToolFile)) = .ok staged := by
      simpa using h
    simpa using h2.symm

/-- Composition of one step of the staging loop. -/
theorem stageAux_cons_eq {ntid nvid : Str} {limits : FileLimits}
    {file : InboundToolFile} {rest : List InboundToolFile} {used used' : List Str}
    {total : Nat} {sanitized : Str} {bytes : Bytes} {path : Str}
    {tail : List StagedToolFile}
    (hu : unique_sanitized_filename file.original_name used = .ok (sanitized, used'))
    (hb : base64_decode (trimStr file.data_base64) = .ok bytes)
    (h0 : bytes.length ≠ 0) (hmax : bytes.length ≤ limits.max_file_size_bytes)
    (htot : total + bytes.length ≤ limits.max_total_size_bytes)
    (hp : build_stored_rel_path ntid nvid sanitized = .ok path)
    (ht : stageAux ntid nvid limits rest used' (total + bytes.length) = .ok tail) :
    stageAux ntid nvid limits (file :: rest) used total =
      .ok (({ original_name := sanitized, mime := file.mime,
              bytes := bytes, size_bytes := bytes.length,
              sha256 := sha256_hex bytes,
              stored_rel_path := path } : StagedToolFile) :: tail) := by
  rw [stageAux, hu]
  simp only [Bind.bind, Except.bind]
  rw [hb]
  simp only [Bind.bind, Except.bind, pure, Except.pure]
  rw [if_neg h0, if_neg (by omega), if_neg (by omega), hp]
  simp only [Except.bind, ht]

theorem stageAux_length {ntid nvid : Str} {limits : FileLimits} :
    ∀ {files : List InboundToolFile} {used : List Str} {total : Nat}
      {staged : List StagedToolFile},
      stageAux ntid nvid limits files used total = .ok staged →
      staged.length = files.length := by
  intro files
  induction files with
  | nil =>
    intro used total staged h
    rw [stageAux] at h
    obtain rfl : ([] : List StagedToolFile) = staged := by simpa using h
    rfl
  | cons file rest ih =>
    intro used total staged h
    obtain ⟨s1, u1, b1, p1, tail, -, -, -, -, -, -, ht, rfl⟩ := stageAux_cons_inv h
    simp [ih ht]

theorem stageAux_sizes {ntid nvid : Str} {limits : FileLimits} :
    ∀ {files : List InboundToolFile} {used : List Str} {total : Nat}
      {staged : List StagedToolFile},
      stageAux ntid nvid limits files used total = .ok staged →
      (∀ f ∈ staged, 0 < f.size_bytes ∧ f.size_bytes ≤ limits.max_file_size_bytes) ∧
      (staged = [] ∨ total + (staged.map (fun f => f.size_bytes)).sum ≤
        limits.max_total_size_bytes) := by
  intro files
  induction files with
  | nil =>
    intro used total staged h
    rw [stageAux] at h
    obtain rfl : ([] : List StagedToolFile) = staged := by simpa using h
    exact ⟨by simp, Or.inl rfl⟩
  | cons file rest ih =>
    intro used total staged h
    obtain ⟨s1, u1, b1, p1, tail, -, -, h0, hmax, htot, -, ht, rfl⟩ :=
      stageAux_cons_inv h
    obtain ⟨ihb, ihs⟩ := ih ht
    constructor
    · intro f hf
      rcases List.mem_cons.mp hf with rfl | hf
      · exact ⟨by simpa using Nat.pos_of_ne_zero h0, hmax⟩
      · exact ihb f hf
    · refine Or.inr ?_
      rcases ihs with rfl | hle
      · simpa using htot
      · simp only [List.map_cons, List.sum_cons]
        omega

/-- C7. Size-limit enforcement in staging: the S4 scenarios produce the
specified Validation messages, and on success every staged file is
non-empty and within the per-file limit while the total respects the
combined limit. -/
theorem stage_inbound_files_size_limits_C7 :
    (∃ m, stage_inbound_files "tool_1".toList "version_1".toList
        [⟨"big.scr".toList, none, "YWJj".toList⟩]
        ⟨2, 10⟩ = .error (.Validation m) ∧
      containsSub "exceeds max size".toList m = true) ∧
    (∃ m, stage_inbound_files "tool_1".toList "version_1".toList
        [⟨"big.scr".toList, none, "YWJj".toList⟩,
         ⟨"big.scr".toList, none, "YWJj".toList⟩]
        ⟨10, 5⟩ = .error (.Validation m) ∧
      containsSub "Combined file size exceeds".toList m = true) ∧
    ∀ (tool_id version_id : Str) (files : List InboundToolFile)
      (limits : FileLimits) (staged : List StagedToolFile),
      stage_inbound_files tool_id version_id files limits = .ok staged →
      (∀ f ∈ staged, 0 < f.size_bytes ∧ f.size_bytes ≤ limits.max_file_size_bytes) ∧
      (staged.map (fun f => f.size_bytes)).sum ≤ limits.max_total_size_bytes := by
  refine ⟨⟨_, rfl, by decide⟩, ⟨_, rfl, by decide⟩, ?_⟩
  intro tool_id version_id files limits staged h
  rw [stage_inbound_files] at h
  obtain ⟨ntid, -, h⟩ := bind_ok' h
  obtain ⟨nvid, -, h⟩ := bind_ok' h
  by_cases hemp : files = []
  · rw [if_pos hemp] at h
    exact absurd h (by simp)
  rw [if_neg hemp] at h
  obtain ⟨hb, hs⟩ := stageAux_sizes h
  refine ⟨hb, ?_⟩
  rcases hs with rfl | hle
  · simp
  · omega

theorem stage_inbound_files_size_limits_C7_witness :
    (∀ f ∈ [({ original_name := "install.scr".toList, mime := none,
               bytes := [97, 98, 99], size_bytes := 3,
               sha256 := sha256_hex [97, 98, 99],
               stored_rel_path := "tools/t1/v1/files/install.scr".toList } :
        StagedToolFile)], 0 < f.size_bytes ∧
        f.size_bytes ≤ FileLimits.default.max_file_size_bytes) ∧
    ([({ original_name := "install.scr".toList, mime := none,
         bytes := [97, 98, 99], size_bytes := 3,
         sha256 := sha256_hex [97, 98, 99],
         stored_rel_path := "tools/t1/v1/files/install.scr".toList } :
        StagedToolFile)].map (fun f => f.size_bytes)).sum ≤
      FileLimits.default.max_total_size_bytes :=
  stage_inbound_files_size_limits_C7.2.2 "t1".toList "v1".toList
    [⟨"install.scr".toList, none, "YWJj".toList⟩] FileLimits.default _ rfl

/-! Storage segments, stored paths, and staged-name fixedness -/

theorem hasDotDot_of_no_dot {l : Str} (h : ∀ c ∈ l, ¬ c = '.') :
    hasDotDot l = false := by
  induction l with
  | nil => rfl
  | cons a t ih =>
    cases t with
    | nil => rfl
    | cons b u =>
      rw [hasDotDot]
      have ha : ¬ a = '.' := h a (by simp)
      have hb : ¬ b = '.' := h b (by simp)
      simp only [Bool.or_eq_false_iff, Bool.and_eq_false_iff]
      exact ⟨Or.inl (by simpa using ha),
        ih (fun c hc => h c (List.mem_cons_of_mem a hc))⟩

theorem digit_preserved {c : Char} (h : 48 ≤ c.toNat ∧ c.toNat ≤ 57) :
    preservedChar c = true := by
  simp only [preservedChar, isAsciiAlnum, Bool.or_eq_true, decide_eq_true_eq]
  omega

theorem digit_ne_dot {c : Char} (h : 48 ≤ c.toNat ∧ c.toNat ≤ 57) : ¬ c = '.' := by
  intro h2
  subst h2
  revert h
  decide

theorem getLast?_append_right {l m : Str} (h : m ≠ []) :
    (l ++ m).getLast? = m.getLast? := by
  rw [List.getLast?_append]
  cases hm : m.getLast? with
  | none =>
    exfalso
    cases m with
    | nil => exact h rfl
    | cons a t =>
      rw [List.getLast?_eq_getLast (a :: t) (by simp)] at hm
      cases hm
  | some a => rfl

theorem natDecimal_len_pow {k n : Nat} (h1 : 1 ≤ k) (h2 : n < 10 ^ k) :
    (natDecimal n).length ≤ k := by
  induction k generalizing n with
  | zero => omega
  | succ k ih =>
    by_cases hn : n < 10
    · rw [natDecimal_lt10 hn]
      simp
    · have hk : 1 ≤ k := by
        by_contra hk0
        have : k = 0 := by omega
        subst this
        simp at h2
        omega
      rw [natDecimal_ge10 (by omega)]
      rw [List.length_append]
      have hd : n / 10 < 10 ^ k := by
        rw [pow_succ] at h2
        omega
      have := ih hk hd
      simp only [List.length_singleton]
      omega

theorem segChar_preserved {c : Char}
    (h : isAsciiAlnum c = true ∨ c = '-' ∨ c = '_') : preservedChar c = true := by
  rcases h with h | rfl | rfl
  · simp [preservedChar, h]
  · decide
  · decide

theorem segChar_ne_dot {c : Char}
    (h : isAsciiAlnum c = true ∨ c = '-' ∨ c = '_') : ¬ c = '.' := by
  rintro rfl
  rcases h with h | h | h
  · exact absurd h (by decide)
  · cases h
  · cases h

theorem segChar_ne_slash {c : Char}
    (h : isAsciiAlnum c = true ∨ c = '-' ∨ c = '_') : ¬ c = '/' := by
  rintro rfl
  rcases h with h | h | h
  · exact absurd h (by decide)
  · cases h
  · cases h

theorem validate_ok_inv {label v t : Str}
    (h : validate_storage_segment label v = .ok t) :
    t = trimStr v ∧ t ≠ [] ∧
      ∀ c ∈ t, isAsciiAlnum c = true ∨ c = '-' ∨ c = '_' := by
  rw [validate_storage_segment] at h
  by_cases h1 : trimStr v = []
  · rw [if_pos h1] at h; exact absurd h (by simp)
  rw [if_neg h1] at h
  by_cases h2 : '/' ∈ trimStr v ∨ '\\' ∈ trimStr v ∨ hasDotDot (trimStr v) = true ∨
      ':' ∈ trimStr v
  · rw [if_pos h2] at h; exact absurd h (by simp)
  rw [if_neg h2] at h
  by_cases h3 : ¬ ∀ c ∈ trimStr v, isAsciiAlnum c = true ∨ c = '-' ∨ c = '_'
  · rw [if_pos h3] at h; exact absurd h (by simp)
  rw [if_neg h3] at h
  push_neg at h3
  obtain rfl : trimStr v = t := by simpa using h
  exact ⟨rfl, h1, h3⟩

theorem validate_idem {label t : Str} (hne : t ≠ [])
    (hch : ∀ c ∈ t, isAsciiAlnum c = true ∨ c = '-' ∨ c = '_') :
    validate_storage_segment label t = .ok t := by
  have htrim : trimStr t = t :=
    trimBy_eq_self_of_all
      (fun c hc => preserved_not_ws (segChar_preserved (hch c hc)))
  rw [validate_storage_segment, htrim, if_neg hne]
  rw [if_neg ?hguard]
  case hguard =>
    push_neg
    refine ⟨not_mem_of_all (fun c hc => segChar_preserved (hch c hc)) (by decide),
      not_mem_of_all (fun c hc => segChar_preserved (hch c hc)) (by decide),
      ?_,
      not_mem_of_all (fun c hc => segChar_preserved (hch c hc)) (by decide)⟩
    rw [hasDotDot_of_no_dot (fun c hc => segChar_ne_dot (hch c hc))]
    exact Bool.false_ne_true
  rw [if_neg (not_not_intro hch)]

theorem build_inv {a b name path : Str}
    (h : build_stored_rel_path a b name = .ok path) :
    ∃ sa sb m, validate_storage_segment "tool_id".toList a = .ok sa ∧
      validate_storage_segment "version_id".toList b = .ok sb ∧
      sanitize_filename name = .ok m ∧
      path = toolsSeg ++ '/' :: (sa ++ '/' :: (sb ++ '/' :: (filesSeg ++ '/' :: m))) := by
  rw [build_stored_rel_path] at h
  obtain ⟨sa, ha, h⟩ := bind_ok' h
  obtain ⟨sb, hb, h⟩ := bind_ok' h
  obtain ⟨m, hm, h⟩ := bind_ok' h
  refine ⟨sa, sb, m, ha, hb, hm, ?_⟩
  have h2 := h.symm
  simp only [pure, Except.pure, Except.ok.injEq] at h2
  rw [h2]
  simp [List.append_assoc]

/-- A stored path built from validated segments and a fixed sanitized
name normalizes to itself. -/
theorem normalize_built {ntid nvid name : Str}
    (hta : ntid ≠ []) (htc : ∀ c ∈ ntid, isAsciiAlnum c = true ∨ c = '-' ∨ c = '_')
    (hva : nvid ≠ []) (hvc : ∀ c ∈ nvid, isAsciiAlnum c = true ∨ c = '-' ∨ c = '_')
    (hfix : sanitize_filename name = .ok name) :
    normalize_stored_rel_path
        (toolsSeg ++ '/' :: (ntid ++ '/' :: (nvid ++ '/' :: (filesSeg ++ '/' :: name)))) =
      .ok (toolsSeg ++ '/' :: (ntid ++ '/' :: (nvid ++ '/' :: (filesSeg ++ '/' :: name)))) := by
  obtain ⟨stem, ext, hshape, hext, hsne, hpres, -, -, -, -⟩ := sanitize_ok_shape hfix
  have hnamePres : ∀ c ∈ name, preservedChar c = true := by
    rw [hshape]
    exact shape_all_preserved hext hpres
  set path := toolsSeg ++ '/' :: (ntid ++ '/' :: (nvid ++ '/' :: (filesSeg ++ '/' :: name)))
    with hpath
  have hgoodChar : ∀ c ∈ path, c = '/' ∨ preservedChar c = true := by
    intro c hc
    rw [hpath] at hc
    simp only [List.mem_append, List.mem_cons] at hc
    have htl : ∀ x ∈ toolsSeg, preservedChar x = true := by decide
    have hfl : ∀ x ∈ filesSeg, preservedChar x = true := by decide
    rcases hc with hc | rfl | hc | rfl | hc | rfl | hc | rfl | hc
    · exact Or.inr (htl c hc)
    · exact Or.inl rfl
    · exact Or.inr (segChar_preserved (htc c hc))
    · exact Or.inl rfl
    · exact Or.inr (segChar_preserved (hvc c hc))
    · exact Or.inl rfl
    · exact Or.inr (hfl c hc)
    · exact Or.inl rfl
    · exact Or.inr (hnamePres c hc)
  have htrim : trimStr path = path := by
    refine trimBy_eq_self_of_all (fun c hc => ?_)
    rcases hgoodChar c hc with rfl | hc2
    · decide
    · exact preserved_not_ws hc2
  have hnotMem : ∀ x : Char, preservedChar x = false → ¬ x = '/' → x ∉ path := by
    intro x hx hxs hmem
    rcases hgoodChar x hmem with rfl | h2
    · exact hxs rfl
    · rw [h2] at hx; cases hx
  have hsplit : splitSlash path = [toolsSeg, ntid, nvid, filesSeg, name] := by
    rw [hpath]
    rw [splitSlash_append (by decide)]
    rw [splitSlash_append (not_mem_of_all
      (fun c hc => segChar_preserved (htc c hc)) (by decide))]
    rw [splitSlash_append (not_mem_of_all
      (fun c hc => segChar_preserved (hvc c hc)) (by decide))]
    rw [splitSlash_append (by decide)]
    rw [splitSlash_no_slash (not_mem_of_all hnamePres (by decide))]
  have hnameLen : 4 ≤ name.length := by
    have h1 : 1 ≤ stem.length := List.length_pos.mpr hsne
    have h2 : 2 ≤ ext.length := (allowed_ext_facts ext hext).2.2.1
    rw [hshape]
    simp only [List.length_append, List.length_cons]
    omega
  have hsegOK : ∀ t : Str, t ≠ [] →
      (∀ c ∈ t, isAsciiAlnum c = true ∨ c = '-' ∨ c = '_') →
      t ≠ [] ∧ t ≠ ['.'] ∧ t ≠ ['.', '.'] := by
    intro t hne hch
    refine ⟨hne, fun h => ?_, fun h => ?_⟩
    · exact segChar_ne_dot (hch '.' (by rw [h]; simp)) rfl
    · exact segChar_ne_dot (hch '.' (by rw [h]; simp)) rfl
  have hhd : path.head? = some 't' := by rw [hpath]; rfl
  have hsafe : assert_safe_archive_path path = .ok () := by
    rw [assert_safe_ok_iff, htrim]
    push_neg
    refine ⟨?_, hnotMem ':' (by decide) (by decide),
      hnotMem '\\' (by decide) (by decide),
      hnotMem (Char.ofNat 0) (by decide) (by decide), ?_, ?_⟩
    · rw [hpath]; simp
    · rw [hhd]; simp
    · intro seg hseg
      rw [hsplit] at hseg
      simp only [List.mem_cons, List.not_mem_nil, or_false] at hseg
      rcases hseg with h | h | h | h | h
      · rw [h]; exact ⟨by decide, by decide, by decide⟩
      · rw [h]; exact hsegOK ntid hta htc
      · rw [h]; exact hsegOK nvid hva hvc
      · rw [h]; exact ⟨by decide, by decide, by decide⟩
      · rw [h]
        refine ⟨fun h2 => ?_, fun h2 => ?_, fun h2 => ?_⟩ <;>
        · have := congrArg List.length h2
          simp only [List.length_nil, List.length_cons] at this
          omega
  rw [normalize_stored_rel_path]
  simp [Bind.bind, Except.bind, hsafe, htrim, hsplit,
    validate_idem hta htc, validate_idem hva hvc, hfix, pure, Except.pure,
    List.append_assoc]

/-- Inversion of the suffix-probing loop of `unique_sanitized_filename`. -/
theorem suffixLoop_inv {stem ext : Str} :
    ∀ {fuel suffix : Nat} {existing : List Str} {sanitized : Str}
      {used' : List Str},
      suffixLoop stem ext fuel suffix existing = .ok (sanitized, used') →
      ∃ j, suffix ≤ j ∧ j < suffix + fuel ∧
        used' = lowerStr sanitized :: existing ∧
        lowerStr sanitized ∉ existing ∧
        ((sanitized = stem ++ '_' :: natDecimal j ++ '.' :: ext ∧
          utf8Len (stem ++ '_' :: natDecimal j ++ '.' :: ext) ≤
            MAX_SANITIZED_FILENAME_LEN) ∨
         (sanitized = stem.take (min (max (MAX_SANITIZED_FILENAME_LEN -
              (utf8Len ext + 2 + utf8Len (natDecimal j))) 1) stem.length) ++
              '_' :: natDecimal j ++ '.' :: ext ∧
          MAX_SANITIZED_FILENAME_LEN <
            utf8Len (stem ++ '_' :: natDecimal j ++ '.' :: ext))) := by
  intro fuel
  induction fuel with
  | zero =>
    intro suffix existing sanitized used' h
    rw [suffixLoop] at h
    exact absurd h (by simp)
  | succ fuel ih =>
    intro suffix existing sanitized used' h
    rw [suffixLoop] at h
    by_cases htr : utf8Len (stem ++ '_' :: natDecimal suffix ++ '.' :: ext) >
        MAX_SANITIZED_FILENAME_LEN
    · rw [if_pos htr] at h
      by_cases hmem : lowerStr (stem.take (min (max (MAX_SANITIZED_FILENAME_LEN -
          (utf8Len ext + 2 + utf8Len (natDecimal suffix))) 1) stem.length) ++
          '_' :: natDecimal suffix ++ '.' :: ext) ∈ existing
      · rw [if_pos hmem] at h
        obtain ⟨j, hj1, hj2, hj3, hj4, hj5⟩ := ih h
        exact ⟨j, by omega, by omega, hj3, hj4, hj5⟩
      · rw [if_neg hmem] at h
        have h2 : (stem.take (min (max (MAX_SANITIZED_FILENAME_LEN -
            (utf8Len ext + 2 + utf8Len (natDecimal suffix))) 1) stem.length) ++
            '_' :: natDecimal suffix ++ '.' :: ext = sanitized) ∧
            lowerStr (stem.take (min (max (MAX_SANITIZED_FILENAME_LEN -
              (utf8Len ext + 2 + utf8Len (natDecimal suffix))) 1) stem.length) ++
              '_' :: natDecimal suffix ++ '.' :: ext) :: existing = used' := by
          simpa using h
        obtain ⟨hsan, hused⟩ := h2
        subst hsan
        exact ⟨suffix, le_refl _, by omega, hused.symm ▸ rfl, hmem,
          Or.inr ⟨rfl, by omega⟩⟩
    · rw [if_neg htr] at h
      by_cases hmem : lowerStr (stem ++ '_' :: natDecimal suffix ++ '.' :: ext) ∈
          existing
      · rw [if_pos hmem] at h
        obtain ⟨j, hj1, hj2, hj3, hj4, hj5⟩ := ih h
        exact ⟨j, by omega, by omega, hj3, hj4, hj5⟩
      · rw [if_neg hmem] at h
        have h2 : (stem ++ '_' :: natDecimal suffix ++ '.' :: ext = sanitized) ∧
            lowerStr (stem ++ '_' :: natDecimal suffix ++ '.' :: ext) :: existing =
              used' := by
          simpa using h
        obtain ⟨hsan, hused⟩ := h2
        subst hsan
        exact ⟨suffix, le_refl _, by omega, hused.symm ▸ rfl, hmem,
          Or.inl ⟨rfl, by omega⟩⟩

/-- Inversion of `unique_sanitized_filename`: the used-name set gains
exactly the lowercased assigned name, which was fresh; the assigned name
is either the sanitized name itself or a `_N`-suffixed (possibly
truncated) variant of it. -/
theorem unique_inv {orig : Str} {existing : List Str} {sanitized : Str}
    {used' : List Str}
    (h : unique_sanitized_filename orig existing = .ok (sanitized, used')) :
    used' = lowerStr sanitized :: existing ∧ lowerStr sanitized ∉ existing ∧
    ∃ s0, sanitize_filename orig = .ok s0 ∧
      (sanitized = s0 ∨
        ∃ stem0 ext0 j, splitExt s0 = some (stem0, ext0) ∧ 2 ≤ j ∧
          j < existing.length + 3 ∧
          ((sanitized = stem0 ++ '_' :: natDecimal j ++ '.' :: ext0 ∧
            utf8Len (stem0 ++ '_' :: natDecimal j ++ '.' :: ext0) ≤
              MAX_SANITIZED_FILENAME_LEN) ∨
           (sanitized = stem0.take (min (max (MAX_SANITIZED_FILENAME_LEN -
                (utf8Len ext0 + 2 + utf8Len (natDecimal j))) 1) stem0.length) ++
                '_' :: natDecimal j ++ '.' :: ext0 ∧
            MAX_SANITIZED_FILENAME_LEN <
              utf8Len (stem0 ++ '_' :: natDecimal j ++ '.' :: ext0)))) := by
  rw [unique_sanitized_filename] at h
  obtain ⟨s0, h1, h⟩ := bind_ok' h
  by_cases hmem : lowerStr s0 ∈ existing
  · rw [if_pos hmem] at h
    obtain ⟨stem0, ext0, hsh, hext, hsne, -, -, -, -, -⟩ := sanitize_ok_shape h1
    have hsplit : splitExt s0 = some (stem0, ext0) := by
      rw [hsh]
      exact splitExt_append hsne (allowed_ext_facts ext0 hext).2.1
        (fun c hc => ((allowed_ext_facts ext0 hext).2.2.2.2.2.2 c hc).2.1)
    rw [hsplit] at h
    obtain ⟨j, hj1, hj2, hj3, hj4, hj5⟩ := suffixLoop_inv h
    exact ⟨hj3, hj4, s0, h1, Or.inr ⟨stem0, ext0, j, hsplit, hj1, by omega, hj5⟩⟩
  · rw [if_neg hmem] at h
    have h2 : s0 = sanitized ∧ lowerStr s0 :: existing = used' := by
      simpa [pure, Except.pure] using h
    obtain ⟨rfl, hused⟩ := h2
    exact ⟨hused.symm, hmem, s0, h1, Or.inl rfl⟩

theorem utf8Len_cons (c : Char) (l : Str) : utf8Len (c :: l) = utf8Size c + utf8Len l := by
  simp [utf8Len]

theorem getLast?_some_of_ne_nil {l : Str} (h : l ≠ []) :
    ∃ a, l.getLast? = some a ∧ a ∈ l := by
  cases hrev : l.reverse with
  | nil => exact absurd (by simpa using congrArg List.reverse hrev) h
  | cons b t =>
    refine ⟨b, ?_, ?_⟩
    · rw [← List.head?_reverse, hrev]; rfl
    · have : b ∈ l.reverse := by rw [hrev]; simp
      exact List.mem_reverse.mp this

set_option maxHeartbeats 1000000 in
/-- A name assigned by `unique_sanitized_filename` re-sanitizes to itself
whenever re-sanitizing it succeeds at all (the used-name set is assumed
smaller than `10^100`, far beyond any constructible batch, so the decimal
suffix fits the 120-byte budget). -/
theorem unique_fixed {orig : Str} {existing : List Str} {sanitized m : Str}
    {used' : List Str}
    (hbound : existing.length + 3 ≤ 10 ^ 100)
    (h : unique_sanitized_filename orig existing = .ok (sanitized, used'))
    (hm : sanitize_filename sanitized = .ok m) : m = sanitized := by
  obtain ⟨-, -, s0, h1, hcase⟩ := unique_inv h
  rcases hcase with rfl | ⟨stem0, ext0, j, hsplit, hj2, hjlt, hshape⟩
  · exact sanitize_output_fixed h1 hm
  obtain ⟨stem1, ext1, hsh, hext, hsne, hpres, hhead, hdd, hres, hlen⟩ :=
    sanitize_ok_shape h1
  have hsplit1 : splitExt s0 = some (stem1, ext1) := by
    rw [hsh]
    exact splitExt_append hsne (allowed_ext_facts ext1 hext).2.1
      (fun c hc => ((allowed_ext_facts ext1 hext).2.2.2.2.2.2 c hc).2.1)
  rw [hsplit1] at hsplit
  obtain ⟨rfl, rfl⟩ : stem0 = stem1 ∧ ext0 = ext1 := by
    have h2 := Option.some_inj.mp hsplit
    exact ⟨(congrArg Prod.fst h2).symm, (congrArg Prod.snd h2).symm⟩
  obtain ⟨hlowE, hextne, hlen2, hlen4, hutfE, hddE, hcfE⟩ :=
    allowed_ext_facts ext0 hext
  have hjpow : j < 10 ^ 100 := by omega
  have hdigits := natDecimal_digits j
  have hdecA : utf8Len (natDecimal j) = (natDecimal j).length :=
    utf8Len_eq_length (fun c hc => by have := hdigits c hc; omega)
  have hdecLen : (natDecimal j).length ≤ 100 :=
    natDecimal_len_pow (by norm_num) hjpow
  have hdecPres : ∀ c ∈ '_' :: natDecimal j, preservedChar c = true := by
    intro c hc
    rcases List.mem_cons.mp hc with rfl | hc
    · decide
    · exact digit_preserved (hdigits c hc)
  have hdecNoDot : ∀ c ∈ '_' :: natDecimal j, ¬ c = '.' := by
    intro c hc
    rcases List.mem_cons.mp hc with rfl | hc
    · decide
    · exact digit_ne_dot (hdigits c hc)
  have hstemA : utf8Len stem0 = stem0.length :=
    utf8Len_eq_length (fun c hc => preserved_ascii (hpres c hc))
  have hlast : ∀ stemN : Str, (stemN ++ '_' :: natDecimal j).getLast? ≠ some '.' := by
    intro stemN hgl
    rw [getLast?_append_right (by simp)] at hgl
    obtain ⟨a, ha, hamem⟩ := getLast?_some_of_ne_nil
      (l := '_' :: natDecimal j) (by simp)
    rw [ha] at hgl
    exact hdecNoDot a hamem (Option.some_inj.mp hgl)
  have hddSfx : hasDotDot ('_' :: natDecimal j) = false :=
    hasDotDot_of_no_dot hdecNoDot
  rcases hshape with ⟨rfl, hle⟩ | ⟨rfl, hgt⟩
  · -- direct suffixed candidate
    have hlenc : utf8Len (stem0 ++ '_' :: natDecimal j ++ '.' :: ext0) =
        stem0.length + 1 + (natDecimal j).length + 1 + ext0.length := by
      rw [utf8Len_append, utf8Len_append, utf8Len_cons, utf8Len_cons, hstemA,
        hdecA, hutfE]
      have h1 : utf8Size '_' = 1 := by decide
      have h2 : utf8Size '.' = 1 := by decide
      omega
    have hfix := @sanitize_fixed (stem0 ++ '_' :: natDecimal j)
      ext0 hext (by simp)
      (by
        intro c hc
        rcases List.mem_append.mp hc with hc | hc
        · exact hpres c hc
        · exact hdecPres c hc)
      (by rw [head?_append_left hsne]; exact hhead)
      (hlast stem0)
      (hasDotDot_append_false hdd hddSfx (by
        rintro ⟨-, hb⟩
        rw [List.head?_cons] at hb
        exact absurd (Option.some_inj.mp hb) (by decide)))
      (underscore_not_reserved (List.mem_append.mpr (Or.inr (by simp))))
      (by
        rw [hlenc, MAX_SANITIZED_FILENAME_LEN] at hle
        rw [MAX_SANITIZED_FILENAME_LEN]
        simp only [List.length_append, List.length_cons]
        omega)
    rw [hfix] at hm
    exact (Except.ok.inj hm).symm
  · -- truncated suffixed candidate
    set k := min (max (MAX_SANITIZED_FILENAME_LEN -
      (utf8Len ext0 + 2 + utf8Len (natDecimal j))) 1) stem0.length with hk
    have hmaxStem : 14 ≤ MAX_SANITIZED_FILENAME_LEN -
        (utf8Len ext0 + 2 + utf8Len (natDecimal j)) := by
      rw [MAX_SANITIZED_FILENAME_LEN, hutfE, hdecA]
      omega
    have hk1 : 1 ≤ k := by
      rw [hk]
      have h1 : 1 ≤ stem0.length := List.length_pos.mpr hsne
      omega
    have hkle : k ≤ MAX_SANITIZED_FILENAME_LEN -
        (utf8Len ext0 + 2 + utf8Len (natDecimal j)) := by
      rw [hk]
      omega
    have htkne : stem0.take k ≠ [] := by
      intro hnil
      have := congrArg List.length hnil
      rw [List.length_take] at this
      simp only [List.length_nil] at this
      have h1 : 1 ≤ stem0.length := List.length_pos.mpr hsne
      rw [hk] at this
      omega
    have hfix := @sanitize_fixed (stem0.take k ++ '_' :: natDecimal j)
      ext0 hext (by simp)
      (by
        intro c hc
        rcases List.mem_append.mp hc with hc | hc
        · exact hpres c (List.take_subset _ _ hc)
        · exact hdecPres c hc)
      (by
        rw [head?_append_left htkne, head?_take hk1]
        exact hhead)
      (hlast (stem0.take k))
      (hasDotDot_append_false (hasDotDot_take hdd) hddSfx (by
        rintro ⟨-, hb⟩
        rw [List.head?_cons] at hb
        exact absurd (Option.some_inj.mp hb) (by decide)))
      (underscore_not_reserved (List.mem_append.mpr (Or.inr (by simp))))
      (by
        rw [MAX_SANITIZED_FILENAME_LEN, hutfE, hdecA] at hkle
        rw [MAX_SANITIZED_FILENAME_LEN]
        simp only [List.length_append, List.length_cons, List.length_take]
        omega)
    rw [hfix] at hm
    exact (Except.ok.inj hm).symm

/-- Staging-loop invariant: with validated id segments and a used-name
set far below `10^100`, every staged file records its own byte length
and digest, its assigned name is a sanitize fixed point, and its stored
path is the canonical `tools/...` path, accepted unchanged by
`normalize_stored_rel_path`. -/
theorem stageAux_invariants {ntid nvid : Str} {limits : FileLimits}
    (hta : ntid ≠ [])
    (htc : ∀ c ∈ ntid, isAsciiAlnum c = true ∨ c = '-' ∨ c = '_')
    (hva : nvid ≠ [])
    (hvc : ∀ c ∈ nvid, isAsciiAlnum c = true ∨ c = '-' ∨ c = '_') :
    ∀ {files : List InboundToolFile} {used : List Str} {total : Nat}
      {staged : List StagedToolFile},
      stageAux ntid nvid limits files used total = .ok staged →
      used.length + files.length + 3 ≤ 10 ^ 100 →
      ∀ f ∈ staged,
        f.size_bytes = f.bytes.length ∧ f.sha256 = sha256_hex f.bytes ∧
        sanitize_filename f.original_name = .ok f.original_name ∧
        f.stored_rel_path = toolsSeg ++ '/' :: (ntid ++ '/' ::
          (nvid ++ '/' :: (filesSeg ++ '/' :: f.original_name))) ∧
        normalize_stored_rel_path f.stored_rel_path = .ok f.stored_rel_path := by
  intro files
  induction files with
  | nil =>
    intro used total staged h hbound f hf
    rw [stageAux] at h
    obtain rfl : ([] : List StagedToolFile) = staged := by simpa using h
    cases hf
  | cons file rest ih =>
    intro used total staged h hbound f hf
    obtain ⟨sanitized, used', bytes, path, tail, hu, -, -, -, -, hp, ht, rfl⟩ :=
      stageAux_cons_inv h
    have husedlen : used'.length = used.length + 1 := by
      have h2 := (unique_inv hu).1
      rw [h2]
      rfl
    rcases List.mem_cons.mp hf with rfl | hf
    · obtain ⟨sa, sb, m, hsa, hsb, hm, hpath⟩ := build_inv hp
      have hbound1 : used.length + 3 ≤ 10 ^ 100 := by
        simp only [List.length_cons] at hbound
        omega
      have hms : m = sanitized := unique_fixed hbound1 hu hm
      have hsa2 : sa = ntid := by
        rw [validate_idem hta htc] at hsa
        exact (Except.ok.inj hsa).symm
      have hsb2 : sb = nvid := by
        rw [validate_idem hva hvc] at hsb
        exact (Except.ok.inj hsb).symm
      rw [hms, hsa2, hsb2] at hpath
      have hfix : sanitize_filename sanitized = .ok sanitized := by
        rw [hm, hms]
      refine ⟨rfl, rfl, hfix, hpath, ?_⟩
      show normalize_stored_rel_path path = .ok path
      rw [hpath]
      exact normalize_built hta htc hva hvc hfix
    · refine ih ht ?_ f hf
      simp only [List.length_cons] at hbound
      omega

/-- C10. Every staged file returned by `stage_inbound_files` is
internally consistent: `size_bytes` equals the length of the decoded
bytes, `sha256` equals `sha256_hex` of those bytes, and
`stored_rel_path` equals `tools/<tool_id>/<version_id>/files/<name>`
(with the validated id segments and the file's sanitized name, itself a
fixed point of `sanitize_filename`) and is accepted unchanged by
`normalize_stored_rel_path`. The batch is assumed no larger than
`10^12` files so the collision-suffix digits stay within the 120-byte
name budget. -/
theorem stage_inbound_files_invariants_C10 :
    ∀ (tool_id version_id : Str) (files : List InboundToolFile)
      (limits : FileLimits) (staged : List StagedToolFile),
      stage_inbound_files tool_id version_id files limits = .ok staged →
      files.length ≤ 10 ^ 12 →
      ∃ ntid nvid,
        validate_storage_segment "tool_id".toList tool_id = .ok ntid ∧
        validate_storage_segment "version_id".toList version_id = .ok nvid ∧
        ∀ f ∈ staged,
          f.size_bytes = f.bytes.length ∧ f.sha256 = sha256_hex f.bytes ∧
          sanitize_filename f.original_name = .ok f.original_name ∧
          f.stored_rel_path = toolsSeg ++ '/' :: (ntid ++ '/' ::
            (nvid ++ '/' :: (filesSeg ++ '/' :: f.original_name))) ∧
          normalize_stored_rel_path f.stored_rel_path = .ok f.stored_rel_path := by
  intro tool_id version_id files limits staged h hcount
  rw [stage_inbound_files] at h
  obtain ⟨ntid, hvt, h⟩ := bind_ok' h
  obtain ⟨nvid, hvv, h⟩ := bind_ok' h
  by_cases hemp : files = []
  · rw [if_pos hemp] at h
    exact absurd h (by simp)
  rw [if_neg hemp] at h
  obtain ⟨-, hta, htc⟩ := validate_ok_inv hvt
  obtain ⟨-, hva, hvc⟩ := validate_ok_inv hvv
  refine ⟨ntid, nvid, hvt, hvv, ?_⟩
  refine stageAux_invariants hta htc hva hvc h ?_
  have hA : (10 : Nat) ^ 12 + 3 ≤ 10 ^ 100 := by norm_num
  simp only [List.length_nil]
  omega

/-! ## Collision determinism (C4) -/

theorem lowerStr_cons (c : Char) (s : Str) :
    lowerStr (c :: s) = asciiLower c :: lowerStr s := rfl

theorem lowerStr_natDecimal (j : Nat) : lowerStr (natDecimal j) = natDecimal j :=
  lowerStr_eq_self (fun c hc => by
    have := natDecimal_digits j c hc
    omega)

theorem nodot_dot_append_inj {a u : Str} :
    ∀ {b v : Str}, (∀ c ∈ a, ¬ c = '.') → (∀ c ∈ b, ¬ c = '.') →
      a ++ '.' :: u = b ++ '.' :: v → a = b ∧ u = v := by
  induction a with
  | nil =>
    intro b v ha hb h
    cases b with
    | nil =>
      refine ⟨rfl, ?_⟩
      simpa using h
    | cons y ys =>
      exfalso
      have h2 : ('.' : Char) = y := by
        have := congrArg List.head? h
        simpa using this
      exact hb y (by simp) h2.symm
  | cons x xs ih =>
    intro b v ha hb h
    cases b with
    | nil =>
      exfalso
      have h2 : (x : Char) = '.' := by
        have := congrArg List.head? h
        simpa using this
      exact ha x (by simp) h2
    | cons y ys =>
      simp only [List.cons_append, List.cons.injEq] at h
      obtain ⟨rfl, h2⟩ := h
      obtain ⟨h3, h4⟩ := ih (fun c hc => ha c (List.mem_cons_of_mem x hc))
        (fun c hc => hb c (List.mem_cons_of_mem x hc)) h2
      exact ⟨by rw [h3], h4⟩

theorem usedUpTo_length (lS lE : Str) : ∀ p, (usedUpTo lS lE p).length = p
  | 0 => rfl
  | 1 => rfl
  | p + 2 => by
    rw [usedUpTo]
    simp [usedUpTo_length lS lE (p + 1)]

theorem usedUpTo_succ {lS lE : Str} {p : Nat} (hp : 1 ≤ p) :
    usedUpTo lS lE (p + 1) =
      (lS ++ '_' :: natDecimal (p + 1) ++ '.' :: lE) :: usedUpTo lS lE p := by
  obtain ⟨q, rfl⟩ : ∃ q, p = q + 1 := ⟨p - 1, by omega⟩
  rw [usedUpTo]

theorem mem_usedUpTo {lS lE x : Str} {p : Nat} :
    x ∈ usedUpTo lS lE p ↔ (1 ≤ p ∧ x = lS ++ '.' :: lE) ∨
      ∃ j, 2 ≤ j ∧ j ≤ p ∧ x = lS ++ '_' :: natDecimal j ++ '.' :: lE := by
  induction p with
  | zero =>
    constructor
    · intro h
      exact absurd h (by rw [usedUpTo]; simp)
    · rintro (⟨h1, -⟩ | ⟨j, hj2, hj, -⟩)
      · exact absurd h1 (by omega)
      · exact absurd hj (by omega)
  | succ q ih =>
    cases q with
    | zero =>
      rw [usedUpTo]
      constructor
      · intro h
        exact Or.inl ⟨le_rfl, by simpa using h⟩
      · rintro (⟨-, rfl⟩ | ⟨j, hj2, hj, -⟩)
        · simp
        · exact absurd (by omega : (2 : Nat) ≤ 1) (by omega)
    | succ r =>
      rw [usedUpTo]
      constructor
      · intro h
        rcases List.mem_cons.mp h with rfl | h
        · exact Or.inr ⟨r + 2, by omega, le_rfl, rfl⟩
        · rcases ih.mp h with ⟨h1, hx⟩ | ⟨j, hj2, hj, hx⟩
          · exact Or.inl ⟨by omega, hx⟩
          · exact Or.inr ⟨j, hj2, by omega, hx⟩
      · rintro (⟨-, rfl⟩ | ⟨j, hj2, hj, rfl⟩)
        · exact List.mem_cons_of_mem _ (ih.mpr (Or.inl ⟨by omega, rfl⟩))
        · by_cases hjp : j = r + 2
          · subst hjp
            exact List.mem_cons_self _ _
          · exact List.mem_cons_of_mem _
              (ih.mpr (Or.inr ⟨j, hj2, by omega, rfl⟩))

/-- Running the suffix loop from suffix `j`: if every suffix before `K`
is taken, `K` is free, and no candidate overflows the length budget,
the loop lands exactly on suffix `K`. -/
theorem suffixLoop_run {stem ext : Str} {used : List Str} {K : Nat} :
    ∀ (fuel j : Nat), 2 ≤ j → j ≤ K → K < j + fuel →
      (∀ i, j ≤ i → i < K →
        lowerStr (stem ++ '_' :: natDecimal i ++ '.' :: ext) ∈ used) →
      (∀ i, j ≤ i → i ≤ K →
        utf8Len (stem ++ '_' :: natDecimal i ++ '.' :: ext) ≤
          MAX_SANITIZED_FILENAME_LEN) →
      lowerStr (stem ++ '_' :: natDecimal K ++ '.' :: ext) ∉ used →
      suffixLoop stem ext fuel j used =
        .ok (stem ++ '_' :: natDecimal K ++ '.' :: ext,
          lowerStr (stem ++ '_' :: natDecimal K ++ '.' :: ext) :: used) := by
  intro fuel
  induction fuel with
  | zero =>
    intro j h2 hjK hKlt hmem htr hnot
    omega
  | succ fuel ih =>
    intro j h2 hjK hKlt hmem htr hnot
    simp only [suffixLoop]
    rw [if_neg (show ¬ utf8Len (stem ++ '_' :: natDecimal j ++ '.' :: ext) >
      MAX_SANITIZED_FILENAME_LEN by
        have := htr j le_rfl hjK
        omega)]
    by_cases hjK2 : j = K
    · subst hjK2
      rw [if_neg hnot]
    · rw [if_pos (hmem j le_rfl (by omega))]
      exact ih (j + 1) (by omega) (by omega) (by omega)
        (fun i h1a h1b => hmem i (by omega) h1b)
        (fun i h1a h1b => htr i (by omega) h1b) hnot

/-- The staging loop on a run of files that all sanitize to the same
case-folded name, entered after `p` earlier members of the run: each
file receives its own sanitized stem and extension around suffix
`p+1`, `p+2`, …, in input order. -/
theorem stage_collision_aux {ntid nvid : Str} {limits : FileLimits} {lS lE : Str} :
    ∀ {files : List InboundToolFile} {p total : Nat}
      {staged : List StagedToolFile},
      1 ≤ p → p + files.length ≤ 9 →
      (∀ f ∈ files, ∃ s stem ext,
        sanitize_filename f.original_name = .ok s ∧
        splitExt s = some (stem, ext) ∧
        lowerStr stem = lS ∧ lowerStr ext = lE ∧
        utf8Len s + 3 ≤ MAX_SANITIZED_FILENAME_LEN) →
      stageAux ntid nvid limits files (usedUpTo lS lE p) total = .ok staged →
      staged.map (fun f => f.original_name) = suffixedNames (p + 1) files := by
  intro files
  induction files with
  | nil =>
    intro p total staged hp h9 hall h
    rw [stageAux] at h
    obtain rfl : ([] : List StagedToolFile) = staged := by simpa using h
    rfl
  | cons file rest ih =>
    intro p total staged hp h9 hall h
    obtain ⟨sanitized, used', bytes, path, tail, hu, -, -, -, -, -, ht, rfl⟩ :=
      stageAux_cons_inv h
    obtain ⟨s, stem, ext, hs, hsplit, hlstem, hlext, hslen⟩ :=
      hall file (List.mem_cons_self _ _)
    obtain ⟨hsdec, -⟩ := splitExt_inv hsplit
    have hlowdot : asciiLower '.' = '.' := by decide
    have hlowus : asciiLower '_' = '_' := by decide
    have hlows : lowerStr s = lS ++ '.' :: lE := by
      rw [hsdec, lowerStr_append, lowerStr_cons, hlstem, hlext, hlowdot]
    have hlowcand : ∀ i, lowerStr (stem ++ '_' :: natDecimal i ++ '.' :: ext) =
        lS ++ '_' :: natDecimal i ++ '.' :: lE := by
      intro i
      rw [lowerStr_append, lowerStr_append, lowerStr_cons, lowerStr_cons,
        hlstem, hlext, lowerStr_natDecimal, hlowdot, hlowus]
    have hsutf : utf8Len s = utf8Len stem + 1 + utf8Len ext := by
      rw [hsdec, utf8Len_append, utf8Len_cons]
      have h1 : utf8Size '.' = 1 := by decide
      omega
    have hcandlen : ∀ i, i < 10 →
        utf8Len (stem ++ '_' :: natDecimal i ++ '.' :: ext) ≤
          MAX_SANITIZED_FILENAME_LEN := by
      intro i hi
      rw [natDecimal_lt10 hi]
      simp only [utf8Len_append, utf8Len_cons]
      have h1 : utf8Size '_' = 1 := by decide
      have h2 : utf8Size '.' = 1 := by decide
      have h3 : utf8Size (digitChar i) = 1 := by
        rw [utf8Size, if_pos]
        rw [digitChar_toNat hi]
        omega
      have h4 : utf8Len ([] : Str) = 0 := rfl
      omega
    rw [unique_sanitized_filename] at hu
    obtain ⟨s0, hs0, hu⟩ := bind_ok' hu
    rw [hs] at hs0
    obtain rfl : s = s0 := Except.ok.inj hs0
    have hmem0 : lowerStr s ∈ usedUpTo lS lE p := by
      rw [hlows]
      exact mem_usedUpTo.mpr (Or.inl ⟨hp, rfl⟩)
    rw [if_pos hmem0, hsplit] at hu
    dsimp only at hu
    rw [usedUpTo_length lS lE p] at hu
    have hp10 : p + 1 < 10 := by
      simp only [List.length_cons] at h9
      omega
    have hnot : lowerStr (stem ++ '_' :: natDecimal (p + 1) ++ '.' :: ext) ∉
        usedUpTo lS lE p := by
      rw [hlowcand]
      intro hmem
      rcases mem_usedUpTo.mp hmem with ⟨-, hx⟩ | ⟨j, hj2, hj, hx⟩
      · simp only [List.append_assoc, List.cons_append] at hx
        have h2 := List.append_cancel_left hx
        have h3 : ('_' : Char) = '.' := by
          have h4 := congrArg List.head? h2
          simp at h4
        exact absurd h3 (by decide)
      · simp only [List.append_assoc, List.cons_append] at hx
        have h2 := List.append_cancel_left hx
        have h3 : natDecimal (p + 1) ++ '.' :: lE = natDecimal j ++ '.' :: lE := by
          simpa using h2
        have h4 := (nodot_dot_append_inj
          (fun c hc => digit_ne_dot (natDecimal_digits _ c hc))
          (fun c hc => digit_ne_dot (natDecimal_digits _ c hc)) h3).1
        have h5 := natDecimal_inj h4
        omega
    have hrun := suffixLoop_run (K := p + 1) (p + 1) 2 (by omega) (by omega)
      (by omega)
      (fun i hi2 hiK => by
        rw [hlowcand]
        exact mem_usedUpTo.mpr (Or.inr ⟨i, hi2, by omega, rfl⟩))
      (fun i hi2 hiK => hcandlen i (by omega))
      hnot
    rw [hrun] at hu
    have hu2 : stem ++ '_' :: natDecimal (p + 1) ++ '.' :: ext = sanitized ∧
        lowerStr (stem ++ '_' :: natDecimal (p + 1) ++ '.' :: ext) ::
          usedUpTo lS lE p = used' := by
      have h2 := Except.ok.inj hu
      exact ⟨congrArg Prod.fst h2, congrArg Prod.snd h2⟩
    have hsan : sanitized = stem ++ '_' :: natDecimal (p + 1) ++ '.' :: ext :=
      hu2.1.symm
    have hused : used' = usedUpTo lS lE (p + 1) := by
      rw [usedUpTo_succ hp]
      rw [← hu2.2, hlowcand]
    rw [hused] at ht
    have htail := ih (by omega) (by
      simp only [List.length_cons] at h9
      omega) (fun f hf => hall f (List.mem_cons_of_mem _ hf)) ht
    have hname : suffixedName (p + 1) file =
        stem ++ '_' :: natDecimal (p + 1) ++ '.' :: ext := by
      rw [suffixedName, hs]
      dsimp only
      rw [hsplit]
    simp only [List.map_cons, htail, suffixedNames, hname]
    rw [hsan]

/-- C4 (amended). Collision determinism: when every inbound name
sanitizes to the same case-folded name and no candidate exceeds the
120-byte budget (sanitized names at most 117 bytes, at most 9 files),
staging assigns the first file its sanitized name and each later file
its own sanitized stem and extension around `_2`, `_3`, … in input
order; and the S3 run "My Script.SCR", "My_Script.scr", "my script.scr"
stages as "My_Script.scr", "My_Script_2.scr", "my_script_3.scr". The
original unbounded claim is refuted by
`stage_collision_C4_counterexample`: once a suffixed candidate
overflows 120 bytes the stem is truncated first, so the assigned name
is not `base_2.ext`. -/
theorem stage_collision_determinism_C4 :
    (∀ (tool_id version_id : Str) (first : InboundToolFile)
        (rest : List InboundToolFile) (limits : FileLimits)
        (staged : List StagedToolFile) (lS lE : Str),
      (∀ f ∈ first :: rest, ∃ s stem ext,
        sanitize_filename f.original_name = .ok s ∧
        splitExt s = some (stem, ext) ∧
        lowerStr stem = lS ∧ lowerStr ext = lE ∧
        utf8Len s + 3 ≤ MAX_SANITIZED_FILENAME_LEN) →
      (first :: rest).length ≤ 9 →
      stage_inbound_files tool_id version_id (first :: rest) limits =
        .ok staged →
      ∃ s1, sanitize_filename first.original_name = .ok s1 ∧
        staged.map (fun f => f.original_name) = s1 :: suffixedNames 2 rest) ∧
    (∃ staged, stage_inbound_files "t1".toList "v1".toList
        [⟨"My Script.SCR".toList, none, "YQ==".toList⟩,
         ⟨"My_Script.scr".toList, none, "Yg==".toList⟩,
         ⟨"my script.scr".toList, none, "Yw==".toList⟩] FileLimits.default =
          .ok staged ∧
      staged.map (fun f => f.original_name) =
        ["My_Script.scr".toList, "My_Script_2.scr".toList,
         "my_script_3.scr".toList]) := by
  constructor
  · intro tool_id version_id first rest limits staged lS lE hall h9 h
    rw [stage_inbound_files] at h
    obtain ⟨ntid, -, h⟩ := bind_ok' h
    obtain ⟨nvid, -, h⟩ := bind_ok' h
    rw [if_neg (by simp : ¬ first :: rest = [])] at h
    obtain ⟨sanitized, used', bytes, path, tail, hu, -, -, -, -, -, ht, rfl⟩ :=
      stageAux_cons_inv h
    obtain ⟨s1, stem, ext, hs, hsplit, hlstem, hlext, hslen⟩ :=
      hall first (List.mem_cons_self _ _)
    obtain ⟨hsdec, -⟩ := splitExt_inv hsplit
    rw [unique_sanitized_filename] at hu
    obtain ⟨s0, hs0, hu⟩ := bind_ok' hu
    rw [hs] at hs0
    obtain rfl : s1 = s0 := Except.ok.inj hs0
    rw [if_neg (List.not_mem_nil _)] at hu
    have hu2 : s1 = sanitized ∧ [lowerStr s1] = used' := by
      simpa [pure, Except.pure, Prod.mk.injEq] using hu
    have hlows : lowerStr s1 = lS ++ '.' :: lE := by
      rw [hsdec, lowerStr_append, lowerStr_cons, hlstem, hlext]
      rw [show asciiLower '.' = '.' from by decide]
    have hused1 : used' = usedUpTo lS lE 1 := by
      rw [usedUpTo, ← hu2.2, hlows]
    rw [hused1] at ht
    have htail := stage_collision_aux le_rfl (by
        simp only [List.length_cons] at h9
        omega) (fun f hf => hall f (List.mem_cons_of_mem _ hf)) ht
    refine ⟨s1, hs, ?_⟩
    simp only [List.map_cons, htail]
    rw [← hu2.1]
  · refine ⟨_, rfl, by decide⟩

theorem stage_collision_C4_counterexample :
    ∃ staged,
      stage_inbound_files "t1".toList "v1".toList
          [⟨List.replicate 115 'x' ++ ".scr".toList, none, "YQ==".toList⟩,
           ⟨List.replicate 115 'x' ++ ".scr".toList, none, "Yg==".toList⟩]
          FileLimits.default = .ok staged ∧
      sanitize_filename (List.replicate 115 'x' ++ ".scr".toList) =
        .ok (List.replicate 115 'x' ++ ".scr".toList) ∧
      staged.map (fun f => f.original_name) =
        [List.replicate 115 'x' ++ ".scr".toList,
         List.replicate 114 'x' ++ "_2.scr".toList] ∧
      List.replicate 114 'x' ++ "_2.scr".toList ≠
        List.replicate 115 'x' ++ "_2.scr".toList := by
  refine ⟨_, rfl, rfl, by decide, by decide⟩

theorem stage_collision_determinism_C4_witness :
    ∃ s1, sanitize_filename
        (InboundToolFile.original_name ⟨"My Script.SCR".toList, none,
          "YQ==".toList⟩) = .ok s1 ∧
      List.map (fun f => f.original_name)
        [({ original_name := "My_Script.scr".toList, mime := none,
            bytes := [97], size_bytes := 1, sha256 := sha256_hex [97],
            stored_rel_path := "tools/t1/v1/files/My_Script.scr".toList } :
          StagedToolFile),
         { original_name := "My_Script_2.scr".toList, mime := none,
           bytes := [98], size_bytes := 1, sha256 := sha256_hex [98],
           stored_rel_path := "tools/t1/v1/files/My_Script_2.scr".toList },
         { original_name := "my_script_3.scr".toList, mime := none,
           bytes := [99], size_bytes := 1, sha256 := sha256_hex [99],
           stored_rel_path := "tools/t1/v1/files/my_script_3.scr".toList }] =
        s1 :: suffixedNames 2
          [⟨"My_Script.scr".toList, none, "Yg==".toList⟩,
           ⟨"my script.scr".toList, none, "Yw==".toList⟩] :=
  stage_collision_determinism_C4.1 "t1".toList "v1".toList
    ⟨"My Script.SCR".toList, none, "YQ==".toList⟩
    [⟨"My_Script.scr".toList, none, "Yg==".toList⟩,
     ⟨"my script.scr".toList, none, "Yw==".toList⟩]
    FileLimits.default _ "my_script".toList "scr".toList
    (by
      intro f hf
      simp only [List.mem_cons, List.not_mem_nil, or_false] at hf
      rcases hf with rfl | rfl | rfl
      · exact ⟨"My_Script.scr".toList, "My_Script".toList, "scr".toList,
          rfl, by decide, by decide, by decide, by decide⟩
      · exact ⟨"My_Script.scr".toList, "My_Script".toList, "scr".toList,
          rfl, by decide, by decide, by decide, by decide⟩
      · exact ⟨"my_script.scr".toList, "my_script".toList, "scr".toList,
          rfl, by decide, by decide, by decide, by decide⟩)
    (by decide) rfl

theorem stage_inbound_files_invariants_C10_witness :
    ∃ ntid nvid,
      validate_storage_segment "tool_id".toList "t1".toList = .ok ntid ∧
      validate_storage_segment "version_id".toList "v1".toList = .ok nvid ∧
      ∀ f ∈ [({ original_name := "install.scr".toList, mime := none,
                bytes := [97, 98, 99], size_bytes := 3,
                sha256 := sha256_hex [97, 98, 99],
                stored_rel_path := "tools/t1/v1/files/install.scr".toList } :
          StagedToolFile)],
        f.size_bytes = f.bytes.length ∧ f.sha256 = sha256_hex f.bytes ∧
        sanitize_filename f.original_name = .ok f.original_name ∧
        f.stored_rel_path = toolsSeg ++ '/' :: (ntid ++ '/' ::
          (nvid ++ '/' :: (filesSeg ++ '/' :: f.original_name))) ∧
        normalize_stored_rel_path f.stored_rel_path = .ok f.stored_rel_path :=
  stage_inbound_files_invariants_C10 "t1".toList "v1".toList
    [⟨"install.scr".toList, none, "YWJj".toList⟩] FileLimits.default _ rfl
    (by norm_num)

/-! ## Slug uniqueness (C8) -/

theorem validate_required_ok {field v : Str} {m : Nat} {t : Str}
    (h : validate_required field v m = .ok t) : t = trimStr v := by
  rw [validate_required] at h
  by_cases h1 : trimStr v = []
  · rw [if_pos h1] at h
    exact absurd h (by simp)
  rw [if_neg h1] at h
  by_cases h2 : utf8Len (trimStr v) > m
  · rw [if_pos h2] at h
    exact absurd h (by simp)
  rw [if_neg h2] at h
  exact (Except.ok.inj h).symm

/-- Inversion of the candidate-probing loop of `resolve_unique_slug`:
the returned slug is free (for the given exclusion) and is either the
starting candidate or `base-k` for some probed `k`. -/
theorem resolveSlugAux_inv {cat : Catalog} {exclude : Option Str} {base : Str} :
    ∀ {fuel : Nat} {cand : Str} {counter : Nat} {slug : Str},
      resolveSlugAux cat exclude base fuel cand counter = .ok slug →
      cat.tools.any (fun t => decide (t.slug = slug) &&
        (match exclude with
         | some ex => !decide (t.id = ex)
         | none => true)) = false ∧
      (slug = cand ∨ ∃ k, counter ≤ k ∧ slug = base ++ '-' :: natDecimal k) := by
  intro fuel
  induction fuel with
  | zero =>
    intro cand counter slug h
    rw [resolveSlugAux] at h
    exact absurd h (by simp)
  | succ fuel ih =>
    intro cand counter slug h
    rw [resolveSlugAux] at h
    split at h
    · obtain ⟨hfree, hshape⟩ := ih h
      refine ⟨hfree, Or.inr ?_⟩
      rcases hshape with rfl | ⟨k, hk, rfl⟩
      · exact ⟨counter, le_rfl, rfl⟩
      · exact ⟨k, by omega, rfl⟩
    · rename_i htaken
      obtain rfl : cand = slug := Except.ok.inj h
      exact ⟨Bool.eq_false_iff.mpr htaken, Or.inl rfl⟩

/-- C8. Slug uniqueness: the slug resolved for a new tool is not worn
by any existing tool and is the slugified request or a `-k`-suffixed
variant of it (`k ≥ 2`); consequently a successful create appends
exactly one tool row whose slug is fresh, preserving pairwise
distinctness of catalog slugs across any sequence of creates; the base
is the requested slug when one is given (trimmed), otherwise the
slugified name — lowercased, runs of non-alphanumerics collapsed to
`-`, dashes trimmed, empty result becoming `tool`, as the samples
check. -/
theorem slug_uniqueness_C8 :
    (∀ (cat : Catalog) (requested slug : Str),
      resolve_unique_slug cat requested none = .ok slug →
      (∀ t ∈ cat.tools, ¬ t.slug = slug) ∧
      (slug = slugify requested ∨
        ∃ k, 2 ≤ k ∧ slug = slugify requested ++ '-' :: natDecimal k)) ∧
    (∀ (cat : Catalog) (tool_id version_id : Str)
        (metadata : ToolMetadataInput) (version : VersionInsertInput)
        (files : List FileRecordInsert) (now : Int) (fresh : Nat → Str)
        (cat2 : Catalog) (a b : Str),
      create_tool_with_version cat tool_id version_id metadata version files
          now fresh = .ok (cat2, a, b) →
      ∃ row req,
        cat2.tools = cat.tools ++ [row] ∧
        (∀ t ∈ cat.tools, ¬ t.slug = row.slug) ∧
        ((cat.tools.map (fun t => t.slug)).Nodup →
          (cat2.tools.map (fun t => t.slug)).Nodup) ∧
        req = (match metadata.slug with
          | some v => if trimStr v = [] then slugify (trimStr metadata.name)
              else trimStr v
          | none => slugify (trimStr metadata.name)) ∧
        (row.slug = slugify req ∨
          ∃ k, 2 ≤ k ∧ row.slug = slugify req ++ '-' :: natDecimal k)) ∧
    (slugify "My CAD Tool!".toList = "my-cad-tool".toList ∧
      slugify "!!!".toList = "tool".toList) := by
  have hresolve : ∀ (cat : Catalog) (requested slug : Str),
      resolve_unique_slug cat requested none = .ok slug →
      (∀ t ∈ cat.tools, ¬ t.slug = slug) ∧
      (slug = slugify requested ∨
        ∃ k, 2 ≤ k ∧ slug = slugify requested ++ '-' :: natDecimal k) := by
    intro cat requested slug h
    rw [resolve_unique_slug] at h
    obtain ⟨hfree, hshape⟩ := resolveSlugAux_inv h
    constructor
    · intro t ht heq
      have h2 := List.any_eq_false.mp hfree t ht
      rw [heq] at h2
      simp at h2
    · rcases hshape with rfl | ⟨k, hk, rfl⟩
      · exact Or.inl rfl
      · exact Or.inr ⟨k, hk, rfl⟩
  refine ⟨hresolve, ?_, by decide, by decide⟩
  intro cat tool_id version_id metadata version files now fresh cat2 a b h
  rw [create_tool_with_version] at h
  obtain ⟨name, hname, h⟩ := bind_ok' h
  obtain ⟨description, -, h⟩ := bind_ok' h
  obtain ⟨category, -, h⟩ := bind_ok' h
  obtain ⟨normalized_tags, -, h⟩ := bind_ok' h
  dsimp only at h
  obtain ⟨slug, hslug, h⟩ := bind_ok' h
  obtain ⟨version_label, -, h⟩ := bind_ok' h
  obtain ⟨instructions, -, h⟩ := bind_ok' h
  obtain ⟨changelog, -, h⟩ := bind_ok' h
  have hcat2 : Catalog.mk
      (cat.tools ++ [ToolRow.mk tool_id name slug description category now now])
      (cat.tool_tags ++ normalized_tags.map (fun t => (tool_id, t)))
      (cat.versions ++ [VersionRow.mk version_id tool_id version_label
        changelog instructions now])
      (cat.files ++ insert_files version_id files now fresh) = cat2 := by
    have h2 : _ = (cat2, a, b) := Except.ok.inj h
    exact congrArg Prod.fst h2
  obtain ⟨hfree, hshape⟩ := hresolve cat _ slug hslug
  refine ⟨ToolRow.mk tool_id name slug description category now now,
    _, ?_, hfree, ?_, rfl, ?_⟩
  · rw [← hcat2]
  · intro hnd
    rw [← hcat2]
    simp only [List.map_append, List.map_cons, List.map_nil]
    rw [List.nodup_append]
    refine ⟨hnd, List.nodup_singleton _, ?_⟩
    intro x hx hx2
    obtain ⟨t, ht, rfl⟩ := List.mem_map.mp hx
    simp only [List.mem_singleton] at hx2
    exact hfree t ht hx2
  · rw [validate_required_ok hname] at hshape
    exact hshape

/-! ## Round-trip groundwork (C2): base64, idempotent normalizers -/

theorem b64Val_b64Char : ∀ v, v < 64 → b64Val (b64Char v) = v := by decide

theorem b64Char_ne_pad : ∀ v, v < 64 → ¬ b64Char v = '=' := by decide

theorem b64_roundtrip : ∀ (l : Bytes), (∀ x ∈ l, x < 256) →
    base64_decode (base64_encode l) = .ok l
  | [], _ => rfl
  | [a], h => by
    have ha : a < 256 := h a (by simp)
    rw [base64_encode]
    simp only [base64_decode]
    rw [b64Val_b64Char (a / 4) (by omega),
      b64Val_b64Char (a % 4 * 16) (by omega)]
    rw [if_neg (by push_neg; constructor <;> omega)]
    rw [if_pos trivial, if_pos ⟨trivial, trivial⟩, if_pos (by omega)]
    have h2 : a / 4 * 4 + a % 4 * 16 / 16 = a := by omega
    rw [h2]
  | [a, b], h => by
    have ha : a < 256 := h a (by simp)
    have hb : b < 256 := h b (by simp)
    rw [base64_encode]
    simp only [base64_decode]
    rw [b64Val_b64Char (a / 4) (by omega),
      b64Val_b64Char (a % 4 * 16 + b / 16) (by omega)]
    rw [if_neg (by push_neg; constructor <;> omega)]
    rw [if_neg (b64Char_ne_pad (b % 16 * 4) (by omega))]
    rw [if_pos trivial]
    rw [b64Val_b64Char (b % 16 * 4) (by omega)]
    rw [if_neg (by omega), if_pos trivial, if_pos (by omega)]
    have h2 : a / 4 * 4 + (a % 4 * 16 + b / 16) / 16 = a := by omega
    have h3 : (a % 4 * 16 + b / 16) % 16 * 16 + b % 16 * 4 / 4 = b := by omega
    rw [h2, h3]
  | a :: b :: c :: d :: rest, h => by
    have ha : a < 256 := h a (by simp)
    have hb : b < 256 := h b (by simp)
    have hc : c < 256 := h c (by simp)
    have ih := b64_roundtrip (d :: rest) (fun x hx => h x (by simp [hx]))
    rw [base64_encode]
    simp only [base64_decode]
    rw [b64Val_b64Char (a / 4) (by omega),
      b64Val_b64Char (a % 4 * 16 + b / 16) (by omega)]
    rw [if_neg (by push_neg; constructor <;> omega)]
    rw [if_neg (b64Char_ne_pad (b % 16 * 4 + c / 64) (by omega))]
    rw [if_neg (b64Char_ne_pad (c % 64) (by omega))]
    rw [b64Val_b64Char (b % 16 * 4 + c / 64) (by omega),
      b64Val_b64Char (c % 64) (by omega)]
    rw [if_neg (by push_neg; constructor <;> omega)]
    rw [ih]
    have h2 : a / 4 * 4 + (a % 4 * 16 + b / 16) / 16 = a := by omega
    have h3 : (a % 4 * 16 + b / 16) % 16 * 16 + (b % 16 * 4 + c / 64) / 4 = b := by
      omega
    have h4 : (b % 16 * 4 + c / 64) % 4 * 64 + c % 64 = c := by omega
    rw [h2, h3, h4]
  | [a, b, c], h => by
    have ha : a < 256 := h a (by simp)
    have hb : b < 256 := h b (by simp)
    have hc : c < 256 := h c (by simp)
    rw [base64_encode]
    simp only [base64_decode]
    rw [b64Val_b64Char (a / 4) (by omega),
      b64Val_b64Char (a % 4 * 16 + b / 16) (by omega)]
    rw [if_neg (by push_neg; constructor <;> omega)]
    rw [if_neg (b64Char_ne_pad (b % 16 * 4 + c / 64) (by omega))]
    rw [if_neg (b64Char_ne_pad (c % 64) (by omega))]
    rw [b64Val_b64Char (b % 16 * 4 + c / 64) (by omega),
      b64Val_b64Char (c % 64) (by omega)]
    rw [if_neg (by push_neg; constructor <;> omega)]
    have h2 : a / 4 * 4 + (a % 4 * 16 + b / 16) / 16 = a := by omega
    have h3 : (a % 4 * 16 + b / 16) % 16 * 16 + (b % 16 * 4 + c / 64) / 4 = b := by
      omega
    have h4 : (b % 16 * 4 + c / 64) % 4 * 64 + c % 64 = c := by omega
    rw [h2, h3, h4]

theorem b64Char_not_ws_small : ∀ v, v < 64 → rustWs (b64Char v) = false := by decide

theorem b64Char_not_ws (v : Nat) : rustWs (b64Char v) = false := by
  by_cases h : v < 64
  · exact b64Char_not_ws_small v h
  · have h2 : b64Char v = '=' := by
      rw [b64Char]
      exact List.getD_eq_default _ _ (by
        have h3 : b64Alphabet.length = 64 := by decide
        omega)
    rw [h2]
    decide

theorem base64_encode_not_ws : ∀ (l : Bytes), ∀ c ∈ base64_encode l,
    rustWs c = false
  | [], _, hc => by cases hc
  | [a], c, hc => by
    have hpad : rustWs '=' = false := by decide
    rw [base64_encode] at hc
    simp only [List.mem_cons, List.not_mem_nil, or_false] at hc
    rcases hc with rfl | rfl | rfl | rfl
    · exact b64Char_not_ws _
    · exact b64Char_not_ws _
    · exact hpad
    · exact hpad
  | [a, b], c, hc => by
    have hpad : rustWs '=' = false := by decide
    rw [base64_encode] at hc
    simp only [List.mem_cons, List.not_mem_nil, or_false] at hc
    rcases hc with rfl | rfl | rfl | rfl
    · exact b64Char_not_ws _
    · exact b64Char_not_ws _
    · exact b64Char_not_ws _
    · exact hpad
  | a :: b :: c1 :: rest, c, hc => by
    rw [base64_encode] at hc
    simp only [List.mem_cons, List.not_mem_nil, or_false] at hc
    rcases hc with rfl | rfl | rfl | rfl | h
    · exact b64Char_not_ws _
    · exact b64Char_not_ws _
    · exact b64Char_not_ws _
    · exact b64Char_not_ws _
    · exact base64_encode_not_ws rest c h

theorem trimStr_base64_encode (l : Bytes) :
    trimStr (base64_encode l) = base64_encode l :=
  trimBy_eq_self_of_all (fun c hc => base64_encode_not_ws l c hc)

theorem trimStr_idem (s : Str) : trimStr (trimStr s) = trimStr s := by
  refine trimBy_eq_self ?_ ?_
  · intro a ha
    exact trimBy_head?_false ha
  · intro a ha
    exact trimBy_getLast?_false ha

theorem validate_required_inv {field v : Str} {m : Nat} {t : Str}
    (h : validate_required field v m = .ok t) :
    t = trimStr v ∧ t ≠ [] ∧ utf8Len t ≤ m := by
  rw [validate_required] at h
  by_cases h1 : trimStr v = []
  · rw [if_pos h1] at h
    exact absurd h (by simp)
  rw [if_neg h1] at h
  by_cases h2 : utf8Len (trimStr v) > m
  · rw [if_pos h2] at h
    exact absurd h (by simp)
  rw [if_neg h2] at h
  obtain rfl : trimStr v = t := Except.ok.inj h
  exact ⟨rfl, h1, by omega⟩

theorem validate_required_fixed {field t : Str} {m : Nat}
    (h1 : trimStr t = t) (h2 : t ≠ []) (h3 : utf8Len t ≤ m) :
    validate_required field t m = .ok t := by
  rw [validate_required, h1, if_neg h2, if_neg (by omega)]

theorem normalize_optional_fixed {v : Option Str} {m : Nat}
    (h : v = none ∨ ∃ c, v = some c ∧ trimStr c = c ∧ c ≠ [] ∧ utf8Len c ≤ m) :
    normalize_optional_text v m = .ok v := by
  rcases h with rfl | ⟨c, rfl, h1, h2, h3⟩
  · rfl
  · simp only [normalize_optional_text]
    rw [h1, if_neg h2, if_neg (by omega)]

theorem normalize_optional_inv {v r : Option Str} {m : Nat}
    (h : normalize_optional_text v m = .ok r) :
    r = none ∨ ∃ c, r = some c ∧ trimStr c = c ∧ c ≠ [] ∧ utf8Len c ≤ m := by
  cases v with
  | none =>
    simp only [normalize_optional_text] at h
    obtain rfl : (none : Option Str) = r := by simpa using h
    exact Or.inl rfl
  | some raw =>
    simp only [normalize_optional_text] at h
    by_cases h1 : trimStr raw = []
    · rw [if_pos h1] at h
      obtain rfl : (none : Option Str) = r := by simpa using h
      exact Or.inl rfl
    rw [if_neg h1] at h
    by_cases h2 : utf8Len (trimStr raw) > m
    · rw [if_pos h2] at h
      exact absurd h (by simp)
    rw [if_neg h2] at h
    obtain rfl : (some (trimStr raw) : Option Str) = r := by simpa using h
    exact Or.inr ⟨trimStr raw, rfl, trimStr_idem raw, h1, by omega⟩

theorem stableSort_sorted_fixed {le : α → α → Bool} :
    ∀ {l : List α}, List.Pairwise (fun a b => le a b = true) l →
      stableSort le l = l := by
  intro l
  induction l with
  | nil => intro h; rfl
  | cons x xs ih =>
    intro h
    rw [stableSort, ih (List.Pairwise.sublist (List.sublist_cons_self x xs) h)]
    cases xs with
    | nil => rfl
    | cons y ys =>
      rw [insertSorted, if_pos ((List.pairwise_cons.mp h).1 y (by simp))]

theorem normTagsAux_fixed : ∀ (tags seen : List Str),
    (∀ t ∈ tags, trimStr t = t ∧ t ≠ [] ∧ utf8Len t ≤ 48) →
    (∀ t ∈ tags, lowerStr t ∉ seen) →
    List.Pairwise (fun a b => ¬ lowerStr a = lowerStr b) tags →
    normTagsAux tags seen = .ok tags := by
  intro tags
  induction tags with
  | nil => intro seen h1 h2 h3; rfl
  | cons t rest ih =>
    intro seen h1 h2 h3
    obtain ⟨ht, htne, htlen⟩ := h1 t (List.mem_cons_self _ _)
    rw [normTagsAux, ht, if_neg htne, if_neg (by omega)]
    rw [if_neg (h2 t (List.mem_cons_self _ _))]
    have hrest := ih (lowerStr t :: seen)
      (fun r hr => h1 r (List.mem_cons_of_mem _ hr))
      (fun r hr => by
        intro hmem
        rcases List.mem_cons.mp hmem with hval | hval
        · exact (List.pairwise_cons.mp h3).1 r hr hval.symm
        · exact h2 r (List.mem_cons_of_mem _ hr) hval)
      (List.pairwise_cons.mp h3).2
    rw [hrest]
    rfl

theorem normalize_tags_fixed {tags : List Str}
    (h1 : ∀ t ∈ tags, trimStr t = t ∧ t ≠ [] ∧ utf8Len t ≤ 48)
    (h2 : List.Pairwise (fun a b => ¬ lowerStr a = lowerStr b) tags)
    (h3 : List.Pairwise (fun a b => lowerLe a b = true) tags) :
    normalize_tags tags = .ok tags := by
  rw [normalize_tags]
  rw [normTagsAux_fixed tags [] h1 (by simp) h2]
  simp only [Bind.bind, Except.bind, pure, Except.pure]
  rw [stableSort_sorted_fixed h3]

theorem asciiLower_hexChar (d : Nat) : asciiLower (hexChar d) = hexChar d := by
  rcases d with _|_|_|_|_|_|_|_|_|_|_|_|_|_|_|d2 <;>
    first
      | decide
      | exact (by decide : asciiLower 'f' = 'f')

theorem hexChar_not_upper (d : Nat) :
    ¬ (65 ≤ (hexChar d).toNat ∧ (hexChar d).toNat ≤ 90) := by
  rcases d with _|_|_|_|_|_|_|_|_|_|_|_|_|_|_|d2 <;>
    first
      | decide
      | exact (by decide : ¬ (65 ≤ ('f' : Char).toNat ∧ ('f' : Char).toNat ≤ 90))

theorem lowerStr_sha256_hex (b : Bytes) :
    lowerStr (sha256_hex b) = sha256_hex b := by
  refine lowerStr_eq_self (fun c hc => ?_)
  rw [sha256_hex] at hc
  obtain ⟨piece, hp, hcp⟩ := List.mem_flatten.mp hc
  obtain ⟨x, -, rfl⟩ := List.mem_map.mp hp
  simp only [List.mem_cons, List.not_mem_nil, or_false] at hcp
  rcases hcp with rfl | rfl
  · exact hexChar_not_upper _
  · exact hexChar_not_upper _

/-- A `files/<sanitized name>` manifest path passes the archive-path
safety check. -/
theorem assert_safe_files_path {m n : Str} (hs : sanitize_filename m = .ok n) :
    assert_safe_archive_path (filesSeg ++ '/' :: n) = .ok () := by
  obtain ⟨stem, ext, hshape, hext, hsne, hpres, -, -, -, -⟩ := sanitize_ok_shape hs
  have hnpres : ∀ c ∈ n, preservedChar c = true := by
    rw [hshape]
    exact shape_all_preserved hext hpres
  have hgood : ∀ c ∈ filesSeg ++ '/' :: n, c = '/' ∨ preservedChar c = true := by
    intro c hc
    have hfl : ∀ x ∈ filesSeg, preservedChar x = true := by decide
    rcases List.mem_append.mp hc with hc | hc
    · exact Or.inr (hfl c hc)
    · rcases List.mem_cons.mp hc with rfl | hc
      · exact Or.inl rfl
      · exact Or.inr (hnpres c hc)
  have hnot : ∀ x : Char, preservedChar x = false → ¬ x = '/' →
      x ∉ filesSeg ++ '/' :: n := by
    intro x hx hxs hmem
    rcases hgood x hmem with rfl | h2
    · exact hxs rfl
    · rw [h2] at hx
      cases hx
  have htrim : trimStr (filesSeg ++ '/' :: n) = filesSeg ++ '/' :: n := by
    refine trimBy_eq_self_of_all (fun c hc => ?_)
    rcases hgood c hc with rfl | h2
    · decide
    · exact preserved_not_ws h2
  have hsplit : splitSlash (filesSeg ++ '/' :: n) = [filesSeg, n] := by
    rw [splitSlash_append (by decide)]
    rw [splitSlash_no_slash (not_mem_of_all hnpres (by decide))]
  have hlen4 : 4 ≤ n.length := by
    have h1 : 1 ≤ stem.length := List.length_pos.mpr hsne
    have h2 : 2 ≤ ext.length := (allowed_ext_facts ext hext).2.2.1
    rw [hshape]
    simp only [List.length_append, List.length_cons]
    omega
  rw [assert_safe_ok_iff, htrim]
  push_neg
  refine ⟨by simp, hnot ':' (by decide) (by decide),
    hnot '\\' (by decide) (by decide),
    hnot (Char.ofNat 0) (by decide) (by decide), ?_, ?_⟩
  · rw [head?_append_left (by decide : filesSeg ≠ [])]
    decide
  · intro seg hseg
    rw [hsplit] at hseg
    simp only [List.mem_cons, List.not_mem_nil, or_false] at hseg
    rcases hseg with rfl | rfl
    · refine ⟨by decide, by decide, by decide⟩
    · refine ⟨fun h2 => hsne (by
        have := congrArg List.length h2
        rw [hshape] at this
        simp only [List.length_append, List.length_cons, List.length_nil] at this
        omega), ?_, ?_⟩
      · intro h2
        have := congrArg List.length h2
        simp only [List.length_cons, List.length_nil] at this
        omega
      · intro h2
        have := congrArg List.length h2
        simp only [List.length_cons, List.length_nil] at this
        omega

theorem files_path_take6 (n : Str) :
    (filesSeg ++ '/' :: n).take 6 = "files/".toList := by
  show ("files/".toList ++ n).take 6 = "files/".toList
  have h2 : ("files/".toList).length = 6 := by decide
  rw [← h2]
  exact List.take_left _ _

theorem find?_key {A : Type} : ∀ {l : List (Str × A)} {k : Str} {v : A},
    (k, v) ∈ l → (l.map Prod.fst).Nodup →
    l.find? (fun e => decide (e.1 = k)) = some (k, v) := by
  intro l
  induction l with
  | nil =>
    intro k v hmem hnd
    cases hmem
  | cons e rest ih =>
    intro k v hmem hnd
    rcases List.mem_cons.mp hmem with rfl | hmem
    · exact List.find?_cons_of_pos _ (by simp)
    · have hne : ¬ e.1 = k := by
        intro h2
        have h3 : k ∈ rest.map Prod.fst :=
          List.mem_map.mpr ⟨(k, v), hmem, rfl⟩
        rw [List.map_cons] at hnd
        exact (List.nodup_cons.mp hnd).1 (h2 ▸ h3)
      rw [List.find?_cons_of_neg _ (by simp [hne])]
      exact ih hmem (by
        rw [List.map_cons] at hnd
        exact (List.nodup_cons.mp hnd).2)

/-- Inversion of the manifest-file loop: each manifest entry reflects
its row, and the (case-folded) names are fresh and pairwise distinct. -/
theorem buildManifestFiles_inv : ∀ {rows : List FileRow} {seen : List Str}
    {mfs : List ManifestFile},
    buildManifestFiles rows seen = .ok mfs →
    List.Forall₂ (fun (f : FileRow) (mf : ManifestFile) =>
      sanitize_filename f.original_name = .ok mf.original_name ∧
      mf.sha256 = f.sha256 ∧ mf.size_bytes = (max f.size_bytes 0).toNat ∧
      mf.relative_path = filesSeg ++ '/' :: mf.original_name) rows mfs ∧
    (mfs.map (fun mf => lowerStr mf.original_name)).Nodup ∧
    (∀ mf ∈ mfs, lowerStr mf.original_name ∉ seen) := by
  intro rows
  induction rows with
  | nil =>
    intro seen mfs h
    rw [buildManifestFiles] at h
    obtain rfl : ([] : List ManifestFile) = mfs := by simpa using h
    exact ⟨List.Forall₂.nil, List.nodup_nil, by simp⟩
  | cons f rest ih =>
    intro seen mfs h
    rw [buildManifestFiles] at h
    obtain ⟨n, hn, h⟩ := bind_ok' h
    by_cases hmem : lowerStr n ∈ seen
    · rw [if_pos hmem] at h
      exact absurd h (by simp)
    rw [if_neg hmem] at h
    obtain ⟨tk, htk, h⟩ := bind_ok' h
    have hmfs : ManifestFile.mk n f.sha256 (max f.size_bytes 0).toNat
        (filesSeg ++ '/' :: n) :: tk = mfs := by
      simpa [pure, Except.pure] using h
    obtain ⟨ihf, ihnd, ihseen⟩ := ih htk
    rw [← hmfs]
    refine ⟨List.Forall₂.cons ⟨hn, rfl, rfl, rfl⟩ ihf, ?_, ?_⟩
    · rw [List.map_cons, List.nodup_cons]
      refine ⟨?_, ihnd⟩
      intro h2
      obtain ⟨mf, hmf, hval⟩ := List.mem_map.mp h2
      exact ihseen mf hmf (hval ▸ List.mem_cons_self _ _)
    · intro mf hmf
      rcases List.mem_cons.mp hmf with rfl | hmf
      · exact hmem
      · exact fun h2 => ihseen mf hmf (List.mem_cons_of_mem _ h2)

/-- Inversion of the per-file export loop: each produced entry carries
the `files/<sanitized>` path and the verified stored bytes. -/
theorem exportFilesLoop_inv : ∀ {rows : List FileRow} {d : Disk}
    {tid vid : Str} {entries : List (Str × Bytes)},
    exportFilesLoop d tid vid rows = .ok entries →
    List.Forall₂ (fun (f : FileRow) (en : Str × Bytes) =>
      ∃ n, sanitize_filename f.original_name = .ok n ∧
        en.1 = filesSeg ++ '/' :: n ∧
        read_stored_file_bytes d f.stored_rel_path = .ok en.2 ∧
        en.2.length = (max f.size_bytes 0).toNat ∧
        lowerStr (sha256_hex en.2) = lowerStr (trimStr f.sha256)) rows entries := by
  intro rows
  induction rows with
  | nil =>
    intro d tid vid entries h
    rw [exportFilesLoop] at h
    obtain rfl : ([] : List (Str × Bytes)) = entries := by simpa using h
    exact List.Forall₂.nil
  | cons f rest ih =>
    intro d tid vid entries h
    rw [exportFilesLoop] at h
    obtain ⟨n, hn, h⟩ := bind_ok' h
    obtain ⟨u, -, h⟩ := bind_ok' h
    obtain ⟨expected, -, h⟩ := bind_ok' h
    by_cases hpath : ¬ f.stored_rel_path = expected
    · rw [if_pos hpath] at h
      exact absurd h (by simp)
    rw [if_neg hpath] at h
    push_neg at hpath
    obtain ⟨bytes, hbytes, h⟩ := bind_ok' h
    by_cases hsz : ¬ bytes.length = (max f.size_bytes 0).toNat
    · rw [if_pos hsz] at h
      exact absurd h (by simp)
    rw [if_neg hsz] at h
    push_neg at hsz
    by_cases hsha : ¬ lowerStr (sha256_hex bytes) = lowerStr (trimStr f.sha256)
    · rw [if_pos hsha] at h
      exact absurd h (by simp)
    rw [if_neg hsha] at h
    push_neg at hsha
    obtain ⟨tk, htk, h⟩ := bind_ok' h
    have hent : ((filesSeg ++ '/' :: n, bytes) : Str × Bytes) :: tk = entries := by
      simpa [pure, Except.pure] using h
    rw [← hent]
    exact List.Forall₂.cons ⟨n, hn, rfl, hbytes, hsz, hsha⟩ (ih htk)

/-- Inversion of `export_tool_version_zip` into its manifest and entry
components. -/
theorem export_ok_inv {d : Disk} {ctx : ExportVersionContext} {ar : Archive}
    (h : export_tool_version_zip d ctx = .ok ar) :
    ar.manifest.tool = ManifestTool.mk ctx.tool.name ctx.tool.slug
      ctx.tool.description ctx.tool.category ctx.tool.tags ∧
    ar.manifest.version = ManifestVersion.mk ctx.version.version
      ctx.version.changelog_md ∧
    buildManifestFiles ctx.files [] = .ok ar.manifest.files ∧
    exportFilesLoop d ctx.version.tool_id ctx.version.id ctx.files =
      .ok ar.entries ∧
    ar.instructions_md = ctx.version.instructions_md := by
  rw [export_tool_version_zip] at h
  obtain ⟨manifest, hman, h⟩ := bind_ok' h
  obtain ⟨entries, hent, h⟩ := bind_ok' h
  have har : Archive.mk manifest ctx.version.instructions_md entries = ar := by
    simpa [pure, Except.pure] using h
  rw [build_manifest] at hman
  obtain ⟨mfs, hmfs, hman⟩ := bind_ok' hman
  have hman2 : ToolExportManifest.mk
      (ManifestTool.mk ctx.tool.name ctx.tool.slug ctx.tool.description
        ctx.tool.category ctx.tool.tags)
      (ManifestVersion.mk ctx.version.version ctx.version.changelog_md)
      mfs = manifest := by
    simpa [pure, Except.pure] using hman
  rw [← har, ← hman2]
  exact ⟨rfl, rfl, hmfs, hent, rfl⟩

/-- Running the manifest-driven import loop over well-formed manifest
entries backed by matching archive entries succeeds and reproduces the
names, bytes, and expected paths in order. -/
theorem importFilesLoop_run {entries : List (Str × Bytes)} :
    ∀ {mfs : List ManifestFile} {ens : List (Str × Bytes)} {seen : List Str}
      {total : Nat},
      List.Forall₂ (fun (mf : ManifestFile) (en : Str × Bytes) =>
        sanitize_filename mf.original_name = .ok mf.original_name ∧
        mf.relative_path = filesSeg ++ '/' :: mf.original_name ∧
        entries.find? (fun e =>
          decide (e.1 = filesSeg ++ '/' :: mf.original_name)) = some en ∧
        en.2.length = mf.size_bytes ∧
        0 < en.2.length ∧ en.2.length ≤ DEFAULT_MAX_FILE_SIZE_BYTES ∧
        lowerStr (sha256_hex en.2) = lowerStr (trimStr mf.sha256)) mfs ens →
      (mfs.map (fun mf => lowerStr mf.original_name)).Nodup →
      (∀ mf ∈ mfs, lowerStr mf.original_name ∉ seen) →
      total + (ens.map (fun en => en.2.length)).sum ≤
        DEFAULT_MAX_VERSION_SIZE_BYTES →
      importFilesLoop entries mfs seen total =
        .ok (List.zipWith (fun (mf : ManifestFile) (en : Str × Bytes) =>
              ImportFileBytes.mk mf.original_name none en.2) mfs ens,
            mfs.map (fun mf => mf.relative_path)) := by
  intro mfs
  induction mfs with
  | nil =>
    intro ens seen total hrel hnd hseen htot
    cases hrel
    rfl
  | cons mf rest ih =>
    intro ens seen total hrel hnd hseen htot
    rcases hrel with _ | ⟨⟨hfix, hpath, hfind, hsz, hpos, hmax, hsha⟩, hrest⟩
    rename_i en erest
    rw [importFilesLoop]
    rw [hpath, assert_safe_files_path hfix]
    simp only [Bind.bind, Except.bind]
    rw [if_neg (show ¬ ¬ (filesSeg ++ '/' :: mf.original_name).take 6 =
      "files/".toList from not_not_intro (files_path_take6 _))]
    rw [hfix]
    dsimp only
    rw [if_neg (hseen mf (List.mem_cons_self _ _))]
    rw [if_neg (show ¬ ¬ (filesSeg ++ '/' :: mf.original_name) =
      filesSeg ++ '/' :: mf.original_name from not_not_intro rfl)]
    rw [hfind]
    dsimp only [Option.map]
    rw [if_neg (not_not_intro hsz)]
    rw [if_neg (show ¬ (en.2.length = 0 ∨
      en.2.length > DEFAULT_MAX_FILE_SIZE_BYTES) by push_neg; omega)]
    rw [if_neg (show ¬ total + en.2.length > DEFAULT_MAX_VERSION_SIZE_BYTES by
      simp only [List.map_cons, List.sum_cons] at htot
      omega)]
    rw [if_neg (not_not_intro hsha)]
    rw [ih hrest
      (by
        rw [List.map_cons] at hnd
        exact (List.nodup_cons.mp hnd).2)
      (by
        intro g hg
        intro h2
        rcases List.mem_cons.mp h2 with hval | hval
        · rw [List.map_cons] at hnd
          exact (List.nodup_cons.mp hnd).1
            (hval ▸ List.mem_map.mpr ⟨g, hg, rfl⟩)
        · exact hseen g (List.mem_cons_of_mem _ hg) hval)
      (by
        simp only [List.map_cons, List.sum_cons] at htot
        omega)]
    dsimp only
    rw [← hpath]
    rfl

/-- `import_tool_zip` succeeds on a well-formed archive and returns the
manifest data verbatim together with the decoded files. -/
theorem import_tool_zip_ok {ar : Archive} {ens : List (Str × Bytes)}
    (hinstr : ¬ trimStr ar.instructions_md = [])
    (hnm : validate_required "tool.name".toList ar.manifest.tool.name 120 =
      .ok ar.manifest.tool.name)
    (hsl : validate_required "tool.slug".toList ar.manifest.tool.slug 120 =
      .ok ar.manifest.tool.slug)
    (hds : validate_required "tool.description".toList
      ar.manifest.tool.description 8000 = .ok ar.manifest.tool.description)
    (hct : validate_required "tool.category".toList ar.manifest.tool.category
      120 = .ok ar.manifest.tool.category)
    (hvl : validate_required "version.version".toList
      ar.manifest.version.version 80 = .ok ar.manifest.version.version)
    (hch : normalize_optional_text ar.manifest.version.changelog_md
      (512 * 1024) = .ok ar.manifest.version.changelog_md)
    (hrel : List.Forall₂ (fun (mf : ManifestFile) (en : Str × Bytes) =>
      sanitize_filename mf.original_name = .ok mf.original_name ∧
      mf.relative_path = filesSeg ++ '/' :: mf.original_name ∧
      ar.entries.find? (fun e =>
        decide (e.1 = filesSeg ++ '/' :: mf.original_name)) = some en ∧
      en.2.length = mf.size_bytes ∧
      0 < en.2.length ∧ en.2.length ≤ DEFAULT_MAX_FILE_SIZE_BYTES ∧
      lowerStr (sha256_hex en.2) = lowerStr (trimStr mf.sha256))
      ar.manifest.files ens)
    (hnd : (ar.manifest.files.map (fun mf => lowerStr mf.original_name)).Nodup)
    (htot : (ens.map (fun en => en.2.length)).sum ≤
      DEFAULT_MAX_VERSION_SIZE_BYTES)
    (hcover : ∀ e ∈ ar.entries,
      e.1 ∈ ar.manifest.files.map (fun mf => mf.relative_path)) :
    import_tool_zip ar = .ok (ParsedImportArchive.mk
      (ToolMetadataInput.mk ar.manifest.tool.name (some ar.manifest.tool.slug)
        ar.manifest.tool.description ar.manifest.tool.category
        ar.manifest.tool.tags)
      (VersionInsertInput.mk ar.manifest.version.version
        ar.manifest.version.changelog_md ar.instructions_md)
      (List.zipWith (fun (mf : ManifestFile) (en : Str × Bytes) =>
        ImportFileBytes.mk mf.original_name none en.2) ar.manifest.files ens)) := by
  rw [import_tool_zip]
  rw [if_neg hinstr]
  simp only [Bind.bind, Except.bind]
  rw [hnm, hsl, hds, hct, hvl, hch]
  rw [importFilesLoop_run hrel hnd (by simp) (by omega)]
  dsimp only
  have hwalk : ar.entries.find? (fun e =>
      !decide (e.1 ∈ ar.manifest.files.map (fun mf => mf.relative_path))) =
      none := by
    rw [List.find?_eq_none]
    intro e he
    simp [hcover e he]
  rw [hwalk]
  rfl

/-- `build_stored_rel_path` on validated segments and a sanitize-fixed
name. -/
theorem build_fixed {ntid nvid n : Str}
    (hta : ntid ≠ [])
    (htc : ∀ c ∈ ntid, isAsciiAlnum c = true ∨ c = '-' ∨ c = '_')
    (hva : nvid ≠ [])
    (hvc : ∀ c ∈ nvid, isAsciiAlnum c = true ∨ c = '-' ∨ c = '_')
    (hfix : sanitize_filename n = .ok n) :
    build_stored_rel_path ntid nvid n = .ok (toolsSeg ++ '/' ::
      (ntid ++ '/' :: (nvid ++ '/' :: (filesSeg ++ '/' :: n)))) := by
  rw [build_stored_rel_path]
  rw [validate_idem hta htc]
  simp only [Bind.bind, Except.bind]
  rw [validate_idem hva hvc]
  rw [hfix]
  simp only [pure, Except.pure, Except.ok.injEq]
  simp [List.append_assoc]

/-- Staging a batch of already-sanitized, case-distinct files round-trips
the base64 payloads and assigns the canonical stored paths. -/
theorem stage_import_run {ntid nvid : Str} {limits : FileLimits}
    (hta : ntid ≠ [])
    (htc : ∀ c ∈ ntid, isAsciiAlnum c = true ∨ c = '-' ∨ c = '_')
    (hva : nvid ≠ [])
    (hvc : ∀ c ∈ nvid, isAsciiAlnum c = true ∨ c = '-' ∨ c = '_') :
    ∀ {ifs : List ImportFileBytes} {used : List Str} {total : Nat},
      (∀ g ∈ ifs, sanitize_filename g.original_name = .ok g.original_name ∧
        (∀ x ∈ g.bytes, x < 256) ∧ 0 < g.bytes.length ∧
        g.bytes.length ≤ limits.max_file_size_bytes) →
      (ifs.map (fun g => lowerStr g.original_name)).Nodup →
      (∀ g ∈ ifs, lowerStr g.original_name ∉ used) →
      total + (ifs.map (fun g => g.bytes.length)).sum ≤
        limits.max_total_size_bytes →
      stageAux ntid nvid limits (to_inbound_files ifs) used total =
        .ok (ifs.map (fun g => StagedToolFile.mk g.original_name g.mime
          g.bytes g.bytes.length (sha256_hex g.bytes)
          (toolsSeg ++ '/' :: (ntid ++ '/' :: (nvid ++ '/' ::
            (filesSeg ++ '/' :: g.original_name)))))) := by
  intro ifs
  induction ifs with
  | nil =>
    intro used total hall hnd hseen htot
    rfl
  | cons g rest ih =>
    intro used total hall hnd hseen htot
    obtain ⟨hfix, hrange, hpos, hmaxf⟩ := hall g (List.mem_cons_self _ _)
    rw [to_inbound_files, List.map_cons]
    rw [stageAux]
    rw [unique_sanitized_filename]
    rw [hfix]
    simp only [Bind.bind, Except.bind]
    rw [if_neg (hseen g (List.mem_cons_self _ _))]
    simp only [pure, Except.pure]
    rw [trimStr_base64_encode, b64_roundtrip g.bytes hrange]
    simp only [Bind.bind, Except.bind, pure, Except.pure]
    rw [if_neg (by omega)]
    rw [if_neg (by omega)]
    rw [if_neg (show ¬ total + g.bytes.length > limits.max_total_size_bytes by
      simp only [List.map_cons, List.sum_cons] at htot
      omega)]
    rw [build_fixed hta htc hva hvc hfix]
    have hihx := @ih (lowerStr g.original_name :: used) (total + g.bytes.length)
      (fun r hr => hall r (List.mem_cons_of_mem _ hr))
      (by
        rw [List.map_cons] at hnd
        exact (List.nodup_cons.mp hnd).2)
      (fun r hr => by
        intro h2
        rcases List.mem_cons.mp h2 with hval | hval
        · rw [List.map_cons] at hnd
          refine (List.nodup_cons.mp hnd).1 ?_
          rw [← hval]
          exact List.mem_map.mpr ⟨r, hr, rfl⟩
        · exact hseen r (List.mem_cons_of_mem _ hr) hval)
      (by
        simp only [List.map_cons, List.sum_cons] at htot
        omega)
    rw [to_inbound_files] at hihx
    rw [hihx]
    rfl

theorem storedPath_inj {ntid nvid a b : Str}
    (h : toolsSeg ++ '/' :: (ntid ++ '/' :: (nvid ++ '/' ::
        (filesSeg ++ '/' :: a))) =
      toolsSeg ++ '/' :: (ntid ++ '/' :: (nvid ++ '/' ::
        (filesSeg ++ '/' :: b)))) : a = b := by
  have h1 := List.append_cancel_left h
  simp only [List.cons.injEq, true_and] at h1
  have h2 := List.append_cancel_left h1
  simp only [List.cons.injEq, true_and] at h2
  have h3 := List.append_cancel_left h2
  simp only [List.cons.injEq, true_and] at h3
  have h4 := List.append_cancel_left h3
  simpa using h4

theorem filesPath_inj {a b : Str}
    (h : filesSeg ++ '/' :: a = filesSeg ++ '/' :: b) : a = b := by
  have h1 := List.append_cancel_left h
  simpa using h1

theorem read_ok_mem {d : Disk} {rel : Str} {b : Bytes}
    (h : read_stored_file_bytes d rel = .ok b) : ∃ p, (p, b) ∈ d := by
  rw [read_stored_file_bytes] at h
  obtain ⟨p, -, h⟩ := bind_ok' h
  cases hl : diskLookup d p with
  | none =>
    rw [hl] at h
    exact absurd h (by simp)
  | some b2 =>
    rw [hl] at h
    obtain rfl : b2 = b := by simpa using h
    rw [diskLookup] at hl
    cases hf : d.find? (fun e => decide (e.1 = p)) with
    | none =>
      rw [hf] at hl
      cases hl
    | some e =>
      rw [hf] at hl
      obtain rfl : e.2 = b2 := by simpa using hl
      exact ⟨e.1, by
        have := List.mem_of_find?_eq_some hf
        simpa using this⟩

/-! ## Ingest atomicity (C1): disk rollback -/

theorem find?_filter_ne {d : Disk} {p q : Str} (h : ¬ q = p) :
    List.find? (fun e => decide (e.1 = q))
        (List.filter (fun e => !decide (e.1 = p)) d) =
      List.find? (fun e => decide (e.1 = q)) d := by
  induction d with
  | nil => rfl
  | cons e rest ih =>
    by_cases heq : e.1 = q
    · have hep : ¬ e.1 = p := by rw [heq]; exact h
      rw [List.filter_cons, if_pos (by simp [hep])]
      rw [List.find?_cons_of_pos _ (by simp [heq]),
        List.find?_cons_of_pos _ (by simp [heq])]
    · by_cases hep : e.1 = p
      · rw [List.filter_cons, if_neg (by simp [hep])]
        rw [ih, List.find?_cons_of_neg _ (by simp [heq])]
      · rw [List.filter_cons, if_pos (by simp [hep])]
        rw [List.find?_cons_of_neg _ (by simp [heq]),
          List.find?_cons_of_neg _ (by simp [heq]), ih]

theorem diskLookup_write_ne {d : Disk} {p q : Str} {b : Bytes} (h : ¬ q = p) :
    diskLookup (diskWrite d p b) q = diskLookup d q := by
  rw [diskLookup, diskLookup, diskWrite]
  rw [List.find?_cons_of_neg _ (by simp; intro h2; exact h h2.symm)]
  rw [find?_filter_ne h]

theorem diskLookup_erase_self (d : Disk) (p : Str) :
    diskLookup (diskErase d p) p = none := by
  rw [diskLookup, diskErase]
  have h2 : List.find? (fun e => decide (e.1 = p))
      (List.filter (fun e => !decide (e.1 = p)) d) = none := by
    induction d with
    | nil => rfl
    | cons e rest ih =>
      by_cases hep : e.1 = p
      · rw [List.filter_cons, if_neg (by simp [hep])]
        exact ih
      · rw [List.filter_cons, if_pos (by simp [hep])]
        rw [List.find?_cons_of_neg _ (by simp [hep])]
        exact ih
  rw [h2]
  rfl

theorem diskLookup_erase_ne {d : Disk} {p q : Str} (h : ¬ q = p) :
    diskLookup (diskErase d p) q = diskLookup d q := by
  rw [diskLookup, diskLookup, diskErase, find?_filter_ne h]

theorem foldl_erase_untouched {q : Str} : ∀ (paths : List Str) (d : Disk),
    q ∉ paths → diskLookup (paths.foldl diskErase d) q = diskLookup d q := by
  intro paths
  induction paths with
  | nil => intro d h; rfl
  | cons r rest ih =>
    intro d h
    have hqr : ¬ q = r := fun h2 => h (h2 ▸ List.mem_cons_self r rest)
    have hqrest : q ∉ rest := fun h2 => h (List.mem_cons_of_mem r h2)
    rw [List.foldl_cons, ih (diskErase d r) hqrest, diskLookup_erase_ne hqr]

theorem foldl_erase_removed {q : Str} : ∀ (paths : List Str) (d : Disk),
    q ∈ paths → diskLookup (paths.foldl diskErase d) q = none := by
  intro paths
  induction paths with
  | nil =>
    intro d h
    cases h
  | cons r rest ih =>
    intro d h
    rw [List.foldl_cons]
    by_cases hrest : q ∈ rest
    · exact ih (diskErase d r) hrest
    · have hqr : q = r := by
        rcases List.mem_cons.mp h with h2 | h2
        · exact h2
        · exact absurd h2 hrest
      rw [foldl_erase_untouched rest (diskErase d r) hrest, hqr]
      exact diskLookup_erase_self d r

/-- On a successful bulk write, paths outside the written list keep
their prior contents. -/
theorem write_staged_files_ok_inv : ∀ {staged : List StagedToolFile}
    {d d2 : Disk} {written : List Str},
    write_staged_files d staged = (d2, .ok written) →
    ∀ q, q ∉ written → diskLookup d2 q = diskLookup d q := by
  intro staged
  induction staged with
  | nil =>
    intro d d2 written h q hq
    rw [write_staged_files] at h
    have h2 : d = d2 := congrArg Prod.fst h
    rw [← h2]
  | cons f rest ih =>
    intro d d2 written h q hq
    rw [write_staged_files] at h
    cases hn : normalize_stored_rel_path f.stored_rel_path with
    | error e =>
      rw [hn] at h
      have h2 := congrArg Prod.snd h
      exact absurd h2 (by simp)
    | ok ap =>
      rw [hn] at h
      dsimp only at h
      cases hw : write_staged_files (diskWrite d ap f.bytes) rest with
      | mk dfin res =>
        rw [hw] at h
        cases res with
        | error e =>
          have h2 := congrArg Prod.snd h
          exact absurd h2 (by simp)
        | ok w2 =>
          have hd : dfin = d2 := congrArg Prod.fst h
          have hwr : ap :: w2 = written := by
            have h2 := congrArg Prod.snd h
            simpa using h2
          rw [← hwr] at hq
          have hq1 : ¬ q = ap := fun h3 => hq (h3 ▸ List.mem_cons_self ap w2)
          have hq2 : q ∉ w2 := fun h3 => hq (List.mem_cons_of_mem ap h3)
          rw [← hd, ih hw q hq2, diskLookup_write_ne hq1]

/-- C1. Ingest atomicity: when staging and the blob writes succeed but
the catalog commit fails, `tool_create` / `tool_add_version` return the
original catalog (the single transaction left no partial tool, tag,
version, or file rows) together with the rolled-back disk, on which
every path written during the call is absent and every other path holds
exactly its prior contents. -/
theorem ingest_atomicity_C1 :
    (∀ (st : AppState) (request : ToolCreateRequest)
        (tool_id version_id : Str) (now : Int) (fresh : Nat → Str)
        (staged : List StagedToolFile) (d : Disk) (written : List Str)
        (e : ToolsError),
      stage_inbound_files tool_id version_id request.files
        FileLimits.default = .ok staged →
      write_staged_files st.disk staged = (d, .ok written) →
      create_tool_with_version st.catalog tool_id version_id request.metadata
          (VersionInsertInput.mk (request.version.getD DEFAULT_INITIAL_VERSION)
            request.changelog_md request.instructions_md)
          (to_db_file_rows staged) now fresh = .error e →
      tool_create st request tool_id version_id now fresh =
        (AppState.mk st.catalog (remove_written_files d written), .error e) ∧
      (∀ p ∈ written,
        diskLookup (remove_written_files d written) p = none) ∧
      (∀ q, q ∉ written →
        diskLookup (remove_written_files d written) q = diskLookup st.disk q)) ∧
    (∀ (st : AppState) (request : ToolAddVersionRequest) (version_id : Str)
        (now : Int) (fresh : Nat → Str) (staged : List StagedToolFile)
        (d : Disk) (written : List Str) (e : ToolsError),
      ¬ trimStr request.tool_id = [] →
      stage_inbound_files (trimStr request.tool_id) version_id request.files
        FileLimits.default = .ok staged →
      write_staged_files st.disk staged = (d, .ok written) →
      add_version_with_files st.catalog (trimStr request.tool_id) version_id
          (VersionInsertInput.mk request.version request.changelog_md
            request.instructions_md)
          (to_db_file_rows staged) now fresh = .error e →
      tool_add_version st request version_id now fresh =
        (AppState.mk st.catalog (remove_written_files d written), .error e) ∧
      (∀ p ∈ written,
        diskLookup (remove_written_files d written) p = none) ∧
      (∀ q, q ∉ written →
        diskLookup (remove_written_files d written) q = diskLookup st.disk q)) := by
  constructor
  · intro st request tool_id version_id now fresh staged d written e
      hstage hwrite hdb
    refine ⟨?_, ?_, ?_⟩
    · simp only [tool_create, hstage, hwrite, hdb]
    · intro p hp
      rw [remove_written_files]
      exact foldl_erase_removed written d hp
    · intro q hq
      rw [remove_written_files, foldl_erase_untouched written d hq]
      exact write_staged_files_ok_inv hwrite q hq
  · intro st request version_id now fresh staged d written e
      htid hstage hwrite hdb
    refine ⟨?_, ?_, ?_⟩
    · simp only [tool_add_version, hstage, hwrite, hdb]
      rw [if_neg htid]
    · intro p hp
      rw [remove_written_files]
      exact foldl_erase_removed written d hp
    · intro q hq
      rw [remove_written_files, foldl_erase_untouched written d hq]
      exact write_staged_files_ok_inv hwrite q hq

theorem ingest_atomicity_C1_witness :
    tool_create (AppState.mk emptyCatalog [])
        (ToolCreateRequest.mk
          (ToolMetadataInput.mk [] none "d".toList "c".toList [])
          none none "inst".toList
          [InboundToolFile.mk "a.scr".toList none "YQ==".toList])
        "t1".toList "v1".toList 0 natDecimal =
      (AppState.mk emptyCatalog
        (remove_written_files [("tools/t1/v1/files/a.scr".toList, [97])]
          ["tools/t1/v1/files/a.scr".toList]),
       .error (.Validation "name is required.".toList)) ∧
    (∀ p ∈ ["tools/t1/v1/files/a.scr".toList],
      diskLookup (remove_written_files
        [("tools/t1/v1/files/a.scr".toList, [97])]
        ["tools/t1/v1/files/a.scr".toList]) p = none) ∧
    (∀ q, q ∉ ["tools/t1/v1/files/a.scr".toList] →
      diskLookup (remove_written_files
          [("tools/t1/v1/files/a.scr".toList, [97])]
          ["tools/t1/v1/files/a.scr".toList]) q =
        diskLookup (AppState.mk emptyCatalog []).disk q) :=
  ingest_atomicity_C1.1 (AppState.mk emptyCatalog [])
    (ToolCreateRequest.mk
      (ToolMetadataInput.mk [] none "d".toList "c".toList [])
      none none "inst".toList
      [InboundToolFile.mk "a.scr".toList none "YQ==".toList])
    "t1".toList "v1".toList 0 natDecimal _
    [("tools/t1/v1/files/a.scr".toList, [97])]
    ["tools/t1/v1/files/a.scr".toList]
    (.Validation "name is required.".toList) rfl rfl rfl

theorem diskLookup_write_self (d : Disk) (p : Str) (b : Bytes) :
    diskLookup (diskWrite d p b) p = some b := by
  rw [diskLookup, diskWrite, List.find?_cons_of_pos _ (by simp)]
  rfl

/-- A bulk write of self-normalizing, path-distinct staged files succeeds
and stores every payload at its path. -/
theorem write_staged_files_run : ∀ {staged : List StagedToolFile} {d : Disk},
    (∀ f ∈ staged,
      normalize_stored_rel_path f.stored_rel_path = .ok f.stored_rel_path) →
    (staged.map (fun f => f.stored_rel_path)).Nodup →
    ∃ d2, write_staged_files d staged =
        (d2, .ok (staged.map (fun f => f.stored_rel_path))) ∧
      ∀ f ∈ staged, diskLookup d2 f.stored_rel_path = some f.bytes := by
  intro staged
  induction staged with
  | nil =>
    intro d hnorm hnd
    exact ⟨d, rfl, by simp⟩
  | cons f rest ih =>
    intro d hnorm hnd
    obtain ⟨d2, hw, hlook⟩ := ih (d := diskWrite d f.stored_rel_path f.bytes)
      (fun r hr => hnorm r (List.mem_cons_of_mem _ hr))
      (by
        rw [List.map_cons] at hnd
        exact (List.nodup_cons.mp hnd).2)
    refine ⟨d2, ?_, ?_⟩
    · rw [write_staged_files, hnorm f (List.mem_cons_self _ _)]
      dsimp only
      rw [hw]
      rfl
    · intro r hr
      rcases List.mem_cons.mp hr with rfl | hr
      · have hnot : r.stored_rel_path ∉ rest.map (fun x => x.stored_rel_path) := by
          rw [List.map_cons] at hnd
          exact (List.nodup_cons.mp hnd).1
        rw [write_staged_files_ok_inv hw r.stored_rel_path hnot]
        exact diskLookup_write_self d r.stored_rel_path r.bytes
      · exact hlook r hr


theorem resolve_empty (req : Str) :
    resolve_unique_slug emptyCatalog req none = .ok (slugify req) := rfl

/-- `create_tool_with_version` on the empty catalog with already
normalized inputs: every stored field is the input itself. -/
theorem create_on_empty {tid vid : Str} {metadata : ToolMetadataInput}
    {version : VersionInsertInput} {files : List FileRecordInsert}
    {now : Int} {fresh : Nat → Str} {s : Str}
    (hnm : validate_required "name".toList metadata.name 120 = .ok metadata.name)
    (hds : validate_required "description".toList metadata.description 8000 =
      .ok metadata.description)
    (hct : validate_required "category".toList metadata.category 120 =
      .ok metadata.category)
    (htags : normalize_tags metadata.tags = .ok metadata.tags)
    (hslug : metadata.slug = some s)
    (hs1 : trimStr s = s) (hs2 : s ≠ []) (hs3 : slugify s = s)
    (hvl : validate_required "version".toList version.version 80 =
      .ok version.version)
    (hins : validate_required "instructions".toList version.instructions_md
      (512 * 1024) = .ok version.instructions_md)
    (hch : normalize_optional_text version.changelog_md (512 * 1024) =
      .ok version.changelog_md) :
    create_tool_with_version emptyCatalog tid vid metadata version files
        now fresh =
      .ok (Catalog.mk
        [ToolRow.mk tid metadata.name s metadata.description metadata.category
          now now]
        (metadata.tags.map (fun t => (tid, t)))
        [VersionRow.mk vid tid version.version version.changelog_md
          version.instructions_md now]
        (insert_files vid files now fresh), tid, vid) := by
  rw [create_tool_with_version]
  rw [hnm]
  simp only [Bind.bind, Except.bind]
  rw [hds, hct, htags]
  rw [hslug]
  dsimp only
  rw [hs1, if_neg hs2]
  rw [resolve_empty, hs3]
  rw [hvl, hins, hch]
  rfl

theorem forall2_zipWith {α β γ δ : Type} {A : α → β → Prop} {B : α → γ → Prop}
    {C : α → δ → Prop} {g : β → γ → δ}
    (h : ∀ a b c, A a b → B a c → C a (g b c)) :
    ∀ {la : List α} {lb : List β} {lc : List γ},
      List.Forall₂ A la lb → List.Forall₂ B la lc →
      List.Forall₂ C la (List.zipWith g lb lc) := by
  intro la
  induction la with
  | nil =>
    intro lb lc h1 h2
    cases h1
    cases h2
    exact List.Forall₂.nil
  | cons a as ih =>
    intro lb lc h1 h2
    rcases h1 with _ | ⟨hab, h1⟩
    rcases h2 with _ | ⟨hac, h2⟩
    exact List.Forall₂.cons (h a _ _ hab hac) (ih h1 h2)

theorem forall2_map_right {α β γ : Type} {A : α → β → Prop} {B : α → γ → Prop}
    {g : β → γ} (h : ∀ a b, A a b → B a (g b)) :
    ∀ {la : List α} {lb : List β},
      List.Forall₂ A la lb → List.Forall₂ B la (lb.map g) := by
  intro la
  induction la with
  | nil =>
    intro lb h1
    cases h1
    exact List.Forall₂.nil
  | cons a as ih =>
    intro lb h1
    rcases h1 with _ | ⟨hab, h1⟩
    exact List.Forall₂.cons (h a _ hab) (ih h1)

theorem forall2_pair {α β γ : Type} {A : α → β → Prop} {B : α → γ → Prop}
    {C : β → γ → Prop} :
    ∀ {la : List α} {lb : List β} {lc : List γ},
      List.Forall₂ A la lb → List.Forall₂ B la lc →
      (∀ a b c, b ∈ lb → c ∈ lc → A a b → B a c → C b c) →
      List.Forall₂ C lb lc := by
  intro la
  induction la with
  | nil =>
    intro lb lc h1 h2 h
    cases h1
    cases h2
    exact List.Forall₂.nil
  | cons a as ih =>
    intro lb lc h1 h2 h
    rcases h1 with _ | ⟨hab, h1⟩
    rcases h2 with _ | ⟨hac, h2⟩
    refine List.Forall₂.cons
      (h a _ _ (List.mem_cons_self _ _) (List.mem_cons_self _ _) hab hac) ?_
    exact ih h1 h2 (fun a2 b2 c2 hb2 hc2 => h a2 b2 c2
      (List.mem_cons_of_mem _ hb2) (List.mem_cons_of_mem _ hc2))

theorem forall2_map_fst {α β γ : Type} {A : α → β → Prop} {g : α → γ} {k : β → γ}
    (h : ∀ a b, A a b → k b = g a) :
    ∀ {la : List α} {lb : List β},
      List.Forall₂ A la lb → lb.map k = la.map g := by
  intro la
  induction la with
  | nil =>
    intro lb h1
    cases h1
    rfl
  | cons a as ih =>
    intro lb h1
    rcases h1 with _ | ⟨hab, h1⟩
    simp only [List.map_cons]
    rw [h a _ hab, ih h1]

theorem forall2_sum_eq {α β : Type} {A : α → β → Prop} {g : α → Nat}
    {k : β → Nat} (h : ∀ a b, A a b → k b = g a) :
    ∀ {la : List α} {lb : List β},
      List.Forall₂ A la lb → (lb.map k).sum = (la.map g).sum := by
  intro la lb h1
  rw [forall2_map_fst h h1]

theorem insert_files_cons {vid : Str} {r : FileRecordInsert}
    {rs : List FileRecordInsert} {now : Int} {fresh : Nat → Str} :
    insert_files vid (r :: rs) now fresh =
      FileRow.mk (fresh 0) vid r.original_name r.stored_rel_path r.sha256
        r.size_bytes r.mime now ::
      insert_files vid rs now (fun i => fresh (i + 1)) := by
  rw [insert_files, insert_files]
  simp only [List.length_cons, List.range_succ_eq_map, List.zip_cons_cons,
    List.map_cons, List.cons.injEq]
  refine ⟨trivial, ?_⟩
  rw [List.zip_map_left, List.map_map]
  rfl

theorem insert_files_forall2 {α : Type} {S : α → FileRow → Prop} {vid : Str}
    {now : Int} :
    ∀ {l : List α} {rows : List FileRecordInsert} {fresh : Nat → Str},
      List.Forall₂ (fun a (r : FileRecordInsert) => ∀ idv : Str,
        S a (FileRow.mk idv vid r.original_name r.stored_rel_path r.sha256
          r.size_bytes r.mime now)) l rows →
      List.Forall₂ S l (insert_files vid rows now fresh) := by
  intro l
  induction l with
  | nil =>
    intro rows fresh h
    cases h
    exact List.Forall₂.nil
  | cons a as ih =>
    intro rows fresh h
    rcases h with _ | ⟨har, h⟩
    rw [insert_files_cons]
    exact List.Forall₂.cons (har (fresh 0)) (ih h)

theorem forall2_imp_mem {α β : Type} {A B : α → β → Prop} :
    ∀ {l : List α} {m : List β}, List.Forall₂ A l m →
      (∀ a b, a ∈ l → b ∈ m → A a b → B a b) → List.Forall₂ B l m := by
  intro l
  induction l with
  | nil =>
    intro m h1 h
    cases h1
    exact List.Forall₂.nil
  | cons a as ih =>
    intro m h1 h
    rcases h1 with _ | ⟨hab, h1⟩
    refine List.Forall₂.cons
      (h a _ (List.mem_cons_self _ _) (List.mem_cons_self _ _) hab) ?_
    exact ih h1 (fun a2 b2 ha2 hb2 =>
      h a2 b2 (List.mem_cons_of_mem _ ha2) (List.mem_cons_of_mem _ hb2))

theorem forall2_forall_right {α β : Type} {A : α → β → Prop} :
    ∀ {l : List α} {m : List β}, List.Forall₂ A l m →
      ∀ b ∈ m, ∃ a ∈ l, A a b := by
  intro l
  induction l with
  | nil =>
    intro m h1 b hb
    cases h1
    cases hb
  | cons a as ih =>
    intro m h1 b hb
    rcases h1 with _ | ⟨hab, h1⟩
    rcases List.mem_cons.mp hb with rfl | hb
    · exact ⟨a, List.mem_cons_self _ _, hab⟩
    · obtain ⟨a2, ha2, h2⟩ := ih h1 b hb
      exact ⟨a2, List.mem_cons_of_mem _ ha2, h2⟩

theorem forall2_ne_nil {α β : Type} {A : α → β → Prop} {l : List α}
    {m : List β} (h : List.Forall₂ A l m) (hne : l ≠ []) : m ≠ [] := by
  cases h with
  | nil => exact absurd rfl hne
  | cons h1 h2 => simp

theorem fetch_tags_single {tools : List ToolRow} {vs : List VersionRow}
    {fs : List FileRow} {ntid : Str} {tags : List Str}
    (hsorted : List.Pairwise (fun a b => lowerLe a b = true) tags) :
    fetch_tags (Catalog.mk tools (tags.map (fun t => (ntid, t))) vs fs)
      ntid = tags := by
  rw [fetch_tags]
  have hfil : (tags.map (fun t => (ntid, t))).filter
      (fun p => decide (p.1 = ntid)) = tags.map (fun t => (ntid, t)) := by
    rw [List.filter_eq_self]
    intro p hp
    obtain ⟨t, -, rfl⟩ := List.mem_map.mp hp
    simp
  rw [hfil, List.map_map]
  have hmap : (tags.map ((fun p : Str × Str => p.2) ∘ (fun t => (ntid, t)))) =
      tags := by
    simp
  rw [hmap]
  exact stableSort_sorted_fixed hsorted

/-- The import stage of the round trip: importing the archive exported
from a well-formed version reproduces the tool metadata, version data,
and decoded file payloads verbatim. -/
theorem import_after_export {d : Disk} {ctx : ExportVersionContext}
    {ar : Archive}
    (hex : export_tool_version_zip d ctx = .ok ar)
    (hnm3 : trimStr ctx.tool.name = ctx.tool.name ∧ ctx.tool.name ≠ [] ∧
      utf8Len ctx.tool.name ≤ 120)
    (hsl3 : trimStr ctx.tool.slug = ctx.tool.slug ∧ ctx.tool.slug ≠ [] ∧
      utf8Len ctx.tool.slug ≤ 120)
    (hds3 : trimStr ctx.tool.description = ctx.tool.description ∧
      ctx.tool.description ≠ [] ∧ utf8Len ctx.tool.description ≤ 8000)
    (hct3 : trimStr ctx.tool.category = ctx.tool.category ∧
      ctx.tool.category ≠ [] ∧ utf8Len ctx.tool.category ≤ 120)
    (hvl3 : trimStr ctx.version.version = ctx.version.version ∧
      ctx.version.version ≠ [] ∧ utf8Len ctx.version.version ≤ 80)
    (hins3 : trimStr ctx.version.instructions_md = ctx.version.instructions_md ∧
      ctx.version.instructions_md ≠ [] ∧
      utf8Len ctx.version.instructions_md ≤ 512 * 1024)
    (hch3 : ctx.version.changelog_md = none ∨ ∃ c,
      ctx.version.changelog_md = some c ∧ trimStr c = c ∧ c ≠ [] ∧
      utf8Len c ≤ 512 * 1024)
    (hfm : ∀ f ∈ ctx.files,
      sanitize_filename f.original_name = .ok f.original_name ∧
      trimStr f.sha256 = f.sha256 ∧ lowerStr f.sha256 = f.sha256 ∧
      0 < f.size_bytes ∧ f.size_bytes ≤ (DEFAULT_MAX_FILE_SIZE_BYTES : Int))
    (htotF : (ctx.files.map (fun f => (max f.size_bytes 0).toNat)).sum ≤
      DEFAULT_MAX_VERSION_SIZE_BYTES) :
    ∃ pf, import_tool_zip ar = .ok (ParsedImportArchive.mk
        (ToolMetadataInput.mk ctx.tool.name (some ctx.tool.slug)
          ctx.tool.description ctx.tool.category ctx.tool.tags)
        (VersionInsertInput.mk ctx.version.version ctx.version.changelog_md
          ctx.version.instructions_md)
        pf) ∧
      List.Forall₂ (fun (f : FileRow) (g : ImportFileBytes) =>
        g.original_name = f.original_name ∧ g.mime = none ∧
        read_stored_file_bytes d f.stored_rel_path = .ok g.bytes ∧
        g.bytes.length = (max f.size_bytes 0).toNat ∧
        sha256_hex g.bytes = f.sha256) ctx.files pf ∧
      (ctx.files.map (fun f => lowerStr f.original_name)).Nodup := by
  obtain ⟨htool, hver, hbm, hel, hinstr_eq⟩ := export_ok_inv hex
  have hmn : ar.manifest.tool.name = ctx.tool.name := by rw [htool]
  have hmsl : ar.manifest.tool.slug = ctx.tool.slug := by rw [htool]
  have hmds : ar.manifest.tool.description = ctx.tool.description := by rw [htool]
  have hmct : ar.manifest.tool.category = ctx.tool.category := by rw [htool]
  have hmtg : ar.manifest.tool.tags = ctx.tool.tags := by rw [htool]
  have hmv : ar.manifest.version.version = ctx.version.version := by rw [hver]
  have hmc : ar.manifest.version.changelog_md = ctx.version.changelog_md := by
    rw [hver]
  obtain ⟨Fbm0, hndL, -⟩ := buildManifestFiles_inv hbm
  have Fel0 := exportFilesLoop_inv hel
  have Fbm : List.Forall₂ (fun (f : FileRow) (mf : ManifestFile) =>
      mf.original_name = f.original_name ∧ mf.sha256 = f.sha256 ∧
      trimStr mf.sha256 = mf.sha256 ∧ lowerStr mf.sha256 = mf.sha256 ∧
      mf.size_bytes = (max f.size_bytes 0).toNat ∧
      mf.relative_path = filesSeg ++ '/' :: f.original_name ∧
      sanitize_filename mf.original_name = .ok mf.original_name)
      ctx.files ar.manifest.files := by
    refine forall2_imp_mem Fbm0 ?_
    intro f mf hf hmf hA
    obtain ⟨hsan, hsha, hsz, hrel⟩ := hA
    obtain ⟨hsanF, htrF, hlowF, -, -⟩ := hfm f hf
    have hname : mf.original_name = f.original_name := by
      rw [hsanF] at hsan
      exact (Except.ok.inj hsan).symm
    refine ⟨hname, hsha, by rw [hsha, htrF], by rw [hsha, hlowF], hsz,
      by rw [hrel, hname], ?_⟩
    rw [hname]
    exact hsanF
  have Fel : List.Forall₂ (fun (f : FileRow) (en : Str × Bytes) =>
      en.1 = filesSeg ++ '/' :: f.original_name ∧
      read_stored_file_bytes d f.stored_rel_path = .ok en.2 ∧
      en.2.length = (max f.size_bytes 0).toNat ∧
      0 < en.2.length ∧ en.2.length ≤ DEFAULT_MAX_FILE_SIZE_BYTES ∧
      sha256_hex en.2 = f.sha256) ctx.files ar.entries := by
    refine forall2_imp_mem Fel0 ?_
    intro f en hf hen hA
    obtain ⟨n, hsan, hpath, hread, hlen, hsha⟩ := hA
    obtain ⟨hsanF, htrF, hlowF, hposF, hmaxF⟩ := hfm f hf
    have hname : n = f.original_name := by
      rw [hsanF] at hsan
      exact (Except.ok.inj hsan).symm
    refine ⟨by rw [hpath, hname], hread, hlen, by omega, by omega, ?_⟩
    rw [htrF, hlowF, lowerStr_sha256_hex] at hsha
    exact hsha
  have hmapRel : ar.manifest.files.map (fun mf => mf.relative_path) =
      ctx.files.map (fun f => filesSeg ++ '/' :: f.original_name) :=
    forall2_map_fst (fun f mf h => h.2.2.2.2.2.1) Fbm
  have hkeys : ar.entries.map Prod.fst =
      ctx.files.map (fun f => filesSeg ++ '/' :: f.original_name) :=
    forall2_map_fst (fun f en h => h.1) Fel
  have hmapName : ar.manifest.files.map (fun mf => lowerStr mf.original_name) =
      ctx.files.map (fun f => lowerStr f.original_name) :=
    forall2_map_fst (fun f mf h => by rw [h.1]) Fbm
  have hnamesN : (ctx.files.map (fun f => f.original_name)).Nodup := by
    rw [hmapName] at hndL
    have h2 : ctx.files.map (fun f => lowerStr f.original_name) =
        (ctx.files.map (fun f => f.original_name)).map lowerStr := by
      rw [List.map_map]
      rfl
    rw [h2] at hndL
    exact hndL.of_map
  have hkeysN : (ar.entries.map Prod.fst).Nodup := by
    rw [hkeys]
    have h2 : ctx.files.map (fun f => filesSeg ++ '/' :: f.original_name) =
        (ctx.files.map (fun f => f.original_name)).map
          (fun n => filesSeg ++ '/' :: n) := by
      rw [List.map_map]
      rfl
    rw [h2]
    exact hnamesN.map (fun a b h => filesPath_inj h)
  have Fimp : List.Forall₂ (fun (mf : ManifestFile) (en : Str × Bytes) =>
      sanitize_filename mf.original_name = .ok mf.original_name ∧
      mf.relative_path = filesSeg ++ '/' :: mf.original_name ∧
      ar.entries.find? (fun e =>
        decide (e.1 = filesSeg ++ '/' :: mf.original_name)) = some en ∧
      en.2.length = mf.size_bytes ∧
      0 < en.2.length ∧ en.2.length ≤ DEFAULT_MAX_FILE_SIZE_BYTES ∧
      lowerStr (sha256_hex en.2) = lowerStr (trimStr mf.sha256))
      ar.manifest.files ar.entries := by
    refine forall2_pair Fbm Fel ?_
    intro f mf en hmf hen hA hB
    obtain ⟨hname, hsha, htrS, hlowS, hsz, hrel, hfix⟩ := hA
    obtain ⟨hpath, hread, hlen, hpos, hmaxB, hshaB⟩ := hB
    refine ⟨hfix, by rw [hrel, hname], ?_, by omega, hpos, hmaxB, ?_⟩
    · have hen2 : ((filesSeg ++ '/' :: mf.original_name, en.2) :
          Str × Bytes) = en := by
        have h3 : en = (en.1, en.2) := rfl
        rw [h3, hpath, hname]
      rw [← hen2] at hen
      have h4 := find?_key hen hkeysN
      rw [hen2] at h4
      exact h4
    · rw [htrS, hlowS, lowerStr_sha256_hex, hshaB, hsha]
  have himp := import_tool_zip_ok
    (by
      rw [hinstr_eq, hins3.1]
      exact hins3.2.1)
    (by
      rw [hmn]
      exact validate_required_fixed hnm3.1 hnm3.2.1 hnm3.2.2)
    (by
      rw [hmsl]
      exact validate_required_fixed hsl3.1 hsl3.2.1 hsl3.2.2)
    (by
      rw [hmds]
      exact validate_required_fixed hds3.1 hds3.2.1 hds3.2.2)
    (by
      rw [hmct]
      exact validate_required_fixed hct3.1 hct3.2.1 hct3.2.2)
    (by
      rw [hmv]
      exact validate_required_fixed hvl3.1 hvl3.2.1 hvl3.2.2)
    (by
      rw [hmc]
      exact normalize_optional_fixed hch3)
    Fimp hndL
    (by
      rw [forall2_sum_eq (fun f en h => h.2.2.1) Fel]
      exact htotF)
    (by
      intro e he
      have h1 : e.1 ∈ ar.entries.map Prod.fst :=
        List.mem_map.mpr ⟨e, he, rfl⟩
      rw [hkeys] at h1
      rw [hmapRel]
      exact h1)
  rw [hmn, hmsl, hmds, hmct, hmtg, hmv, hmc, hinstr_eq] at himp
  refine ⟨_, himp, ?_, by rw [← hmapName]; exact hndL⟩
  refine forall2_zipWith ?_ Fbm Fel
  intro f mf en hA hB
  exact ⟨hA.1, rfl, hB.2.1, hB.2.2.1, hB.2.2.2.2.2⟩

/-- The ingest stage of the round trip: importing the parsed archive of
a well-formed version into the empty catalog and empty store creates a
tool/version with identical fields, tags, version data, file records,
and blob bytes. -/
theorem import_parsed_on_empty {d : Disk} {ctx : ExportVersionContext}
    {pf : List ImportFileBytes} {ntid nvid : Str} {now : Int}
    {fresh : Nat → Str}
    (hne : ctx.files ≠ [])
    (hnm3 : trimStr ctx.tool.name = ctx.tool.name ∧ ctx.tool.name ≠ [] ∧
      utf8Len ctx.tool.name ≤ 120)
    (hsl3 : trimStr ctx.tool.slug = ctx.tool.slug ∧ ctx.tool.slug ≠ [] ∧
      slugify ctx.tool.slug = ctx.tool.slug)
    (hds3 : trimStr ctx.tool.description = ctx.tool.description ∧
      ctx.tool.description ≠ [] ∧ utf8Len ctx.tool.description ≤ 8000)
    (hct3 : trimStr ctx.tool.category = ctx.tool.category ∧
      ctx.tool.category ≠ [] ∧ utf8Len ctx.tool.category ≤ 120)
    (htag3 : (∀ t ∈ ctx.tool.tags, trimStr t = t ∧ t ≠ [] ∧ utf8Len t ≤ 48) ∧
      List.Pairwise (fun a b => ¬ lowerStr a = lowerStr b) ctx.tool.tags ∧
      List.Pairwise (fun a b => lowerLe a b = true) ctx.tool.tags)
    (hvl3 : trimStr ctx.version.version = ctx.version.version ∧
      ctx.version.version ≠ [] ∧ utf8Len ctx.version.version ≤ 80)
    (hins3 : trimStr ctx.version.instructions_md = ctx.version.instructions_md ∧
      ctx.version.instructions_md ≠ [] ∧
      utf8Len ctx.version.instructions_md ≤ 512 * 1024)
    (hch3 : ctx.version.changelog_md = none ∨ ∃ c,
      ctx.version.changelog_md = some c ∧ trimStr c = c ∧ c ≠ [] ∧
      utf8Len c ≤ 512 * 1024)
    (hfm : ∀ f ∈ ctx.files,
      sanitize_filename f.original_name = .ok f.original_name ∧
      trimStr f.sha256 = f.sha256 ∧ lowerStr f.sha256 = f.sha256 ∧
      0 < f.size_bytes ∧ f.size_bytes ≤ (DEFAULT_MAX_FILE_SIZE_BYTES : Int))
    (htotF : (ctx.files.map (fun f => (max f.size_bytes 0).toNat)).sum ≤
      DEFAULT_MAX_VERSION_SIZE_BYTES)
    (hdiskB : ∀ e ∈ d, ∀ x ∈ e.2, x < 256)
    (hta : ntid ≠ [])
    (htc : ∀ c ∈ ntid, isAsciiAlnum c = true ∨ c = '-' ∨ c = '_')
    (hva : nvid ≠ [])
    (hvc : ∀ c ∈ nvid, isAsciiAlnum c = true ∨ c = '-' ∨ c = '_')
    (Fpf : List.Forall₂ (fun (f : FileRow) (g : ImportFileBytes) =>
      g.original_name = f.original_name ∧ g.mime = none ∧
      read_stored_file_bytes d f.stored_rel_path = .ok g.bytes ∧
      g.bytes.length = (max f.size_bytes 0).toNat ∧
      sha256_hex g.bytes = f.sha256) ctx.files pf)
    (hlowN : (ctx.files.map (fun f => lowerStr f.original_name)).Nodup) :
    ∃ st2 : AppState,
      import_parsed_archive (AppState.mk emptyCatalog [])
        (ParsedImportArchive.mk
          (ToolMetadataInput.mk ctx.tool.name (some ctx.tool.slug)
            ctx.tool.description ctx.tool.category ctx.tool.tags)
          (VersionInsertInput.mk ctx.version.version ctx.version.changelog_md
            ctx.version.instructions_md)
          pf) ntid nvid now fresh = (st2, .ok (ntid, nvid, true)) ∧
      st2.catalog.tools = [ToolRow.mk ntid ctx.tool.name ctx.tool.slug
        ctx.tool.description ctx.tool.category now now] ∧
      fetch_tags st2.catalog ntid = ctx.tool.tags ∧
      st2.catalog.versions = [VersionRow.mk nvid ntid ctx.version.version
        ctx.version.changelog_md ctx.version.instructions_md now] ∧
      List.Forall₂ (fun (f g : FileRow) =>
        g.original_name = f.original_name ∧ g.sha256 = f.sha256 ∧
        g.size_bytes = f.size_bytes ∧ g.tool_version_id = nvid ∧
        ∃ b, diskLookup st2.disk g.stored_rel_path = some b ∧
          read_stored_file_bytes d f.stored_rel_path = .ok b)
        ctx.files st2.catalog.files := by
  -- enrich the parsed-file relation with the per-row payload facts
  have Fpf2 : List.Forall₂ (fun (f : FileRow) (g : ImportFileBytes) =>
      g.original_name = f.original_name ∧ g.mime = none ∧
      read_stored_file_bytes d f.stored_rel_path = .ok g.bytes ∧
      g.bytes.length = (max f.size_bytes 0).toNat ∧
      sha256_hex g.bytes = f.sha256 ∧
      sanitize_filename g.original_name = .ok g.original_name ∧
      (∀ x ∈ g.bytes, x < 256) ∧ 0 < g.bytes.length ∧
      g.bytes.length ≤ DEFAULT_MAX_FILE_SIZE_BYTES ∧
      Int.ofNat g.bytes.length = f.size_bytes) ctx.files pf := by
    refine forall2_imp_mem Fpf ?_
    intro f g hf hg hA
    obtain ⟨hname, hmime, hread, hlen, hsha⟩ := hA
    obtain ⟨hsanF, -, -, hposF, hmaxF⟩ := hfm f hf
    obtain ⟨p, hpmem⟩ := read_ok_mem hread
    have h5 : Int.ofNat ((max f.size_bytes 0).toNat) = f.size_bytes := by
      rw [show max f.size_bytes 0 = f.size_bytes from max_eq_left (by omega)]
      exact Int.toNat_of_nonneg (by omega)
    refine ⟨hname, hmime, hread, hlen, hsha, by rw [hname]; exact hsanF,
      fun x hx => hdiskB (p, g.bytes) hpmem x hx, by omega, by omega,
      by rw [hlen]; exact h5⟩
  have hmapLow : pf.map (fun g => lowerStr g.original_name) =
      ctx.files.map (fun f => lowerStr f.original_name) :=
    forall2_map_fst (fun f g h => by rw [h.1]) Fpf2
  have hpfN : (pf.map (fun g => lowerStr g.original_name)).Nodup := by
    rw [hmapLow]
    exact hlowN
  have hsum : (pf.map (fun g => g.bytes.length)).sum =
      (ctx.files.map (fun f => (max f.size_bytes 0).toNat)).sum :=
    forall2_sum_eq (fun f g h => h.2.2.2.1) Fpf2
  have hstage := @stage_import_run ntid nvid FileLimits.default hta htc hva hvc
    pf [] 0
    (fun g hg => by
      obtain ⟨f, hf, hA⟩ := forall2_forall_right Fpf2 g hg
      exact ⟨hA.2.2.2.2.2.1, hA.2.2.2.2.2.2.1, hA.2.2.2.2.2.2.2.1,
        hA.2.2.2.2.2.2.2.2.1⟩)
    hpfN
    (fun g hg => List.not_mem_nil _)
    (by
      show 0 + (pf.map (fun g => g.bytes.length)).sum ≤
        DEFAULT_MAX_VERSION_SIZE_BYTES
      rw [hsum]
      omega)
  have hpfne : pf ≠ [] := forall2_ne_nil Fpf hne
  have hstageFull : stage_inbound_files ntid nvid (to_inbound_files pf)
      FileLimits.default = .ok (pf.map (fun g => StagedToolFile.mk
        g.original_name g.mime g.bytes g.bytes.length (sha256_hex g.bytes)
        (toolsSeg ++ '/' :: (ntid ++ '/' :: (nvid ++ '/' ::
          (filesSeg ++ '/' :: g.original_name)))))) := by
    rw [stage_inbound_files]
    rw [validate_idem hta htc]
    simp only [Bind.bind, Except.bind]
    rw [validate_idem hva hvc]
    simp only [Bind.bind, Except.bind]
    rw [if_neg (show ¬ to_inbound_files pf = [] by
      rw [to_inbound_files]
      simp [hpfne])]
    exact hstage
  set staged := pf.map (fun g => StagedToolFile.mk
    g.original_name g.mime g.bytes g.bytes.length (sha256_hex g.bytes)
    (toolsSeg ++ '/' :: (ntid ++ '/' :: (nvid ++ '/' ::
      (filesSeg ++ '/' :: g.original_name))))) with hstagedDef
  have Fst : List.Forall₂ (fun (f : FileRow) (s : StagedToolFile) =>
      s.original_name = f.original_name ∧
      s.stored_rel_path = toolsSeg ++ '/' :: (ntid ++ '/' :: (nvid ++ '/' ::
        (filesSeg ++ '/' :: f.original_name))) ∧
      read_stored_file_bytes d f.stored_rel_path = .ok s.bytes ∧
      s.sha256 = f.sha256 ∧ Int.ofNat s.size_bytes = f.size_bytes ∧
      sanitize_filename s.original_name = .ok s.original_name)
      ctx.files staged := by
    refine forall2_map_right ?_ Fpf2
    intro f g hA
    refine ⟨hA.1, by rw [hA.1], hA.2.2.1, ?_, ?_, hA.2.2.2.2.2.1⟩
    · show sha256_hex g.bytes = f.sha256
      exact hA.2.2.2.2.1
    · show Int.ofNat g.bytes.length = f.size_bytes
      exact hA.2.2.2.2.2.2.2.2.2
  have hnormS : ∀ s ∈ staged,
      normalize_stored_rel_path s.stored_rel_path = .ok s.stored_rel_path := by
    intro s hs
    obtain ⟨f, hf, hA⟩ := forall2_forall_right Fst s hs
    rw [hA.2.1, ← hA.1]
    exact normalize_built hta htc hva hvc (hA.1 ▸ hA.2.2.2.2.2)
  have hpathsEq : staged.map (fun s => s.stored_rel_path) =
      (ctx.files.map (fun f => f.original_name)).map
        (fun n => toolsSeg ++ '/' :: (ntid ++ '/' :: (nvid ++ '/' ::
          (filesSeg ++ '/' :: n)))) := by
    have h1 : staged.map (fun s => s.stored_rel_path) =
        ctx.files.map (fun f => toolsSeg ++ '/' :: (ntid ++ '/' :: (nvid ++
          '/' :: (filesSeg ++ '/' :: f.original_name)))) := by
      refine forall2_map_fst ?_ Fst
      intro f s h
      exact h.2.1
    rw [h1, List.map_map]
    rfl
  have hnamesN : (ctx.files.map (fun f => f.original_name)).Nodup := by
    have h2 : ctx.files.map (fun f => lowerStr f.original_name) =
        (ctx.files.map (fun f => f.original_name)).map lowerStr := by
      rw [List.map_map]
      rfl
    rw [h2] at hlowN
    exact hlowN.of_map
  have hpathsN : (staged.map (fun s => s.stored_rel_path)).Nodup := by
    rw [hpathsEq]
    exact hnamesN.map (fun a b h => storedPath_inj h)
  obtain ⟨d2, hwrite, hlook⟩ := write_staged_files_run hnormS hpathsN
  have hcreate := @create_on_empty ntid nvid
    (ToolMetadataInput.mk ctx.tool.name (some ctx.tool.slug)
      ctx.tool.description ctx.tool.category ctx.tool.tags)
    (VersionInsertInput.mk ctx.version.version
      ctx.version.changelog_md ctx.version.instructions_md)
    (to_db_file_rows staged) now fresh ctx.tool.slug
    (validate_required_fixed hnm3.1 hnm3.2.1 hnm3.2.2)
    (validate_required_fixed hds3.1 hds3.2.1 hds3.2.2)
    (validate_required_fixed hct3.1 hct3.2.1 hct3.2.2)
    (normalize_tags_fixed htag3.1 htag3.2.1 htag3.2.2)
    rfl hsl3.1 hsl3.2.1 hsl3.2.2
    (validate_required_fixed hvl3.1 hvl3.2.1 hvl3.2.2)
    (validate_required_fixed hins3.1 hins3.2.1 hins3.2.2)
    (normalize_optional_fixed hch3)
  refine ⟨AppState.mk (Catalog.mk
      [ToolRow.mk ntid ctx.tool.name ctx.tool.slug ctx.tool.description
        ctx.tool.category now now]
      (ctx.tool.tags.map (fun t => (ntid, t)))
      [VersionRow.mk nvid ntid ctx.version.version ctx.version.changelog_md
        ctx.version.instructions_md now]
      (insert_files nvid (to_db_file_rows staged) now fresh)) d2,
    ?_, rfl, ?_, rfl, ?_⟩
  · rw [import_parsed_archive]
    dsimp only
    rw [show find_tool_id_by_slug emptyCatalog ctx.tool.slug = none from rfl]
    rw [hstageFull]
    dsimp only
    rw [hwrite]
    rw [hcreate]
  · exact fetch_tags_single htag3.2.2
  · show List.Forall₂ _ ctx.files (insert_files nvid (to_db_file_rows staged)
      now fresh)
    refine insert_files_forall2 ?_
    have Fst2 : List.Forall₂ (fun (f : FileRow) (s : StagedToolFile) =>
        (s.original_name = f.original_name ∧
        s.stored_rel_path = toolsSeg ++ '/' :: (ntid ++ '/' :: (nvid ++ '/' ::
          (filesSeg ++ '/' :: f.original_name))) ∧
        read_stored_file_bytes d f.stored_rel_path = .ok s.bytes ∧
        s.sha256 = f.sha256 ∧ Int.ofNat s.size_bytes = f.size_bytes ∧
        sanitize_filename s.original_name = .ok s.original_name) ∧
        diskLookup d2 s.stored_rel_path = some s.bytes)
        ctx.files staged := by
      refine forall2_imp_mem Fst ?_
      intro f s hf hs hA
      exact ⟨hA, hlook s hs⟩
    refine forall2_map_right ?_ Fst2
    intro f s hA
    obtain ⟨⟨hname, hpath, hread, hsha, hsz, -⟩, hlk⟩ := hA
    intro idv
    refine ⟨hname, hsha, hsz, rfl, s.bytes, ?_, hread⟩
    show diskLookup d2 s.stored_rel_path = some s.bytes
    exact hlk

/-- C2. Round trip: exporting a well-formed stored version and importing
the resulting archive into an empty catalog and empty store succeeds and
creates a tool and version whose name, slug, description, category, tags,
version label, changelog, instructions, file names, sizes, and digests
are identical to the exported version's, and whose stored blobs are
byte-identical to the originals. Well-formedness asks exactly what the
application's own ingest pipeline guarantees of stored rows: trimmed
bounded text fields, a slugified slug, normalized tags, sanitize-fixed
file names, lowercase trimmed digests, positive bounded sizes, and byte
values below 256 in the store. -/
theorem export_import_round_trip_C2 {d : Disk} {ctx : ExportVersionContext}
    {ar : Archive} (ntid nvid : Str) (now : Int) (fresh : Nat → Str)
    (hex : export_tool_version_zip d ctx = .ok ar)
    (hne : ctx.files ≠ [])
    (hnm3 : trimStr ctx.tool.name = ctx.tool.name ∧ ctx.tool.name ≠ [] ∧
      utf8Len ctx.tool.name ≤ 120)
    (hsl3 : trimStr ctx.tool.slug = ctx.tool.slug ∧ ctx.tool.slug ≠ [] ∧
      utf8Len ctx.tool.slug ≤ 120 ∧ slugify ctx.tool.slug = ctx.tool.slug)
    (hds3 : trimStr ctx.tool.description = ctx.tool.description ∧
      ctx.tool.description ≠ [] ∧ utf8Len ctx.tool.description ≤ 8000)
    (hct3 : trimStr ctx.tool.category = ctx.tool.category ∧
      ctx.tool.category ≠ [] ∧ utf8Len ctx.tool.category ≤ 120)
    (htag3 : (∀ t ∈ ctx.tool.tags, trimStr t = t ∧ t ≠ [] ∧ utf8Len t ≤ 48) ∧
      List.Pairwise (fun a b => ¬ lowerStr a = lowerStr b) ctx.tool.tags ∧
      List.Pairwise (fun a b => lowerLe a b = true) ctx.tool.tags)
    (hvl3 : trimStr ctx.version.version = ctx.version.version ∧
      ctx.version.version ≠ [] ∧ utf8Len ctx.version.version ≤ 80)
    (hins3 : trimStr ctx.version.instructions_md = ctx.version.instructions_md ∧
      ctx.version.instructions_md ≠ [] ∧
      utf8Len ctx.version.instructions_md ≤ 512 * 1024)
    (hch3 : ctx.version.changelog_md = none ∨ ∃ c,
      ctx.version.changelog_md = some c ∧ trimStr c = c ∧ c ≠ [] ∧
      utf8Len c ≤ 512 * 1024)
    (hfm : ∀ f ∈ ctx.files,
      sanitize_filename f.original_name = .ok f.original_name ∧
      trimStr f.sha256 = f.sha256 ∧ lowerStr f.sha256 = f.sha256 ∧
      0 < f.size_bytes ∧ f.size_bytes ≤ (DEFAULT_MAX_FILE_SIZE_BYTES : Int))
    (htotF : (ctx.files.map (fun f => (max f.size_bytes 0).toNat)).sum ≤
      DEFAULT_MAX_VERSION_SIZE_BYTES)
    (hdiskB : ∀ e ∈ d, ∀ x ∈ e.2, x < 256)
    (hta : ntid ≠ [])
    (htc : ∀ c ∈ ntid, isAsciiAlnum c = true ∨ c = '-' ∨ c = '_')
    (hva : nvid ≠ [])
    (hvc : ∀ c ∈ nvid, isAsciiAlnum c = true ∨ c = '-' ∨ c = '_') :
    ∃ pf st2,
      import_tool_zip ar = .ok (ParsedImportArchive.mk
        (ToolMetadataInput.mk ctx.tool.name (some ctx.tool.slug)
          ctx.tool.description ctx.tool.category ctx.tool.tags)
        (VersionInsertInput.mk ctx.version.version ctx.version.changelog_md
          ctx.version.instructions_md) pf) ∧
      import_parsed_archive (AppState.mk emptyCatalog [])
        (ParsedImportArchive.mk
          (ToolMetadataInput.mk ctx.tool.name (some ctx.tool.slug)
            ctx.tool.description ctx.tool.category ctx.tool.tags)
          (VersionInsertInput.mk ctx.version.version ctx.version.changelog_md
            ctx.version.instructions_md) pf) ntid nvid now fresh =
        (st2, .ok (ntid, nvid, true)) ∧
      st2.catalog.tools = [ToolRow.mk ntid ctx.tool.name ctx.tool.slug
        ctx.tool.description ctx.tool.category now now] ∧
      fetch_tags st2.catalog ntid = ctx.tool.tags ∧
      st2.catalog.versions = [VersionRow.mk nvid ntid ctx.version.version
        ctx.version.changelog_md ctx.version.instructions_md now] ∧
      List.Forall₂ (fun (f g : FileRow) =>
        g.original_name = f.original_name ∧ g.sha256 = f.sha256 ∧
        g.size_bytes = f.size_bytes ∧ g.tool_version_id = nvid ∧
        ∃ b, diskLookup st2.disk g.stored_rel_path = some b ∧
          read_stored_file_bytes d f.stored_rel_path = .ok b)
        ctx.files st2.catalog.files := by
  obtain ⟨pf, himp, Fpf, hlowN⟩ := import_after_export hex hnm3
    ⟨hsl3.1, hsl3.2.1, hsl3.2.2.1⟩ hds3 hct3 hvl3 hins3 hch3 hfm htotF
  obtain ⟨st2, hrun, htools, htags, hvers, hfiles⟩ :=
    import_parsed_on_empty hne hnm3 ⟨hsl3.1, hsl3.2.1, hsl3.2.2.2⟩ hds3 hct3
      htag3 hvl3 hins3 hch3 hfm htotF hdiskB hta htc hva hvc Fpf hlowN
  exact ⟨pf, st2, himp, hrun, htools, htags, hvers, hfiles⟩

theorem export_import_round_trip_C2_witness :
    ∃ ar pf st2,
      export_tool_version_zip rtDisk rtCtx = .ok ar ∧
      import_tool_zip ar = .ok (ParsedImportArchive.mk
        (ToolMetadataInput.mk rtCtx.tool.name (some rtCtx.tool.slug)
          rtCtx.tool.description rtCtx.tool.category rtCtx.tool.tags)
        (VersionInsertInput.mk rtCtx.version.version rtCtx.version.changelog_md
          rtCtx.version.instructions_md) pf) ∧
      import_parsed_archive (AppState.mk emptyCatalog [])
        (ParsedImportArchive.mk
          (ToolMetadataInput.mk rtCtx.tool.name (some rtCtx.tool.slug)
            rtCtx.tool.description rtCtx.tool.category rtCtx.tool.tags)
          (VersionInsertInput.mk rtCtx.version.version rtCtx.version.changelog_md
            rtCtx.version.instructions_md) pf) "t2".toList "v2".toList 0
        natDecimal = (st2, .ok ("t2".toList, "v2".toList, true)) := by
  have hexw : ∃ ar, export_tool_version_zip rtDisk rtCtx = .ok ar := by
    exact ⟨_, rfl⟩
  obtain ⟨ar, hex⟩ := hexw
  obtain ⟨pf, st2, h1, h2, -, -, -, -⟩ := export_import_round_trip_C2
    "t2".toList "v2".toList 0 natDecimal hex
    (by decide)
    (by decide)
    (by decide)
    (by decide)
    (by decide)
    (by decide)
    (by decide)
    (by decide)
    (Or.inl rfl)
    (by
      intro f hf
      have hf2 : f = FileRow.mk "f1".toList "v9".toList "a.scr".toList
          "tools/t9/v9/files/a.scr".toList (sha256_hex [97]) 1 none 0 := by
        simp only [rtCtx, List.mem_cons, List.not_mem_nil, or_false] at hf
        exact hf
      subst hf2
      exact ⟨rfl, rfl, rfl, by decide, by decide⟩)
    (by decide)
    (by decide)
    (by decide)
    (by decide)
    (by decide)
    (by decide)
  exact ⟨ar, pf, st2, hex, h1, h2⟩

/-! ## add-version frame effect (C9) -/

/-- C9. `add_version_with_files` only touches the parent tool's
`updated_at` (now set to `now`): every other tool field — id, name,
slug, description, category, created_at — and every other tool row are
carried over verbatim, and the tag table (hence every tool's fetched
tag list) is untouched; a missing tool yields `NotFound` and an
existing `(tool_id, version)` pair yields `Conflict`, both errors
leaving no updated catalog to commit. -/
theorem add_version_frame_C9 :
    (∀ (cat : Catalog) (tool_id version_id : Str)
        (version : VersionInsertInput) (files : List FileRecordInsert)
        (now : Int) (fresh : Nat → Str) (cat2 : Catalog) (vid : Str),
      add_version_with_files cat tool_id version_id version files now fresh =
        .ok (cat2, vid) →
      cat2.tools = cat.tools.map (fun t =>
        if t.id = tool_id then
          ToolRow.mk t.id t.name t.slug t.description t.category t.created_at now
        else t) ∧
      cat2.tool_tags = cat.tool_tags ∧
      (∀ tid, fetch_tags cat2 tid = fetch_tags cat tid)) ∧
    (∀ (cat : Catalog) (tool_id version_id : Str)
        (version : VersionInsertInput) (files : List FileRecordInsert)
        (now : Int) (fresh : Nat → Str),
      (∀ t ∈ cat.tools, ¬ t.id = tool_id) →
      add_version_with_files cat tool_id version_id version files now fresh =
        .error (.NotFound "Tool not found.".toList)) ∧
    (∀ (cat : Catalog) (tool_id version_id : Str)
        (version : VersionInsertInput) (files : List FileRecordInsert)
        (now : Int) (fresh : Nat → Str) (version_label instructions : Str)
        (changelog : Option Str),
      cat.tools.any (fun t => decide (t.id = tool_id)) = true →
      validate_required "version".toList version.version 80 = .ok version_label →
      validate_required "instructions".toList version.instructions_md
        (512 * 1024) = .ok instructions →
      normalize_optional_text version.changelog_md (512 * 1024) = .ok changelog →
      (find_version_id cat tool_id version_label).isSome = true →
      add_version_with_files cat tool_id version_id version files now fresh =
        .error (.Conflict "Version already exists for this tool.".toList)) := by
  refine ⟨?_, ?_, ?_⟩
  · intro cat tool_id version_id version files now fresh cat2 vid h
    rw [add_version_with_files] at h
    split at h
    · exact absurd h (by simp)
    obtain ⟨version_label, -, h⟩ := bind_ok' h
    obtain ⟨instructions, -, h⟩ := bind_ok' h
    obtain ⟨changelog, -, h⟩ := bind_ok' h
    split at h
    · exact absurd h (by simp)
    have hcat2 : Catalog.mk
        (cat.tools.map (fun t =>
          if t.id = tool_id then
            ToolRow.mk t.id t.name t.slug t.description t.category t.created_at now
          else t))
        cat.tool_tags
        (cat.versions ++ [VersionRow.mk version_id tool_id version_label
          changelog instructions now])
        (cat.files ++ insert_files version_id files now fresh) = cat2 := by
      have h2 : _ = (cat2, vid) := Except.ok.inj h
      exact congrArg Prod.fst h2
    refine ⟨?_, ?_, ?_⟩
    · rw [← hcat2]
    · rw [← hcat2]
    · intro tid
      rw [fetch_tags, fetch_tags, ← hcat2]
  · intro cat tool_id version_id version files now fresh habs
    rw [add_version_with_files]
    rw [if_pos (show ¬ cat.tools.any (fun t => decide (t.id = tool_id)) = true by
      rw [List.any_eq_false.mpr (fun t ht => by simpa using habs t ht)]
      exact Bool.false_ne_true)]
  · intro cat tool_id version_id version files now fresh version_label
      instructions changelog hany hvl hins hch hfind
    rw [add_version_with_files]
    rw [if_neg (not_not_intro hany)]
    rw [hvl]
    simp only [Bind.bind, Except.bind]
    rw [hins]
    simp only [Bind.bind, Except.bind]
    rw [hch]
    simp only [Bind.bind, Except.bind]
    rw [if_pos hfind]

theorem add_version_frame_C9_witness :
    Catalog.tools (Catalog.mk
        [ToolRow.mk "t1".toList "Tool".toList "tool".toList "d".toList
          "c".toList 0 5]
        [] [VersionRow.mk "v2".toList "t1".toList "1.1.0".toList none
          "inst".toList 5] []) =
      (Catalog.mk [ToolRow.mk "t1".toList "Tool".toList "tool".toList
          "d".toList "c".toList 0 0] [] [] []).tools.map (fun t =>
        if t.id = "t1".toList then
          ToolRow.mk t.id t.name t.slug t.description t.category t.created_at 5
        else t) ∧
    Catalog.tool_tags (Catalog.mk
        [ToolRow.mk "t1".toList "Tool".toList "tool".toList "d".toList
          "c".toList 0 5]
        [] [VersionRow.mk "v2".toList "t1".toList "1.1.0".toList none
          "inst".toList 5] []) =
      Catalog.tool_tags (Catalog.mk [ToolRow.mk "t1".toList "Tool".toList
        "tool".toList "d".toList "c".toList 0 0] [] [] []) ∧
    (∀ tid, fetch_tags (Catalog.mk
        [ToolRow.mk "t1".toList "Tool".toList "tool".toList "d".toList
          "c".toList 0 5]
        [] [VersionRow.mk "v2".toList "t1".toList "1.1.0".toList none
          "inst".toList 5] []) tid =
      fetch_tags (Catalog.mk [ToolRow.mk "t1".toList "Tool".toList
        "tool".toList "d".toList "c".toList 0 0] [] [] []) tid) :=
  add_version_frame_C9.1
    (Catalog.mk [ToolRow.mk "t1".toList "Tool".toList "tool".toList
      "d".toList "c".toList 0 0] [] [] [])
    "t1".toList "v2".toList ⟨"1.1.0".toList, none, "inst".toList⟩ [] 5
    (fun j => natDecimal j) _ "v2".toList rfl

theorem slug_uniqueness_C8_witness :
    (∀ t ∈ emptyCatalog.tools, ¬ t.slug = "my-tool".toList) ∧
    ("my-tool".toList = slugify "My Tool".toList ∨
      ∃ k, 2 ≤ k ∧ "my-tool".toList =
        slugify "My Tool".toList ++ '-' :: natDecimal k) :=
  slug_uniqueness_C8.1 emptyCatalog "My Tool".toList "my-tool".toList rfl

end KordaTools
